import Mathlib

/-!
Verification of the kd-forest program (tavianator/kd-forest, C sources).

Shallow embedding conventions:
* `double` coordinates are modelled as exact rationals `ℚ`; the algorithms use
  only `+`, `-`, `*` and comparisons on them.
* Pointers to `kd_node_t` are modelled by value, with an `id` field standing
  for the node's address (pointer identity); a `NULL` tree pointer is the
  `KdTree.leaf` constructor.
* The search state `(best, limit)` of `kd_find_nearest_recursive` is an
  `Option (KdNode × ℚ)`: `none` models `best == NULL && limit == INFINITY`;
  in the C code the limit is finite exactly when `best` is non-NULL.
-/

namespace KDF

/-- Model of `kd_node_t` (kd-forest.h / kd-forest.c): three coordinates,
the `(x, y)` pixel payload, and the `added`/`removed` flags.  The `id`
field models the node's address. -/
structure KdNode where
  id : Nat
  c0 : ℚ
  c1 : ℚ
  c2 : ℚ
  x : Nat
  y : Nat
  added : Bool
  removed : Bool
deriving DecidableEq, Repr

instance : Inhabited KdNode := ⟨⟨0, 0, 0, 0, 0, 0, false, false⟩⟩

/-- `node->coords[i]` for `i < KD_DIMEN = 3`. -/
def KdNode.coords (n : KdNode) : Fin 3 → ℚ
  | 0 => n.c0
  | 1 => n.c1
  | 2 => n.c2

/-- A k-d tree: `leaf` models a NULL `kd_node_t *`, `node` a node with its
`left`/`right` child pointers. -/
inductive KdTree where
  | leaf : KdTree
  | node (data : KdNode) (left right : KdTree) : KdTree
deriving DecidableEq, Repr

namespace KdTree

/-- All nodes physically stored in a tree (preorder: root, left, right). -/
def nodes : KdTree → List KdNode
  | .leaf => []
  | .node d l r => d :: (nodes l ++ nodes r)

end KdTree

/-- Model of `kd_distance_sq`: squared Euclidean distance of two coordinate
triples. -/
def kd_distance_sq (a b : Fin 3 → ℚ) : ℚ :=
  ∑ i : Fin 3, (a i - b i) * (a i - b i)

/-- Search state of `kd_find_nearest_recursive`: `none` is
`best == NULL, limit == INFINITY`. -/
abbrev Best := Option (KdNode × ℚ)

/-- `d < *limit` (true when `limit == INFINITY`). -/
def lt_limit (d : ℚ) : Best → Bool
  | none => true
  | some (_, l) => decide (d < l)

/-- `d <= *limit` (true when `limit == INFINITY`). -/
def le_limit (d : ℚ) : Best → Bool
  | none => true
  | some (_, l) => decide (d ≤ l)

/-- Model of `kd_find_nearest_recursive` (kd-forest.c).  The three
sequential updates of `(best, limit)` — the candidate test at the root,
the guarded recursion into the left child, then into the right child —
are performed in the C order; recursing into a `leaf` is the identity,
which models the `root->left`/`root->right` NULL guards. -/
def kd_find_nearest_recursive (target : Fin 3 → ℚ) :
    KdTree → Fin 3 → Best → Best
  | .leaf, _, best => best
  | .node root l r, coord, best =>
    let dist := target coord - root.coords coord
    let dist_sq := dist * dist
    let root_dist_sq := kd_distance_sq root.coords target
    let best1 := if !root.removed && lt_limit root_dist_sq best then
        some (root, root_dist_sq)
      else best
    let best2 := if decide (dist ≤ 0) || le_limit dist_sq best1 then
        kd_find_nearest_recursive target l (coord + 1) best1
      else best1
    let best3 := if decide (dist ≥ 0) || le_limit dist_sq best2 then
        kd_find_nearest_recursive target r (coord + 1) best2
      else best2
    best3

/-- Model of `kd_forest_t`: the array of tree roots (index = slot,
`roots_size = roots.length`), the live count `size` and the
live-plus-tombstoned count `size_est`. -/
structure KdForest where
  roots : List KdTree
  size : Nat
  size_est : Nat
deriving DecidableEq, Repr

/-- Model of `kdf_init`. -/
def kdf_init : KdForest := ⟨[], 0, 0⟩

/-- All nodes physically stored in the forest. -/
def forestNodes (kdf : KdForest) : List KdNode :=
  kdf.roots.flatMap KdTree.nodes

/-- Model of `kdf_find_nearest` (kd-forest.c): query each root in slot
order, threading the same `best`/`limit` state; a NULL root is skipped,
which again is the identity on the state. -/
def kdf_find_nearest (kdf : KdForest) (target : Fin 3 → ℚ) : Best :=
  kdf.roots.foldl
    (fun best root => kd_find_nearest_recursive target root 0 best) none

/-- The k-d tree ordering invariant established by `kd_build_tree`:
at a node split on axis `a`, the left subtree's coordinates on axis `a`
are `≤` the root's, the right subtree's are `≥`, and the subtrees satisfy
the invariant on axis `a + 1 (mod 3)`. -/
inductive KdTree.WF : Fin 3 → KdTree → Prop
  | leaf (a : Fin 3) : KdTree.WF a .leaf
  | node (a : Fin 3) (d : KdNode) (l r : KdTree)
      (hl : ∀ n ∈ l.nodes, n.coords a ≤ d.coords a)
      (hr : ∀ n ∈ r.nodes, d.coords a ≤ n.coords a)
      (wl : KdTree.WF (a + 1) l) (wr : KdTree.WF (a + 1) r) :
      KdTree.WF a (.node d l r)

/-- `x` improves (or equals) the search state `y`: the limit can only
shrink, and a non-NULL best never becomes NULL. -/
def Best.Improves (x y : Best) : Prop :=
  match y with
  | none => True
  | some (_, ly) =>
    match x with
    | none => False
    | some (_, lx) => lx ≤ ly

theorem Best.Improves.refl (x : Best) : Best.Improves x x := by
  cases x with
  | none => trivial
  | some p => exact le_refl p.2

theorem Best.Improves.trans {x y z : Best} (hxy : Best.Improves x y)
    (hyz : Best.Improves y z) : Best.Improves x z := by
  cases z with
  | none => trivial
  | some pz =>
    cases y with
    | none => exact hyz.elim
    | some py =>
      cases x with
      | none => exact hxy.elim
      | some px => exact le_trans hxy hyz

theorem Best.Improves.ne_none {x y : Best} (h : Best.Improves x y)
    (hy : y ≠ none) : x ≠ none := by
  cases y with
  | none => exact absurd rfl hy
  | some py =>
    cases x with
    | none => exact h.elim
    | some px => exact fun hx => Option.noConfusion hx

theorem Best.Improves.none_of_none {x y : Best} (h : Best.Improves x y)
    (hx : x = none) : y = none := by
  cases y with
  | none => rfl
  | some py => exact absurd hx ((h.ne_none (fun hy => Option.noConfusion hy)))

/-- The candidate update at a node only improves the search state. -/
theorem improves_candidate (n : KdNode) (q : ℚ) (best : Best) (c : Bool) :
    Best.Improves (if c && lt_limit q best then some (n, q) else best) best := by
  by_cases h : (c && lt_limit q best) = true
  · rw [if_pos h]
    cases best with
    | none => trivial
    | some p =>
      have h2 : lt_limit q (some p) = true := (Bool.and_eq_true_iff.mp h).2
      simp only [lt_limit, decide_eq_true_eq] at h2
      exact le_of_lt h2
  · rw [if_neg h]; exact Best.Improves.refl best

/-- `kd_find_nearest_recursive` only improves the search state: the limit
never grows, and a non-NULL best stays non-NULL. -/
theorem kd_find_improves (target : Fin 3 → ℚ) (t : KdTree) :
    ∀ (a : Fin 3) (best : Best),
      Best.Improves (kd_find_nearest_recursive target t a best) best := by
  induction t with
  | leaf => intro a best; exact Best.Improves.refl best
  | node root l r ihl ihr =>
    intro a best
    simp only [kd_find_nearest_recursive]
    have h1 : Best.Improves
        (if !root.removed && lt_limit (kd_distance_sq root.coords target) best
          then some (root, kd_distance_sq root.coords target) else best) best :=
      improves_candidate _ _ _ _
    set best1 := (if !root.removed && lt_limit (kd_distance_sq root.coords target) best
          then some (root, kd_distance_sq root.coords target) else best) with hb1
    set dist := target a - root.coords a with hdist
    have h2 : Best.Improves
        (if (decide (dist ≤ 0) || le_limit (dist * dist) best1) = true then
          kd_find_nearest_recursive target l (a + 1) best1 else best1) best1 := by
      by_cases hg : (decide (dist ≤ 0) || le_limit (dist * dist) best1) = true
      · rw [if_pos hg]; exact ihl _ _
      · rw [if_neg hg]; exact Best.Improves.refl _
    set best2 := (if (decide (dist ≤ 0) || le_limit (dist * dist) best1) = true then
          kd_find_nearest_recursive target l (a + 1) best1 else best1) with hb2
    have h3 : Best.Improves
        (if (decide (dist ≥ 0) || le_limit (dist * dist) best2) = true then
          kd_find_nearest_recursive target r (a + 1) best2 else best2) best2 := by
      by_cases hg : (decide (dist ≥ 0) || le_limit (dist * dist) best2) = true
      · rw [if_pos hg]; exact ihr _ _
      · rw [if_neg hg]; exact Best.Improves.refl _
    exact (h3.trans h2).trans h1


/-- Soundness predicate for a search state: a non-NULL best is a live node
from `P`, and the limit is its exact squared distance to the target. -/
def SoundBest (target : Fin 3 → ℚ) (P : KdNode → Prop) (best : Best) : Prop :=
  ∀ b lb, best = some (b, lb) →
    lb = kd_distance_sq b.coords target ∧ b.removed = false ∧ P b

theorem SoundBest.mono {target : Fin 3 → ℚ} {P Q : KdNode → Prop} {best : Best}
    (h : SoundBest target P best) (hPQ : ∀ n, P n → Q n) :
    SoundBest target Q best := by
  intro b lb hb
  obtain ⟨h1, h2, h3⟩ := h b lb hb
  exact ⟨h1, h2, hPQ b h3⟩

/-- The search result is sound: any returned candidate is a live node of the
searched tree (or was already the incoming candidate), at its exact squared
distance. -/
theorem kd_find_sound (target : Fin 3 → ℚ) (t : KdTree) :
    ∀ (a : Fin 3) (best : Best) (P : KdNode → Prop),
      SoundBest target P best →
      SoundBest target (fun n => P n ∨ n ∈ t.nodes)
        (kd_find_nearest_recursive target t a best) := by
  induction t with
  | leaf =>
    intro a best P h
    exact h.mono (fun n hn => Or.inl hn)
  | node root l r ihl ihr =>
    intro a best P h
    simp only [kd_find_nearest_recursive]
    set dist := target a - root.coords a with hdist
    have h1 : SoundBest target (fun n => P n ∨ n ∈ KdTree.nodes (.node root l r))
        (if !root.removed && lt_limit (kd_distance_sq root.coords target) best
          then some (root, kd_distance_sq root.coords target) else best) := by
      by_cases hc : (!root.removed && lt_limit (kd_distance_sq root.coords target) best) = true
      · rw [if_pos hc]
        intro b lb hb
        obtain ⟨hb1, hb2⟩ := Prod.mk.injEq _ _ _ _ ▸ Option.some.injEq _ _ ▸ hb
        refine ⟨by rw [← hb1, ← hb2], ?_, ?_⟩
        · rw [← hb1]
          have := (Bool.and_eq_true_iff.mp hc).1
          simpa using this
        · rw [← hb1]
          exact Or.inr (by simp [KdTree.nodes])
      · rw [if_neg hc]
        exact h.mono (fun n hn => Or.inl hn)
    set best1 := (if !root.removed && lt_limit (kd_distance_sq root.coords target) best
          then some (root, kd_distance_sq root.coords target) else best) with hb1def
    have h2 : SoundBest target (fun n => P n ∨ n ∈ KdTree.nodes (.node root l r))
        (if (decide (dist ≤ 0) || le_limit (dist * dist) best1) = true then
          kd_find_nearest_recursive target l (a + 1) best1 else best1) := by
      by_cases hc : (decide (dist ≤ 0) || le_limit (dist * dist) best1) = true
      · rw [if_pos hc]
        have := ihl (a + 1) best1 _ h1
        exact this.mono (fun n hn => by
          rcases hn with hn | hn
          · exact hn
          · exact Or.inr (by simp [KdTree.nodes, hn]))
      · rw [if_neg hc]; exact h1
    set best2 := (if (decide (dist ≤ 0) || le_limit (dist * dist) best1) = true then
          kd_find_nearest_recursive target l (a + 1) best1 else best1) with hb2def
    by_cases hc : (decide (dist ≥ 0) || le_limit (dist * dist) best2) = true
    · rw [if_pos hc]
      have := ihr (a + 1) best2 _ h2
      exact this.mono (fun n hn => by
        rcases hn with hn | hn
        · exact hn
        · exact Or.inr (by simp [KdTree.nodes, hn]))
    · rw [if_neg hc]; exact h2

/-- If every node of the tree is tombstoned, the search leaves the state
unchanged in the NULL case. -/
theorem kd_find_none_of_all_removed (target : Fin 3 → ℚ) (t : KdTree) :
    ∀ (a : Fin 3), (∀ n ∈ t.nodes, n.removed = true) →
      kd_find_nearest_recursive target t a none = none := by
  induction t with
  | leaf => intro a _; rfl
  | node root l r ihl ihr =>
    intro a hall
    have hroot : root.removed = true := hall root (by simp [KdTree.nodes])
    have hl : ∀ n ∈ l.nodes, n.removed = true := fun n hn =>
      hall n (by simp [KdTree.nodes, hn])
    have hr : ∀ n ∈ r.nodes, n.removed = true := fun n hn =>
      hall n (by simp [KdTree.nodes, hn])
    simp only [kd_find_nearest_recursive, hroot]
    simp only [Bool.not_true, Bool.false_and, if_neg (by simp : ¬(false = true))]
    rw [if_pos (by simp [le_limit] : (decide (target a - root.coords a ≤ 0) ||
      le_limit ((target a - root.coords a) * (target a - root.coords a)) none) = true)]
    rw [ihl (a + 1) hl]
    rw [if_pos (by simp [le_limit] : (decide (target a - root.coords a ≥ 0) ||
      le_limit ((target a - root.coords a) * (target a - root.coords a)) none) = true)]
    exact ihr (a + 1) hr

/-- If the search returns NULL then it started with NULL and every node of
the tree is tombstoned (no live node is ever pruned while the limit is
still infinite). -/
theorem kd_find_all_removed_of_none (target : Fin 3 → ℚ) (t : KdTree) :
    ∀ (a : Fin 3) (best : Best),
      kd_find_nearest_recursive target t a best = none →
      best = none ∧ ∀ n ∈ t.nodes, n.removed = true := by
  induction t with
  | leaf =>
    intro a best h
    exact ⟨h, by simp [KdTree.nodes]⟩
  | node root l r ihl ihr =>
    intro a best hres
    simp only [kd_find_nearest_recursive] at hres
    set dist := target a - root.coords a with hdist
    set best1 := (if !root.removed && lt_limit (kd_distance_sq root.coords target) best
          then some (root, kd_distance_sq root.coords target) else best) with hb1def
    set best2 := (if (decide (dist ≤ 0) || le_limit (dist * dist) best1) = true then
          kd_find_nearest_recursive target l (a + 1) best1 else best1) with hb2def
    -- the final state improves best2, which improves best1, which improves best
    have i3 : Best.Improves (if (decide (dist ≥ 0) || le_limit (dist * dist) best2) = true then
          kd_find_nearest_recursive target r (a + 1) best2 else best2) best2 := by
      by_cases hc : (decide (dist ≥ 0) || le_limit (dist * dist) best2) = true
      · rw [if_pos hc]; exact kd_find_improves target r (a + 1) best2
      · rw [if_neg hc]; exact Best.Improves.refl _
    have h2none : best2 = none := i3.none_of_none hres
    have i2 : Best.Improves best2 best1 := by
      rw [hb2def]
      by_cases hc : (decide (dist ≤ 0) || le_limit (dist * dist) best1) = true
      · rw [if_pos hc]; exact kd_find_improves target l (a + 1) best1
      · rw [if_neg hc]; exact Best.Improves.refl _
    have h1none : best1 = none := i2.none_of_none h2none
    have i1 : Best.Improves best1 best := improves_candidate _ _ _ _
    have hbnone : best = none := i1.none_of_none h1none
    -- the root must be tombstoned
    have hroot : root.removed = true := by
      by_contra hlive
      have hlive' : root.removed = false := Bool.not_eq_true _ ▸ hlive
      have : best1 = some (root, kd_distance_sq root.coords target) := by
        rw [hb1def, hbnone]
        rw [if_pos (by simp [hlive', lt_limit])]
      rw [this] at h1none
      exact Option.noConfusion h1none
    -- with best1 = none the left guard holds, so the left search ran on none
    have hleft : kd_find_nearest_recursive target l (a + 1) none = none := by
      have hguard : (decide (dist ≤ 0) || le_limit (dist * dist) best1) = true := by
        rw [h1none]; simp [le_limit]
      rw [hb2def, if_pos hguard, h1none] at h2none
      exact h2none
    obtain ⟨-, halll⟩ := ihl (a + 1) none hleft
    -- with best2 = none the right guard holds, so the right search ran on none
    have hright : kd_find_nearest_recursive target r (a + 1) none = none := by
      have hguard : (decide (dist ≥ 0) || le_limit (dist * dist) best2) = true := by
        rw [h2none]; simp [le_limit]
      rw [if_pos hguard, h2none] at hres
      exact hres
    obtain ⟨-, hallr⟩ := ihr (a + 1) none hright
    refine ⟨hbnone, ?_⟩
    intro n hn
    simp only [KdTree.nodes, List.mem_cons, List.mem_append] at hn
    rcases hn with hn | hn | hn
    · rw [hn]; exact hroot
    · exact halll n hn
    · exact hallr n hn

/-- The search state has a candidate whose limit is at most `q`. -/
def withinLimit (best : Best) (q : ℚ) : Prop :=
  ∃ b lb, best = some (b, lb) ∧ lb ≤ q

theorem withinLimit_of_improves {x y : Best} {q : ℚ} (h : Best.Improves x y)
    (hy : withinLimit y q) : withinLimit x q := by
  obtain ⟨b, lb, hyeq, hle⟩ := hy
  subst hyeq
  cases x with
  | none => exact h.elim
  | some p => exact ⟨p.1, p.2, rfl, le_trans h hle⟩

/-- Every single-axis squared difference is a lower bound for the squared
Euclidean distance. -/
theorem axis_le_distance_sq (u v : Fin 3 → ℚ) (i : Fin 3) :
    (u i - v i) * (u i - v i) ≤ kd_distance_sq u v := by
  unfold kd_distance_sq
  exact Finset.single_le_sum (f := fun j => (u j - v j) * (u j - v j))
    (fun j _ => mul_self_nonneg _) (Finset.mem_univ i)

theorem mul_self_le_mul_self_of_le {c e : ℚ} (hc : 0 ≤ c) (h : c ≤ e) :
    c * c ≤ e * e :=
  mul_le_mul h h hc (le_trans hc h)

/-- Branch-and-bound optimality: on a tree satisfying the k-d ordering
invariant, the search result's limit is at most the squared distance of
every live node of the tree (pruned subtrees cannot contain anything
better than the current limit). -/
theorem kd_find_within (target : Fin 3 → ℚ) {a : Fin 3} {t : KdTree}
    (wf : KdTree.WF a t) :
    ∀ (best : Best) (n : KdNode), n ∈ t.nodes → n.removed = false →
      withinLimit (kd_find_nearest_recursive target t a best)
        (kd_distance_sq n.coords target) := by
  induction wf with
  | leaf a =>
    intro best n hn
    simp [KdTree.nodes] at hn
  | node a root l r hl hr wl wr ihl ihr =>
    intro best n hn hlive
    simp only [kd_find_nearest_recursive]
    set dist := target a - root.coords a with hdistdef
    set best1 := (if !root.removed && lt_limit (kd_distance_sq root.coords target) best
          then some (root, kd_distance_sq root.coords target) else best) with hb1def
    set best2 := (if (decide (dist ≤ 0) || le_limit (dist * dist) best1) = true then
          kd_find_nearest_recursive target l (a + 1) best1 else best1) with hb2def
    have i2 : Best.Improves best2 best1 := by
      rw [hb2def]
      by_cases hg : (decide (dist ≤ 0) || le_limit (dist * dist) best1) = true
      · rw [if_pos hg]; exact kd_find_improves target l (a + 1) best1
      · rw [if_neg hg]; exact Best.Improves.refl _
    have i3 : Best.Improves (if (decide (dist ≥ 0) || le_limit (dist * dist) best2) = true then
          kd_find_nearest_recursive target r (a + 1) best2 else best2) best2 := by
      by_cases hg : (decide (dist ≥ 0) || le_limit (dist * dist) best2) = true
      · rw [if_pos hg]; exact kd_find_improves target r (a + 1) best2
      · rw [if_neg hg]; exact Best.Improves.refl _
    simp only [KdTree.nodes, List.mem_cons, List.mem_append] at hn
    rcases hn with hn | hn | hn
    · -- the node is the root itself
      subst hn
      have h1 : withinLimit best1 (kd_distance_sq n.coords target) := by
        rw [hb1def]
        by_cases hc : (!n.removed && lt_limit (kd_distance_sq n.coords target) best) = true
        · rw [if_pos hc]; exact ⟨n, _, rfl, le_refl _⟩
        · rw [if_neg hc]
          have hfl : lt_limit (kd_distance_sq n.coords target) best = false := by
            rcases Bool.and_eq_false_iff.mp (Bool.not_eq_true _ ▸ hc) with h | h
            · rw [hlive] at h; simp at h
            · exact h
          cases best with
          | none => simp [lt_limit] at hfl
          | some p =>
            simp only [lt_limit, decide_eq_false_iff_not, not_lt] at hfl
            exact ⟨p.1, p.2, rfl, hfl⟩
      exact withinLimit_of_improves (i3.trans i2) h1
    · -- the node is in the left subtree
      have h2 : withinLimit best2 (kd_distance_sq n.coords target) := by
        rw [hb2def]
        by_cases hg : (decide (dist ≤ 0) || le_limit (dist * dist) best1) = true
        · rw [if_pos hg]; exact ihl best1 n hn hlive
        · rw [if_neg hg]
          have hgf := Bool.or_eq_false_iff.mp (Bool.not_eq_true _ ▸ hg)
          have hdistpos : 0 < dist := by
            have := hgf.1
            simp only [decide_eq_false_iff_not, not_le] at this
            exact this
          cases hb1 : best1 with
          | none => rw [hb1] at hgf; simp [le_limit] at hgf
          | some p =>
            have hlim : p.2 < dist * dist := by
              have := hgf.2
              rw [hb1] at this
              simp only [le_limit, decide_eq_false_iff_not, not_le] at this
              exact this
            refine ⟨p.1, p.2, rfl, ?_⟩
            have hna : n.coords a ≤ root.coords a := hl n hn
            have hstep : dist ≤ target a - n.coords a := by
              rw [hdistdef]; linarith
            have hsq : dist * dist ≤
                (n.coords a - target a) * (n.coords a - target a) := by
              have : (target a - n.coords a) * (target a - n.coords a) =
                  (n.coords a - target a) * (n.coords a - target a) := by ring
              rw [← this]
              exact mul_self_le_mul_self_of_le (le_of_lt hdistpos) hstep
            have haxis := axis_le_distance_sq n.coords target a
            linarith
      exact withinLimit_of_improves i3 h2
    · -- the node is in the right subtree
      by_cases hg : (decide (dist ≥ 0) || le_limit (dist * dist) best2) = true
      · rw [if_pos hg]; exact ihr best2 n hn hlive
      · rw [if_neg hg]
        have hgf := Bool.or_eq_false_iff.mp (Bool.not_eq_true _ ▸ hg)
        have hdistneg : dist < 0 := by
          have := hgf.1
          simp only [ge_iff_le, decide_eq_false_iff_not, not_le] at this
          exact this
        cases hb2 : best2 with
        | none => rw [hb2] at hgf; simp [le_limit] at hgf
        | some p =>
          have hlim : p.2 < dist * dist := by
            have := hgf.2
            rw [hb2] at this
            simp only [le_limit, decide_eq_false_iff_not, not_le] at this
            exact this
          refine ⟨p.1, p.2, rfl, ?_⟩
          have hna : root.coords a ≤ n.coords a := hr n hn
          have hstep : -dist ≤ n.coords a - target a := by
            rw [hdistdef]; linarith
          have hsq : dist * dist ≤
              (n.coords a - target a) * (n.coords a - target a) := by
            have hneg : dist * dist = (-dist) * (-dist) := by ring
            rw [hneg]
            exact mul_self_le_mul_self_of_le (by linarith) hstep
          have haxis := axis_le_distance_sq n.coords target a
          linarith

/-- Folding the per-tree search over a list of roots only improves the
state. -/
theorem kdf_foldl_improves (target : Fin 3 → ℚ) (ts : List KdTree) :
    ∀ init : Best,
      Best.Improves
        (ts.foldl (fun best root => kd_find_nearest_recursive target root 0 best) init)
        init := by
  induction ts with
  | nil => intro init; exact Best.Improves.refl _
  | cons t ts ih =>
    intro init
    exact (ih (kd_find_nearest_recursive target t 0 init)).trans
      (kd_find_improves target t 0 init)

theorem kdf_foldl_sound (target : Fin 3 → ℚ) (ts : List KdTree) :
    ∀ (init : Best) (P : KdNode → Prop), SoundBest target P init →
      SoundBest target (fun n => P n ∨ n ∈ ts.flatMap KdTree.nodes)
        (ts.foldl (fun best root => kd_find_nearest_recursive target root 0 best) init) := by
  induction ts with
  | nil =>
    intro init P h
    exact h.mono (fun n hn => Or.inl hn)
  | cons t ts ih =>
    intro init P h
    simp only [List.foldl_cons]
    have h1 := kd_find_sound target t 0 init P h
    have h2 := ih _ _ h1
    exact h2.mono (fun n hn => by
      rcases hn with (hn | hn) | hn
      · exact Or.inl hn
      · exact Or.inr (by simp [hn])
      · exact Or.inr (by simp [hn]))

theorem kdf_foldl_within (target : Fin 3 → ℚ) (ts : List KdTree) :
    ∀ init : Best, (∀ t ∈ ts, KdTree.WF 0 t) →
      ∀ n : KdNode, n ∈ ts.flatMap KdTree.nodes → n.removed = false →
        withinLimit
          (ts.foldl (fun best root => kd_find_nearest_recursive target root 0 best) init)
          (kd_distance_sq n.coords target) := by
  induction ts with
  | nil => intro init _ n hn; simp at hn
  | cons t ts ih =>
    intro init hwf n hn hlive
    simp only [List.foldl_cons]
    simp only [List.flatMap_cons, List.mem_append] at hn
    rcases hn with hn | hn
    · have h1 := kd_find_within target (hwf t (by simp)) init n hn hlive
      exact withinLimit_of_improves (kdf_foldl_improves target ts _) h1
    · exact ih _ (fun u hu => hwf u (by simp [hu])) n hn hlive

theorem kdf_foldl_none_iff (target : Fin 3 → ℚ) (ts : List KdTree) :
    ∀ init : Best,
      (ts.foldl (fun best root => kd_find_nearest_recursive target root 0 best) init)
        = none ↔
      (init = none ∧ ∀ n ∈ ts.flatMap KdTree.nodes, n.removed = true) := by
  induction ts with
  | nil => intro init; simp
  | cons t ts ih =>
    intro init
    simp only [List.foldl_cons]
    rw [ih]
    constructor
    · rintro ⟨hstep, hrest⟩
      obtain ⟨hinit, hall⟩ := kd_find_all_removed_of_none target t 0 init hstep
      refine ⟨hinit, ?_⟩
      intro n hn
      simp only [List.flatMap_cons, List.mem_append] at hn
      rcases hn with hn | hn
      · exact hall n hn
      · exact hrest n hn
    · rintro ⟨hinit, hall⟩
      have htall : ∀ n ∈ t.nodes, n.removed = true := fun n hn =>
        hall n (by simp [hn])
      have hstep : kd_find_nearest_recursive target t 0 init = none := by
        rw [hinit]; exact kd_find_none_of_all_removed target t 0 htall
      refine ⟨hstep, ?_⟩
      intro n hn
      exact hall n (by simp [hn])

/-- Number of live (non-tombstoned) nodes of a forest. -/
def liveCount (kdf : KdForest) : Nat :=
  (forestNodes kdf).countP (fun n => !n.removed)

/-- C1: for every forest whose trees satisfy the k-d ordering invariant
established by `kd_build_tree`, and every target point, if the forest
contains at least one live (non-tombstoned) node then `kdf_find_nearest`
returns a live node of the forest whose squared Euclidean distance to the
target is minimal among all live nodes of all trees; tombstoned nodes are
never returned (but may appear anywhere in the trees — the search
traverses through them, which is why live nodes below them are still
found). -/
theorem c1_kdf_find_nearest_returns_min_live (kdf : KdForest) (target : Fin 3 → ℚ)
    (hwf : ∀ t ∈ kdf.roots, KdTree.WF 0 t)
    (hlive : ∃ n ∈ forestNodes kdf, n.removed = false) :
    ∃ b lb, kdf_find_nearest kdf target = some (b, lb) ∧
      b.removed = false ∧ b ∈ forestNodes kdf ∧
      lb = kd_distance_sq b.coords target ∧
      ∀ n ∈ forestNodes kdf, n.removed = false →
        kd_distance_sq b.coords target ≤ kd_distance_sq n.coords target := by
  obtain ⟨n0, hn0, hn0live⟩ := hlive
  have hw := kdf_foldl_within target kdf.roots none hwf n0 hn0 hn0live
  obtain ⟨b, lb, hres, -⟩ := hw
  have hsound := kdf_foldl_sound target kdf.roots none (fun _ => False)
    (fun b lb h => Option.noConfusion h)
  obtain ⟨hlb, hblive, hbmem⟩ := hsound b lb hres
  have hmem : b ∈ forestNodes kdf := by
    rcases hbmem with h | h
    · exact h.elim
    · exact h
  refine ⟨b, lb, hres, hblive, hmem, hlb, ?_⟩
  intro n hn hnl
  obtain ⟨b2, lb2, hres2, hle2⟩ :=
    kdf_foldl_within target kdf.roots none hwf n hn hnl
  rw [hres] at hres2
  obtain ⟨hb2, hlb2⟩ := Prod.mk.injEq _ _ _ _ ▸ Option.some.injEq _ _ ▸ hres2
  rw [← hlb, hlb2]
  exact hle2

/-- Concrete witness for `c1_kdf_find_nearest_returns_min_live`: a forest
with one tree holding a live node and a tombstoned child. -/
theorem c1_witness :
    (∃ b lb,
      kdf_find_nearest
        ⟨[KdTree.node ⟨0, 0, 0, 0, 0, 0, true, false⟩
            (KdTree.node ⟨1, -1, 0, 0, 1, 0, true, true⟩ .leaf .leaf) .leaf], 1, 2⟩
        (fun _ => 1) = some (b, lb) ∧
      b.removed = false ∧
      b ∈ forestNodes
        ⟨[KdTree.node ⟨0, 0, 0, 0, 0, 0, true, false⟩
            (KdTree.node ⟨1, -1, 0, 0, 1, 0, true, true⟩ .leaf .leaf) .leaf], 1, 2⟩ ∧
      lb = kd_distance_sq b.coords (fun _ => 1) ∧
      ∀ n ∈ forestNodes
        ⟨[KdTree.node ⟨0, 0, 0, 0, 0, 0, true, false⟩
            (KdTree.node ⟨1, -1, 0, 0, 1, 0, true, true⟩ .leaf .leaf) .leaf], 1, 2⟩,
        n.removed = false →
        kd_distance_sq b.coords (fun _ => 1) ≤ kd_distance_sq n.coords (fun _ => 1)) :=
  c1_kdf_find_nearest_returns_min_live _ _
    (by
      intro t ht
      simp only [List.mem_singleton] at ht
      subst ht
      refine KdTree.WF.node _ _ _ _ ?_ ?_ ?_ (KdTree.WF.leaf _)
      · intro n hn
        simp only [KdTree.nodes, List.mem_cons, List.append_nil] at hn
        rcases hn with hn | hn
        · subst hn; norm_num [KdNode.coords]
        · simp [KdTree.nodes] at hn
      · intro n hn; simp [KdTree.nodes] at hn
      · exact KdTree.WF.node _ _ _ _ (by intro n hn; simp [KdTree.nodes] at hn)
          (by intro n hn; simp [KdTree.nodes] at hn)
          (KdTree.WF.leaf _) (KdTree.WF.leaf _))
    ⟨⟨0, 0, 0, 0, 0, 0, true, false⟩, by simp [forestNodes, KdTree.nodes], rfl⟩

/-- C6: `kdf_find_nearest` returns NULL iff every tree of the forest is
empty or contains only tombstoned nodes; consequently, whenever the live
count `size` is at least 1 (with `size` equal to the number of live nodes,
the invariant maintained by the driver), the query returns a node. -/
theorem c6_kdf_find_nearest_none_iff (kdf : KdForest) (target : Fin 3 → ℚ) :
    (kdf_find_nearest kdf target = none ↔
      ∀ n ∈ forestNodes kdf, n.removed = true) ∧
    (kdf.size = liveCount kdf → 1 ≤ kdf.size →
      (kdf_find_nearest kdf target).isSome = true) := by
  have hiff := kdf_foldl_none_iff target kdf.roots none
  constructor
  · show kdf_find_nearest kdf target = none ↔ _
    unfold kdf_find_nearest forestNodes
    rw [hiff]
    simp
  · intro hsz hpos
    have hcount : 0 < (forestNodes kdf).countP (fun n => !n.removed) := by
      have : 0 < liveCount kdf := by omega
      exact this
    obtain ⟨n, hn, hnp⟩ := List.countP_pos_iff.mp hcount
    have hnl : n.removed = false := by
      simpa using hnp
    rcases hres : kdf_find_nearest kdf target with _ | p
    · exfalso
      have hall : ∀ m ∈ forestNodes kdf, m.removed = true := by
        have := (kdf_foldl_none_iff target kdf.roots none).mp hres
        exact this.2
      rw [hall n hn] at hnl
      exact Bool.noConfusion hnl
    · rfl

/-- Concrete witness for `c6_kdf_find_nearest_none_iff`: on a forest with
one live node and `size = 1` the query indeed returns a node. -/
theorem c6_witness :
    (kdf_find_nearest ⟨[KdTree.node ⟨0, 0, 0, 0, 0, 0, true, false⟩ .leaf .leaf], 1, 1⟩
        (fun _ => 0)).isSome = true :=
  (c6_kdf_find_nearest_none_iff
    ⟨[KdTree.node ⟨0, 0, 0, 0, 0, 0, true, false⟩ .leaf .leaf], 1, 1⟩
    (fun _ => 0)).2 (by rfl) (by norm_num)

/-- Model of `kd_collect_nodes`: preorder collection of a tree's nodes
into a buffer; a tombstoned root is skipped unless `include_removed`. -/
def kd_collect_nodes : KdTree → Bool → List KdNode
  | .leaf, _ => []
  | .node d l r, include_removed =>
    (if include_removed || !d.removed then [d] else []) ++
      kd_collect_nodes l include_removed ++ kd_collect_nodes r include_removed

/-- Model of `kdf_collect_nodes`: collect from the trees in slots
`0 .. slot-1`, skipping NULL roots. -/
def kdf_collect_nodes (kdf : KdForest) (slot : Nat) (include_removed : Bool) :
    List KdNode :=
  (kdf.roots.take slot).flatMap (fun t => kd_collect_nodes t include_removed)

/-- Model of `qsort` with comparator `kd_comparators[i]` (compare the
`i`-th coordinate): a stable insertion sort.  `qsort`'s order on ties is
unspecified; any comparison sort is a C-conforming refinement. -/
def kd_sort_axis (i : Fin 3) (l : List KdNode) : List KdNode :=
  l.insertionSort (fun u v => u.coords i ≤ v.coords i)

theorem kd_sort_axis_perm (i : Fin 3) (l : List KdNode) :
    (kd_sort_axis i l).Perm l :=
  List.perm_insertionSort _ l

/-- Buffer selection: `buffers[coord]`. -/
def bufGet (b0 b1 b2 : List KdNode) : Fin 3 → List KdNode
  | 0 => b0
  | 1 => b1
  | 2 => b2

/-- Model of `kd_build_tree_recursive`.  The three buffers hold the same
node set sorted by each axis.  The element at index `size/2` of the
splitting axis's buffer becomes the root; the C `is_left` flag on a node
is modelled by membership of the node's `id` in the left half of the
splitting axis's buffer (nodes are identified by their address, i.e. the
`id` field).  `fuel` bounds the recursion depth (each recursive call gets
a strictly smaller buffer, so `fuel = size` suffices). -/
def kd_build_tree_recursive :
    Nat → List KdNode → List KdNode → List KdNode → Fin 3 → KdTree
  | 0, _, _, _, _ => .leaf
  | fuel + 1, b0, b1, b2, coord =>
    let bc := bufGet b0 b1 b2 coord
    if bc.length = 0 then .leaf
    else
      let split := bc.length / 2
      let root := bc.getD split default
      let leftIds := (bc.take split).map KdNode.id
      let isLeft := fun (n : KdNode) => decide (n.id ∈ leftIds)
      let isRight := fun (n : KdNode) => !decide (n.id ∈ leftIds) && !decide (n.id = root.id)
      let lb0 := if coord = 0 then b0.take split else b0.filter isLeft
      let lb1 := if coord = 1 then b1.take split else b1.filter isLeft
      let lb2 := if coord = 2 then b2.take split else b2.filter isLeft
      let rb0 := if coord = 0 then b0.drop (split + 1) else b0.filter isRight
      let rb1 := if coord = 1 then b1.drop (split + 1) else b1.filter isRight
      let rb2 := if coord = 2 then b2.drop (split + 1) else b2.filter isRight
      KdTree.node root
        (kd_build_tree_recursive fuel lb0 lb1 lb2 (coord + 1))
        (kd_build_tree_recursive fuel rb0 rb1 rb2 (coord + 1))

/-- Model of `kd_build_tree`: copy the buffer, sort one copy per axis,
then run the recursive build starting on axis 0. -/
def kd_build_tree (buffer : List KdNode) : KdTree :=
  kd_build_tree_recursive buffer.length
    (kd_sort_axis 0 buffer) (kd_sort_axis 1 buffer) (kd_sort_axis 2 buffer) 0

/-- The slot scan in `kdf_balance`: the first slot holding a NULL root,
or `roots_size` if every slot is occupied. -/
def kdf_empty_slot : List KdTree → Nat
  | [] => 0
  | t :: rest => if t = .leaf then 0 else kdf_empty_slot rest + 1

/-- The rebuild loop of `kdf_balance`
(`for (i = 0, offset = 0; offset < buffer_size; ++i) ...`): deposit
chunks of the buffer into the slots named by the set bits of
`buffer_size`.  `fuel` bounds the iteration count (`buffer_size`
iterations always suffice). -/
def kdf_deposit (buffer : List KdNode) (buffer_size : Nat) :
    Nat → Nat → Nat → List KdTree
  | 0, _, _ => []
  | fuel + 1, i, offset =>
    if offset < buffer_size then
      let chunk := 2 ^ i
      if buffer_size &&& chunk ≠ 0 then
        kd_build_tree ((buffer.drop offset).take chunk) ::
          kdf_deposit buffer buffer_size fuel (i + 1) (offset ||| chunk)
      else
        KdTree.leaf :: kdf_deposit buffer buffer_size fuel (i + 1) offset
    else []

/-- Model of `kdf_balance`.  With `force` (full compaction): collect the
live nodes of every tree, set `size_est := size`, and rebuild everything,
truncating `roots_size` to the deposited slots.  Without `force`: find
the first empty slot, collect all nodes (live and tombstoned) of the
lower trees plus the new node, and rebuild slots `0..slot`; higher slots
are untouched. -/
def kdf_balance (kdf : KdForest) (new_node : KdNode) (force : Bool) : KdForest :=
  let size := kdf.size + 1
  let size_est := if force then size else kdf.size_est + 1
  let slot := if force then kdf.roots.length else kdf_empty_slot kdf.roots
  let buffer_size := if force then size else 2 ^ slot
  let buffer := new_node :: kdf_collect_nodes kdf slot (!force)
  let dep := kdf_deposit buffer buffer_size buffer_size 0 0
  let roots := if force then dep else dep ++ kdf.roots.drop dep.length
  ⟨roots, size, size_est⟩

/-- Model of `kdf_insert`: mark the node added, then rebalance, forcing a
full compaction when half or more of the nodes are tombstoned
(`size_est + 1 >= 2*(size + 1)`). -/
def kdf_insert (kdf : KdForest) (node : KdNode) : KdForest :=
  kdf_balance kdf { node with added := true }
    (decide (kdf.size_est + 1 ≥ 2 * (kdf.size + 1)))

/-- Pointer write `node->removed = true`, modelled by marking the node
with the given address (`id`) inside a tree. -/
def KdTree.markRemoved (i : Nat) : KdTree → KdTree
  | .leaf => .leaf
  | .node d l r =>
    .node (if d.id = i then { d with removed := true } else d)
      (KdTree.markRemoved i l) (KdTree.markRemoved i r)

/-- Model of `kdf_remove`: decrement the live count and set the node's
tombstone flag (the node stays in place). -/
def kdf_remove (kdf : KdForest) (i : Nat) : KdForest :=
  ⟨kdf.roots.map (KdTree.markRemoved i), kdf.size - 1, kdf.size_est⟩

/-- Erase every tombstone flag of a tree; two trees with the same
`stripTombstones` image agree on structure, coordinates, payloads, ids
and `added` flags. -/
def KdTree.stripTombstones : KdTree → KdTree
  | .leaf => .leaf
  | .node d l r =>
    .node { d with removed := false } l.stripTombstones r.stripTombstones

theorem KdTree.nodes_markRemoved (i : Nat) (t : KdTree) :
    (t.markRemoved i).nodes =
      t.nodes.map (fun d => if d.id = i then { d with removed := true } else d) := by
  induction t with
  | leaf => rfl
  | node d l r ihl ihr =>
    simp [KdTree.markRemoved, KdTree.nodes, ihl, ihr]

theorem KdTree.stripTombstones_markRemoved (i : Nat) (t : KdTree) :
    (t.markRemoved i).stripTombstones = t.stripTombstones := by
  induction t with
  | leaf => rfl
  | node d l r ihl ihr =>
    simp only [KdTree.markRemoved, KdTree.stripTombstones, ihl, ihr]
    by_cases h : d.id = i
    · rw [if_pos h]
    · rw [if_neg h]

/-- C9: `kdf_remove` on a node currently in the forest sets that node's
tombstone flag, decrements the live size by exactly one, and changes
nothing else: `size_est` is unchanged, the roots keep their structure and
every node keeps its coordinates, links, payload and `added` flag (the
`stripTombstones` images coincide), the removed-flag of every stored node
changes exactly according to whether its address matches, and the node
stays physically in its tree. -/
theorem c9_kdf_remove_frame (kdf : KdForest) (n : KdNode)
    (hn : n ∈ forestNodes kdf) (hsz : 1 ≤ kdf.size) :
    (kdf_remove kdf n.id).size + 1 = kdf.size ∧
    (kdf_remove kdf n.id).size_est = kdf.size_est ∧
    forestNodes (kdf_remove kdf n.id) =
      (forestNodes kdf).map
        (fun d => if d.id = n.id then { d with removed := true } else d) ∧
    { n with removed := true } ∈ forestNodes (kdf_remove kdf n.id) ∧
    (kdf_remove kdf n.id).roots.map KdTree.stripTombstones =
      kdf.roots.map KdTree.stripTombstones := by
  refine ⟨by simp [kdf_remove]; omega, rfl, ?_, ?_, ?_⟩
  · show (kdf.roots.map (KdTree.markRemoved n.id)).flatMap KdTree.nodes = _
    rw [List.flatMap_map]
    unfold forestNodes
    rw [List.map_flatMap]
    congr 1
    funext t
    exact KdTree.nodes_markRemoved n.id t
  · have hmap : forestNodes (kdf_remove kdf n.id) =
        (forestNodes kdf).map
          (fun d => if d.id = n.id then { d with removed := true } else d) := by
      show (kdf.roots.map (KdTree.markRemoved n.id)).flatMap KdTree.nodes = _
      rw [List.flatMap_map]
      unfold forestNodes
      rw [List.map_flatMap]
      congr 1
      funext t
      exact KdTree.nodes_markRemoved n.id t
    rw [hmap]
    refine List.mem_map.mpr ⟨n, hn, ?_⟩
    rw [if_pos rfl]
  · show (kdf.roots.map (KdTree.markRemoved n.id)).map KdTree.stripTombstones = _
    rw [List.map_map]
    congr 1
    funext t
    exact KdTree.stripTombstones_markRemoved n.id t

/-- Concrete witness for `c9_kdf_remove_frame`: removing the single live
node of a one-node forest. -/
theorem c9_witness :
    (kdf_remove ⟨[KdTree.node ⟨7, 1, 2, 3, 4, 5, true, false⟩ .leaf .leaf], 1, 1⟩ 7).size + 1
        = 1 ∧
    (kdf_remove ⟨[KdTree.node ⟨7, 1, 2, 3, 4, 5, true, false⟩ .leaf .leaf], 1, 1⟩ 7).size_est
        = 1 ∧
    forestNodes (kdf_remove ⟨[KdTree.node ⟨7, 1, 2, 3, 4, 5, true, false⟩ .leaf .leaf], 1, 1⟩ 7) =
      (forestNodes ⟨[KdTree.node ⟨7, 1, 2, 3, 4, 5, true, false⟩ .leaf .leaf], 1, 1⟩).map
        (fun d => if d.id = 7 then { d with removed := true } else d) ∧
    ({ (⟨7, 1, 2, 3, 4, 5, true, false⟩ : KdNode) with removed := true }) ∈
      forestNodes (kdf_remove ⟨[KdTree.node ⟨7, 1, 2, 3, 4, 5, true, false⟩ .leaf .leaf], 1, 1⟩ 7) ∧
    (kdf_remove ⟨[KdTree.node ⟨7, 1, 2, 3, 4, 5, true, false⟩ .leaf .leaf], 1, 1⟩ 7).roots.map
        KdTree.stripTombstones =
      ([KdTree.node ⟨7, 1, 2, 3, 4, 5, true, false⟩ .leaf .leaf]).map KdTree.stripTombstones :=
  c9_kdf_remove_frame ⟨[KdTree.node ⟨7, 1, 2, 3, 4, 5, true, false⟩ .leaf .leaf], 1, 1⟩
    ⟨7, 1, 2, 3, 4, 5, true, false⟩
    (by simp [forestNodes, KdTree.nodes]) (by norm_num)

theorem kd_collect_nodes_true (t : KdTree) : kd_collect_nodes t true = t.nodes := by
  induction t with
  | leaf => rfl
  | node d l r ihl ihr => simp [kd_collect_nodes, KdTree.nodes, ihl, ihr]

theorem kd_collect_nodes_false (t : KdTree) :
    kd_collect_nodes t false = t.nodes.filter (fun n => !n.removed) := by
  induction t with
  | leaf => rfl
  | node d l r ihl ihr =>
    simp only [kd_collect_nodes, KdTree.nodes, ihl, ihr, List.filter_cons,
      List.filter_append]
    by_cases h : d.removed
    · simp [h]
    · simp [h]

theorem kdf_empty_slot_le (roots : List KdTree) :
    kdf_empty_slot roots ≤ roots.length := by
  induction roots with
  | nil => exact le_refl 0
  | cons t rest ih =>
    simp only [kdf_empty_slot]
    by_cases h : t = .leaf
    · rw [if_pos h]; simp
    · rw [if_neg h]; simpa using ih

theorem kdf_empty_slot_lower (roots : List KdTree) :
    ∀ i < kdf_empty_slot roots, roots.getD i .leaf ≠ .leaf := by
  induction roots with
  | nil => intro i hi; simp [kdf_empty_slot] at hi
  | cons t rest ih =>
    intro i hi
    simp only [kdf_empty_slot] at hi
    by_cases h : t = .leaf
    · rw [if_pos h] at hi; omega
    · rw [if_neg h] at hi
      cases i with
      | zero => simpa using h
      | succ j =>
        have : j < kdf_empty_slot rest := by omega
        simpa using ih j this

theorem kdf_empty_slot_at (roots : List KdTree)
    (h : kdf_empty_slot roots < roots.length) :
    roots.getD (kdf_empty_slot roots) .leaf = .leaf := by
  induction roots with
  | nil => simp at h
  | cons t rest ih =>
    simp only [kdf_empty_slot] at h ⊢
    by_cases ht : t = .leaf
    · rw [if_pos ht]; simpa using ht
    · rw [if_neg ht] at h ⊢
      have : kdf_empty_slot rest < rest.length := by simpa using h
      simpa using ih this

theorem lor_two_pow_eq_add {a i : Nat} (h : a < 2 ^ i) : a ||| 2 ^ i = a + 2 ^ i := by
  apply Nat.eq_of_testBit_eq
  intro j
  rw [Nat.testBit_lor]
  rcases lt_trichotomy j i with hj | hj | hj
  · have h2 : (2 ^ i).testBit j = false := Nat.testBit_two_pow_of_ne (by omega)
    rw [h2, Bool.or_false, Nat.testBit_to_div_mod, Nat.testBit_to_div_mod]
    have hsplit : (2 : Nat) ^ i = 2 ^ (i - j) * 2 ^ j := by
      rw [← pow_add]; congr 1; omega
    have hdiv : (a + 2 ^ i) / 2 ^ j = a / 2 ^ j + 2 ^ (i - j) := by
      rw [hsplit, Nat.add_mul_div_right _ _ (Nat.pos_pow_of_pos j (by norm_num))]
    rw [hdiv]
    have heven : 2 ^ (i - j) % 2 = 0 := by
      have hij : i - j ≠ 0 := by omega
      obtain ⟨m, hm⟩ := Nat.exists_eq_succ_of_ne_zero hij
      rw [hm, pow_succ]
      omega
    have hmod : (a / 2 ^ j + 2 ^ (i - j)) % 2 = a / 2 ^ j % 2 := by omega
    rw [hmod]
  · subst hj
    have h2 : (2 ^ j).testBit j = true := by simp [Nat.testBit_two_pow]
    rw [h2, Bool.or_true, Nat.testBit_to_div_mod]
    have : (a + 2 ^ j) / 2 ^ j = 1 := by
      rw [Nat.add_div_right _ (Nat.pos_pow_of_pos j (by norm_num)), Nat.div_eq_of_lt h]
    simp [this]
  · have hb1 : a.testBit j = false := by
      apply Nat.testBit_eq_false_of_lt
      calc a < 2 ^ i := h
        _ ≤ 2 ^ j := Nat.pow_le_pow_right (by norm_num) (by omega)
    have hb2 : (2 ^ i).testBit j = false := Nat.testBit_two_pow_of_ne (by omega)
    have hb3 : (a + 2 ^ i).testBit j = false := by
      apply Nat.testBit_eq_false_of_lt
      calc a + 2 ^ i < 2 ^ i + 2 ^ i := by omega
        _ = 2 ^ (i + 1) := by rw [pow_succ]; omega
        _ ≤ 2 ^ j := Nat.pow_le_pow_right (by norm_num) (by omega)
    rw [hb1, hb2, hb3]
    rfl

theorem filter_mem_ids_eq (L D : List KdNode)
    (hnd : ((L ++ D).map KdNode.id).Nodup) :
    (L ++ D).filter (fun n => decide (n.id ∈ L.map KdNode.id)) = L := by
  rw [List.map_append] at hnd
  have hdisj := (List.nodup_append.mp hnd).2.2
  rw [List.filter_append]
  have h1 : L.filter (fun n => decide (n.id ∈ L.map KdNode.id)) = L :=
    List.filter_eq_self.mpr (fun a ha => by
      simp only [decide_eq_true_eq]
      exact List.mem_map_of_mem _ ha)
  have h2 : D.filter (fun n => decide (n.id ∈ L.map KdNode.id)) = [] :=
    List.filter_eq_nil_iff.mpr (fun a ha => by
      simp only [decide_eq_true_eq]
      intro hmem
      exact hdisj hmem (List.mem_map_of_mem _ ha))
  rw [h1, h2, List.append_nil]

theorem filter_right_ids_eq (L D : List KdNode) (root : KdNode)
    (hnd : ((L ++ root :: D).map KdNode.id).Nodup) :
    (L ++ root :: D).filter
      (fun n => !decide (n.id ∈ L.map KdNode.id) && !decide (n.id = root.id)) = D := by
  rw [List.map_append] at hnd
  have hdisj := (List.nodup_append.mp hnd).2.2
  have hndR := (List.nodup_append.mp hnd).2.1
  rw [List.filter_append]
  have h1 : L.filter
      (fun n => !decide (n.id ∈ L.map KdNode.id) && !decide (n.id = root.id)) = [] :=
    List.filter_eq_nil_iff.mpr (fun a ha => by
      simp only [Bool.and_eq_true, Bool.not_eq_true', decide_eq_false_iff_not]
      intro hcon
      exact hcon.1 (List.mem_map_of_mem _ ha))
  have h2 : (root :: D).filter
      (fun n => !decide (n.id ∈ L.map KdNode.id) && !decide (n.id = root.id)) = D := by
    rw [List.filter_cons]
    have hroot : (!decide (root.id ∈ L.map KdNode.id) && !decide (root.id = root.id)) = false := by
      simp
    rw [if_neg (by simp [hroot])]
    apply List.filter_eq_self.mpr
    intro a ha
    simp only [Bool.and_eq_true, Bool.not_eq_true', decide_eq_false_iff_not]
    constructor
    · intro hmem
      exact hdisj hmem (by simp [List.mem_map_of_mem _ ha])
    · intro heq
      have : root.id ∉ D.map KdNode.id := by
        simp only [List.map_cons, List.nodup_cons] at hndR
        exact hndR.1
      exact this (heq ▸ List.mem_map_of_mem _ ha)
  rw [h1, h2, List.nil_append]

theorem bufGet_perm {b0 b1 b2 : List KdNode} (h1 : b0.Perm b1) (h2 : b0.Perm b2) :
    ∀ coord : Fin 3, b0.Perm (bufGet b0 b1 b2 coord)
  | 0 => List.Perm.refl b0
  | 1 => h1
  | 2 => h2

theorem bufGet_eq_of_coord {b0 b1 b2 : List KdNode} :
    (bufGet b0 b1 b2 0 = b0) ∧ (bufGet b0 b1 b2 1 = b1) ∧ (bufGet b0 b1 b2 2 = b2) :=
  ⟨rfl, rfl, rfl⟩

/-- Content preservation of the recursive build: provided the three
buffers are permutations of one another and node addresses (`id`s) are
distinct — which is how the C code uses them — the built tree stores
exactly the buffer's nodes. -/
theorem kd_build_tree_recursive_nodes_perm :
    ∀ (fuel : Nat) (b0 b1 b2 : List KdNode) (coord : Fin 3),
      b0.length ≤ fuel → b0.Perm b1 → b0.Perm b2 →
      (b0.map KdNode.id).Nodup →
      (kd_build_tree_recursive fuel b0 b1 b2 coord).nodes.Perm b0 := by
  intro fuel
  induction fuel with
  | zero =>
    intro b0 b1 b2 coord hlen _ _ _
    have hb0 : b0 = [] := List.eq_nil_of_length_eq_zero (by omega)
    subst hb0
    simp [kd_build_tree_recursive, KdTree.nodes]
  | succ fuel ih =>
    intro b0 b1 b2 coord hlen hp1 hp2 hnd
    have hpc : b0.Perm (bufGet b0 b1 b2 coord) := bufGet_perm hp1 hp2 coord
    simp only [kd_build_tree_recursive]
    by_cases hlz : (bufGet b0 b1 b2 coord).length = 0
    · rw [if_pos hlz]
      have hb0 : b0 = [] := List.eq_nil_of_length_eq_zero (hpc.length_eq.trans hlz)
      subst hb0
      simp [KdTree.nodes]
    · rw [if_neg hlz]
      set bc := bufGet b0 b1 b2 coord with hbcdef
      set split := bc.length / 2 with hsplitdef
      have hbclen : 0 < bc.length := Nat.pos_of_ne_zero hlz
      have hsplitlt : split < bc.length := Nat.div_lt_self hbclen one_lt_two
      set root := bc.getD split default with hrootdef
      have hrootel : root = bc[split] :=
        List.getD_eq_getElem bc default hsplitlt
      have hdecomp : bc.take split ++ root :: bc.drop (split + 1) = bc := by
        rw [hrootel, ← List.drop_eq_getElem_cons hsplitlt]
        exact List.take_append_drop split bc
      have hndbc : (bc.map KdNode.id).Nodup := ((hpc.map KdNode.id).nodup_iff).mp hnd
      -- the filters compute the left and right halves of the splitting buffer
      have hfilterL : bc.filter
          (fun n => decide (n.id ∈ (bc.take split).map KdNode.id)) = bc.take split := by
        have key := filter_mem_ids_eq (bc.take split) (bc.drop split)
          (by rw [List.take_append_drop]; exact hndbc)
        rw [List.take_append_drop] at key
        exact key
      have hfilterR : bc.filter
          (fun n => !decide (n.id ∈ (bc.take split).map KdNode.id) &&
            !decide (n.id = root.id)) = bc.drop (split + 1) := by
        have key := filter_right_ids_eq (bc.take split) (bc.drop (split + 1)) root
          (by rw [hdecomp]; exact hndbc)
        rw [hdecomp] at key
        exact key
      -- each child buffer is a permutation of the corresponding half
      have hchildL : ∀ (b : List KdNode) (c : Prop) [Decidable c], b.Perm bc → (c → b = bc) →
          (if c then b.take split else
            b.filter (fun n => decide (n.id ∈ (bc.take split).map KdNode.id))).Perm
            (bc.take split) := by
        intro b c hc hb heq
        by_cases h : c
        · rw [if_pos h, heq h]
        · rw [if_neg h]
          exact (hb.filter _).trans (List.Perm.of_eq hfilterL)
      have hchildR : ∀ (b : List KdNode) (c : Prop) [Decidable c], b.Perm bc → (c → b = bc) →
          (if c then b.drop (split + 1) else
            b.filter (fun n => !decide (n.id ∈ (bc.take split).map KdNode.id) &&
              !decide (n.id = root.id))).Perm
            (bc.drop (split + 1)) := by
        intro b c hc hb heq
        by_cases h : c
        · rw [if_pos h, heq h]
        · rw [if_neg h]
          exact (hb.filter _).trans (List.Perm.of_eq hfilterR)
      have e0 : coord = 0 → b0 = bc := fun h => by rw [hbcdef, h]; rfl
      have e1 : coord = 1 → b1 = bc := fun h => by rw [hbcdef, h]; rfl
      have e2 : coord = 2 → b2 = bc := fun h => by rw [hbcdef, h]; rfl
      have hL0 := hchildL b0 (coord = 0) hpc e0
      have hL1 := hchildL b1 (coord = 1) (hp1.symm.trans hpc) e1
      have hL2 := hchildL b2 (coord = 2) (hp2.symm.trans hpc) e2
      have hR0 := hchildR b0 (coord = 0) hpc e0
      have hR1 := hchildR b1 (coord = 1) (hp1.symm.trans hpc) e1
      have hR2 := hchildR b2 (coord = 2) (hp2.symm.trans hpc) e2
      -- id-nodup and length bounds for the recursive calls
      have hndtake : ((bc.take split).map KdNode.id).Nodup := by
        have : (bc.take split).Sublist bc := List.take_sublist split bc
        exact (this.map KdNode.id).nodup hndbc
      have hnddrop : ((bc.drop (split + 1)).map KdNode.id).Nodup := by
        have : (bc.drop (split + 1)).Sublist bc := List.drop_sublist (split + 1) bc
        exact (this.map KdNode.id).nodup hndbc
      have hlenb0 : b0.length = bc.length := hpc.length_eq
      have hlenL : (if coord = 0 then b0.take split else
          b0.filter (fun n => decide (n.id ∈ (bc.take split).map KdNode.id))).length ≤ fuel := by
        have := hL0.length_eq
        rw [this, List.length_take]
        omega
      have hlenR : (if coord = 0 then b0.drop (split + 1) else
          b0.filter (fun n => !decide (n.id ∈ (bc.take split).map KdNode.id) &&
            !decide (n.id = root.id))).length ≤ fuel := by
        have := hR0.length_eq
        rw [this, List.length_drop]
        omega
      have ihL := ih _ _ _ (coord + 1) hlenL (hL0.trans hL1.symm) (hL0.trans hL2.symm)
        (((hL0.map KdNode.id).nodup_iff).mpr hndtake)
      have ihR := ih _ _ _ (coord + 1) hlenR (hR0.trans hR1.symm) (hR0.trans hR2.symm)
        (((hR0.map KdNode.id).nodup_iff).mpr hnddrop)
      -- assemble
      show (KdTree.node root _ _).nodes.Perm b0
      simp only [KdTree.nodes]
      refine List.Perm.trans ?_ hpc.symm
      refine List.Perm.trans ?_ (List.Perm.of_eq hdecomp)
      refine List.Perm.trans ?_ List.perm_middle.symm
      exact List.Perm.cons root ((ihL.trans hL0).append (ihR.trans hR0))

/-- Content of `kd_build_tree`: the built tree stores exactly the buffer's
nodes (node addresses assumed distinct, as they are in the C program). -/
theorem kd_build_tree_nodes_perm (buffer : List KdNode)
    (hnd : (buffer.map KdNode.id).Nodup) :
    (kd_build_tree buffer).nodes.Perm buffer := by
  unfold kd_build_tree
  have hs0 := kd_sort_axis_perm 0 buffer
  have hs1 := kd_sort_axis_perm 1 buffer
  have hs2 := kd_sort_axis_perm 2 buffer
  refine (kd_build_tree_recursive_nodes_perm buffer.length _ _ _ 0
    (le_of_eq hs0.length_eq) (hs0.trans hs1.symm) (hs0.trans hs2.symm)
    (((hs0.map KdNode.id).nodup_iff).mpr hnd)).trans hs0

theorem kd_build_tree_ne_leaf (buffer : List KdNode) (h : buffer ≠ []) :
    kd_build_tree buffer ≠ .leaf := by
  unfold kd_build_tree
  rcases hb : buffer.length with _ | n
  · exact absurd (List.eq_nil_of_length_eq_zero hb) h
  · simp only [kd_build_tree_recursive]
    have hlen : (bufGet (kd_sort_axis 0 buffer) (kd_sort_axis 1 buffer)
        (kd_sort_axis 2 buffer) 0).length = n + 1 := by
      show (kd_sort_axis 0 buffer).length = n + 1
      rw [(kd_sort_axis_perm 0 buffer).length_eq, hb]
    rw [if_neg (by omega)]
    intro hcon
    exact KdTree.noConfusion hcon

theorem kdf_deposit_stop (buffer : List KdNode) (bsz : Nat) :
    ∀ (fuel i offset : Nat), ¬(offset < bsz) →
      kdf_deposit buffer bsz fuel i offset = [] := by
  intro fuel i offset h
  cases fuel with
  | zero => rfl
  | succ m => simp only [kdf_deposit]; rw [if_neg h]

/-- Shape of the rebuild loop when `buffer_size = 2^k` (the no-compaction
insert): slots `0..k-1` get NULL, slot `k` gets the tree built from the
whole buffer. -/
theorem kdf_deposit_two_pow_aux (buffer : List KdNode) (k : Nat) :
    ∀ (fuel j : Nat), j ≤ k → k + 1 - j ≤ fuel →
      kdf_deposit buffer (2 ^ k) fuel j 0 =
        List.replicate (k - j) .leaf ++ [kd_build_tree (buffer.take (2 ^ k))] := by
  intro fuel
  induction fuel with
  | zero => intro j hj hf; omega
  | succ fuel ih =>
    intro j hj hf
    simp only [kdf_deposit]
    rw [if_pos (Nat.pos_pow_of_pos k (by norm_num))]
    have hand : 2 ^ k &&& 2 ^ j = (Nat.testBit (2 ^ k) j).toNat * 2 ^ j :=
      Nat.and_two_pow (2 ^ k) j
    by_cases hjk : j = k
    · subst hjk
      have htb : Nat.testBit (2 ^ j) j = true := by simp [Nat.testBit_two_pow]
      rw [if_pos (by rw [hand, htb]; simp)]
      rw [Nat.zero_or]
      rw [kdf_deposit_stop buffer (2 ^ j) fuel (j + 1) (2 ^ j) (by omega)]
      simp [List.drop_zero]
    · have htb : Nat.testBit (2 ^ k) j = false := Nat.testBit_two_pow_of_ne (by omega)
      rw [if_neg (by rw [hand, htb]; simp)]
      rw [ih (j + 1) (by omega) (by omega)]
      have : k - j = (k - (j + 1)) + 1 := by omega
      rw [this, List.replicate_succ]
      simp

theorem kdf_deposit_two_pow (buffer : List KdNode) (k : Nat) :
    kdf_deposit buffer (2 ^ k) (2 ^ k) 0 0 =
      List.replicate k .leaf ++ [kd_build_tree (buffer.take (2 ^ k))] := by
  have := kdf_deposit_two_pow_aux buffer k (2 ^ k) 0 (by omega)
    (by have := Nat.lt_two_pow k; omega)
  simpa using this

/-- Content of the rebuild loop: the deposited trees hold exactly the
first `buffer_size - offset` buffer entries from `offset` on (the loop
walks the set bits of `buffer_size`, consuming contiguous chunks). -/
theorem kdf_deposit_content (buffer : List KdNode) (bsz : Nat)
    (hnd : (buffer.map KdNode.id).Nodup) :
    ∀ (fuel i offset : Nat), offset = bsz % 2 ^ i → bsz < 2 ^ i * 2 ^ fuel →
      ((kdf_deposit buffer bsz fuel i offset).flatMap KdTree.nodes).Perm
        ((buffer.drop offset).take (bsz - offset)) := by
  intro fuel
  induction fuel with
  | zero =>
    intro i offset hoff hlt
    have : bsz % 2 ^ i = bsz := Nat.mod_eq_of_lt (by simpa using hlt)
    rw [hoff, this]
    simp [kdf_deposit]
  | succ fuel ih =>
    intro i offset hoff hlt
    by_cases hcont : offset < bsz
    · simp only [kdf_deposit]
      rw [if_pos hcont]
      have hand := Nat.and_two_pow bsz i
      have hofflt : offset < 2 ^ i := by
        rw [hoff]; exact Nat.mod_lt _ (Nat.pos_pow_of_pos i (by norm_num))
      cases htb : bsz.testBit i with
      | true =>
        rw [if_pos (by rw [hand, htb]; simp)]
        have hdiv1 : bsz / 2 ^ i % 2 = 1 := by
          have := htb
          rw [Nat.testBit_to_div_mod] at this
          simpa using this
        have hoff' : offset ||| 2 ^ i = offset + 2 ^ i := lor_two_pow_eq_add hofflt
        have hinv : offset + 2 ^ i = bsz % 2 ^ (i + 1) := by
          rw [pow_succ, Nat.mod_mul, hdiv1, ← hoff]
          omega
        have hle : offset + 2 ^ i ≤ bsz := by
          have : bsz % 2 ^ (i + 1) ≤ bsz := Nat.mod_le _ _
          omega
        have hlt' : bsz < 2 ^ (i + 1) * 2 ^ fuel := by
          rw [pow_succ]
          calc bsz < 2 ^ i * 2 ^ (fuel + 1) := hlt
            _ = 2 ^ i * 2 * 2 ^ fuel := by ring
        have hchunknd : (((buffer.drop offset).take (2 ^ i)).map KdNode.id).Nodup := by
          have hsub : ((buffer.drop offset).take (2 ^ i)).Sublist buffer :=
            (List.take_sublist _ _).trans (List.drop_sublist _ _)
          exact (hsub.map KdNode.id).nodup hnd
        have hbuild := kd_build_tree_nodes_perm ((buffer.drop offset).take (2 ^ i)) hchunknd
        have hrec := ih (i + 1) (offset ||| 2 ^ i) (by rw [hoff']; exact hinv) hlt'
        simp only [List.flatMap_cons]
        refine (hbuild.append hrec).trans ?_
        rw [hoff']
        have hsplitlen : bsz - offset = 2 ^ i + (bsz - (offset + 2 ^ i)) := by omega
        rw [hsplitlen, List.take_add, List.drop_drop]
      | false =>
        rw [if_neg (by rw [hand, htb]; simp)]
        have hdiv0 : bsz / 2 ^ i % 2 = 0 := by
          have := htb
          rw [Nat.testBit_to_div_mod] at this
          simp at this
          omega
        have hinv : offset = bsz % 2 ^ (i + 1) := by
          rw [pow_succ, Nat.mod_mul, hdiv0, ← hoff]
          omega
        have hlt' : bsz < 2 ^ (i + 1) * 2 ^ fuel := by
          rw [pow_succ]
          calc bsz < 2 ^ i * 2 ^ (fuel + 1) := hlt
            _ = 2 ^ i * 2 * 2 ^ fuel := by ring
        have hrec := ih (i + 1) offset hinv hlt'
        simpa [List.flatMap_cons, KdTree.nodes] using hrec
    · rw [kdf_deposit_stop buffer bsz _ _ _ hcont]
      have : bsz - offset = 0 := by omega
      rw [this]
      simp

theorem flatMap_nodes_filter (ts : List KdTree) (p : KdNode → Bool) :
    ts.flatMap (fun t => t.nodes.filter p) = (ts.flatMap KdTree.nodes).filter p := by
  induction ts with
  | nil => rfl
  | cons t rest ih => simp [List.flatMap_cons, List.filter_append, ih]

/-- Collecting with `include_removed = false` over all slots yields exactly
the live nodes of the forest. -/
theorem kdf_collect_all_live (kdf : KdForest) :
    kdf_collect_nodes kdf kdf.roots.length false =
      (forestNodes kdf).filter (fun n => !n.removed) := by
  unfold kdf_collect_nodes forestNodes
  rw [List.take_length]
  rw [← flatMap_nodes_filter]
  congr 1
  funext t
  exact kd_collect_nodes_false t

/-- C3 (amended): an insert performs a full compaction — collect the live
nodes of every tree, discard every tombstone, set `size_est := size`,
rebuild — if and only if `size_est + 1 ≥ 2·(size + 1)` holds just before
the insert; consequently `size_est ≤ 2·(size + 1)` holds after every
insert.  (The bound need not survive subsequent removals, which decrement
`size` while leaving `size_est` unchanged — see the counterexample.) -/
theorem c3_kdf_insert_compaction_iff (kdf : KdForest) (v : KdNode) :
    ((kdf.size_est + 1 ≥ 2 * (kdf.size + 1) →
        (kdf_insert kdf v).size_est = (kdf_insert kdf v).size) ∧
      (kdf.size_est + 1 < 2 * (kdf.size + 1) →
        (kdf_insert kdf v).size_est = kdf.size_est + 1)) ∧
    (kdf.size_est + 1 ≥ 2 * (kdf.size + 1) →
      kdf.size = liveCount kdf →
      ((({ v with added := true }) ::
          (forestNodes kdf).filter (fun n => !n.removed)).map KdNode.id).Nodup →
      (forestNodes (kdf_insert kdf v)).Perm
        ({ v with added := true } :: (forestNodes kdf).filter (fun n => !n.removed))) ∧
    (kdf_insert kdf v).size_est ≤ 2 * ((kdf_insert kdf v).size + 1) := by
  have hsize : (kdf_insert kdf v).size = kdf.size + 1 := by
    simp [kdf_insert, kdf_balance]
  have hest : (kdf_insert kdf v).size_est =
      if kdf.size_est + 1 ≥ 2 * (kdf.size + 1) then kdf.size + 1
      else kdf.size_est + 1 := by
    simp only [kdf_insert, kdf_balance]
    by_cases h : kdf.size_est + 1 ≥ 2 * (kdf.size + 1)
    · rw [if_pos h]; simp [h]
    · rw [if_neg h]; simp [h]
  refine ⟨⟨?_, ?_⟩, ?_, ?_⟩
  · intro h
    rw [hest, if_pos h, hsize]
  · intro h
    rw [hest, if_neg (by omega)]
  · intro hcond hlive hnd
    have hforce : decide (kdf.size_est + 1 ≥ 2 * (kdf.size + 1)) = true := by
      simpa using hcond
    show (((kdf_insert kdf v).roots).flatMap KdTree.nodes).Perm _
    have hroots : (kdf_insert kdf v).roots =
        kdf_deposit ({ v with added := true } :: kdf_collect_nodes kdf kdf.roots.length false)
          (kdf.size + 1) (kdf.size + 1) 0 0 := by
      simp only [kdf_insert, kdf_balance, hforce]
      simp
    rw [hroots, kdf_collect_all_live]
    have hbuflen : ({ v with added := true } ::
        (forestNodes kdf).filter (fun n => !n.removed)).length = kdf.size + 1 := by
      simp only [List.length_cons]
      rw [hlive]
      unfold liveCount
      rw [List.countP_eq_length_filter]
    have hdep := kdf_deposit_content
      ({ v with added := true } :: (forestNodes kdf).filter (fun n => !n.removed))
      (kdf.size + 1) hnd (kdf.size + 1) 0 0 (by simp [Nat.mod_one]) (by
        have := Nat.lt_two_pow (kdf.size + 1)
        simpa using this)
    refine hdep.trans ?_
    rw [List.drop_zero, Nat.sub_zero, ← hbuflen, List.take_length]
  · rw [hest, hsize]
    by_cases h : kdf.size_est + 1 ≥ 2 * (kdf.size + 1)
    · rw [if_pos h]; omega
    · rw [if_neg h]; omega

/-- Concrete witness for `c3_kdf_insert_compaction_iff`: a forest holding
one tombstoned node (`size = 0`, `size_est = 1`), so the next insert
compacts. -/
theorem c3_witness :
    ((1 + 1 ≥ 2 * (0 + 1) →
        (kdf_insert ⟨[KdTree.node ⟨0, 0, 0, 0, 0, 0, true, true⟩ .leaf .leaf], 0, 1⟩
          ⟨1, 5, 0, 0, 0, 0, false, false⟩).size_est =
        (kdf_insert ⟨[KdTree.node ⟨0, 0, 0, 0, 0, 0, true, true⟩ .leaf .leaf], 0, 1⟩
          ⟨1, 5, 0, 0, 0, 0, false, false⟩).size) ∧
      (1 + 1 < 2 * (0 + 1) →
        (kdf_insert ⟨[KdTree.node ⟨0, 0, 0, 0, 0, 0, true, true⟩ .leaf .leaf], 0, 1⟩
          ⟨1, 5, 0, 0, 0, 0, false, false⟩).size_est = 1 + 1)) ∧
    (1 + 1 ≥ 2 * (0 + 1) →
      0 = liveCount ⟨[KdTree.node ⟨0, 0, 0, 0, 0, 0, true, true⟩ .leaf .leaf], 0, 1⟩ →
      ((({ (⟨1, 5, 0, 0, 0, 0, false, false⟩ : KdNode) with added := true }) ::
          (forestNodes ⟨[KdTree.node ⟨0, 0, 0, 0, 0, 0, true, true⟩ .leaf .leaf], 0, 1⟩).filter
            (fun n => !n.removed)).map KdNode.id).Nodup →
      (forestNodes (kdf_insert ⟨[KdTree.node ⟨0, 0, 0, 0, 0, 0, true, true⟩ .leaf .leaf], 0, 1⟩
          ⟨1, 5, 0, 0, 0, 0, false, false⟩)).Perm
        ({ (⟨1, 5, 0, 0, 0, 0, false, false⟩ : KdNode) with added := true } ::
          (forestNodes ⟨[KdTree.node ⟨0, 0, 0, 0, 0, 0, true, true⟩ .leaf .leaf], 0, 1⟩).filter
            (fun n => !n.removed))) ∧
    (kdf_insert ⟨[KdTree.node ⟨0, 0, 0, 0, 0, 0, true, true⟩ .leaf .leaf], 0, 1⟩
        ⟨1, 5, 0, 0, 0, 0, false, false⟩).size_est ≤
      2 * ((kdf_insert ⟨[KdTree.node ⟨0, 0, 0, 0, 0, 0, true, true⟩ .leaf .leaf], 0, 1⟩
        ⟨1, 5, 0, 0, 0, 0, false, false⟩).size + 1) :=
  c3_kdf_insert_compaction_iff
    ⟨[KdTree.node ⟨0, 0, 0, 0, 0, 0, true, true⟩ .leaf .leaf], 0, 1⟩
    ⟨1, 5, 0, 0, 0, 0, false, false⟩

/-- Counterexample to C3 as stated: insert three nodes into the empty
forest, then remove all three; the resulting state has
`size_est = 3 > 2 = 2·(size + 1)`, so the invariant does not hold "at
every moment" (removals can break it until the next insert). -/
theorem c3_counterexample :
    ¬((kdf_remove (kdf_remove (kdf_remove
          (kdf_insert (kdf_insert (kdf_insert kdf_init
            ⟨0, 0, 0, 0, 0, 0, false, false⟩)
            ⟨1, 1, 0, 0, 0, 0, false, false⟩)
            ⟨2, 2, 0, 0, 0, 0, false, false⟩) 0) 1) 2).size_est ≤
      2 * ((kdf_remove (kdf_remove (kdf_remove
          (kdf_insert (kdf_insert (kdf_insert kdf_init
            ⟨0, 0, 0, 0, 0, 0, false, false⟩)
            ⟨1, 1, 0, 0, 0, 0, false, false⟩)
            ⟨2, 2, 0, 0, 0, 0, false, false⟩) 0) 1) 2).size + 1)) := by
  decide

/-- Unfolding of a non-compacting insert: with `k` the first empty slot,
the new forest has NULLs in slots `0..k-1`, the freshly built tree in
slot `k`, the old trees above, and both counters incremented. -/
theorem kdf_insert_noforce (kdf : KdForest) (v : KdNode)
    (h : kdf.size_est + 1 < 2 * (kdf.size + 1)) :
    kdf_insert kdf v =
      ⟨(List.replicate (kdf_empty_slot kdf.roots) .leaf ++
          [kd_build_tree (({ v with added := true } ::
            kdf_collect_nodes kdf (kdf_empty_slot kdf.roots) true).take
              (2 ^ kdf_empty_slot kdf.roots))]) ++
        kdf.roots.drop (kdf_empty_slot kdf.roots + 1),
       kdf.size + 1, kdf.size_est + 1⟩ := by
  have hforce : decide (kdf.size_est + 1 ≥ 2 * (kdf.size + 1)) = false := by
    simp only [decide_eq_false_iff_not]
    omega
  simp only [kdf_insert, kdf_balance, hforce, Bool.false_eq_true, if_false,
    Bool.not_false]
  rw [kdf_deposit_two_pow]
  simp

/-- Total node count of the trees below the first empty slot, when every
occupied slot `i` holds a full tree of `2^i` nodes. -/
theorem lower_nodes_length (roots : List KdTree) (k : Nat)
    (hk : k ≤ roots.length)
    (hfull : ∀ i < k, (roots.getD i .leaf).nodes.length = 2 ^ i) :
    ((roots.take k).flatMap KdTree.nodes).length = 2 ^ k - 1 := by
  induction k with
  | zero => simp
  | succ k ih =>
    have hk' : k ≤ roots.length := by omega
    have hklt : k < roots.length := by omega
    have htake : roots.take (k + 1) = roots.take k ++ [roots.getD k .leaf] := by
      rw [List.getD_eq_getElem _ _ hklt]
      rw [List.take_succ]
      congr 1
      rw [List.getElem?_eq_getElem hklt]
      rfl
    rw [htake, List.flatMap_append, List.length_append]
    rw [ih hk' (fun i hi => hfull i (by omega))]
    simp only [List.flatMap_cons, List.flatMap_nil, List.append_nil]
    rw [hfull k (by omega)]
    have h1 : (1 : Nat) ≤ 2 ^ k := Nat.one_le_two_pow
    have h2 : (2 : Nat) ^ (k + 1) = 2 ^ k + 2 ^ k := by rw [pow_succ]; omega
    omega

/-- Collecting with `include_removed = true` over the lower slots yields
all of their stored nodes. -/
theorem kdf_collect_lower_all (kdf : KdForest) (k : Nat) :
    kdf_collect_nodes kdf k true = (kdf.roots.take k).flatMap KdTree.nodes := by
  unfold kdf_collect_nodes
  congr 1
  funext t
  exact kd_collect_nodes_true t

/-- Occupancy pattern of the root slots (`true` = non-NULL root). -/
def rootsPattern (roots : List KdTree) : List Bool :=
  roots.map (fun t => !decide (t = KdTree.leaf))

/-- Value of a little-endian bit pattern. -/
def bitsVal : List Bool → Nat
  | [] => 0
  | b :: rest => (if b then 1 else 0) + 2 * bitsVal rest

theorem bitsVal_append (a b : List Bool) :
    bitsVal (a ++ b) = bitsVal a + 2 ^ a.length * bitsVal b := by
  induction a with
  | nil => simp [bitsVal]
  | cons x a ih =>
    simp only [List.cons_append, bitsVal, List.length_cons, List.append_eq]
    rw [ih, pow_succ]
    ring

theorem bitsVal_replicate_true (k : Nat) :
    bitsVal (List.replicate k true) = 2 ^ k - 1 := by
  induction k with
  | zero => rfl
  | succ k ih =>
    rw [List.replicate_succ]
    simp only [bitsVal, ih, if_true]
    have : (1 : Nat) ≤ 2 ^ k := Nat.one_le_two_pow
    have : (2 : Nat) ^ (k + 1) = 2 ^ k + 2 ^ k := by rw [pow_succ]; omega
    omega

theorem bitsVal_replicate_false (k : Nat) :
    bitsVal (List.replicate k false) = 0 := by
  induction k with
  | zero => rfl
  | succ k ih => rw [List.replicate_succ]; simp [bitsVal, ih]

theorem bitsVal_lt (p : List Bool) : bitsVal p < 2 ^ p.length := by
  induction p with
  | nil => simp [bitsVal]
  | cons b q ih =>
    simp only [bitsVal, List.length_cons, pow_succ]
    cases b <;> simp <;> omega

/-- A pattern of value `2^m` and length `m+1` is `m` NULL slots followed
by one occupied slot. -/
theorem bitsVal_two_pow_shape (p : List Bool) :
    ∀ m : Nat, bitsVal p = 2 ^ m → p.length = m + 1 →
      p = List.replicate m false ++ [true] := by
  induction p with
  | nil => intro m _ hlen; simp at hlen
  | cons b q ih =>
    intro m hval hlen
    simp only [bitsVal] at hval
    cases m with
    | zero =>
      have hq : q = [] := by
        have : q.length = 0 := by simpa using hlen
        exact List.eq_nil_of_length_eq_zero this
      subst hq
      have hb : b = true := by
        cases b
        · simp [bitsVal] at hval
        · rfl
      subst hb
      rfl
    | succ m =>
      have hb : b = false := by
        cases b
        · rfl
        · exfalso
          simp only [if_true] at hval
          have : (2 : Nat) ^ (m + 1) = 2 * 2 ^ m := by rw [pow_succ]; ring
          omega
      subst hb
      simp only [if_neg (Bool.false_ne_true)] at hval
      have hq : bitsVal q = 2 ^ m := by
        have : (2 : Nat) ^ (m + 1) = 2 * 2 ^ m := by rw [pow_succ]; ring
        omega
      have hlq : q.length = m + 1 := by simpa using hlen
      rw [List.replicate_succ, List.cons_append]
      rw [ih m hq hlq]

/-- The first-empty-slot scan in terms of the occupancy pattern: the
pattern starts with `kdf_empty_slot` occupied slots, and the next slot
(if any) is NULL. -/
theorem kdf_empty_slot_pattern (roots : List KdTree) :
    rootsPattern roots =
      List.replicate (kdf_empty_slot roots) true ++
        (rootsPattern roots).drop (kdf_empty_slot roots) ∧
    ((rootsPattern roots).drop (kdf_empty_slot roots) = [] ∨
      ((rootsPattern roots).drop (kdf_empty_slot roots)).head? = some false) := by
  induction roots with
  | nil => exact ⟨rfl, Or.inl rfl⟩
  | cons t rest ih =>
    by_cases ht : t = KdTree.leaf
    · have hk : kdf_empty_slot (t :: rest) = 0 := by simp [kdf_empty_slot, ht]
      rw [hk]
      refine ⟨by simp, Or.inr ?_⟩
      simp [rootsPattern, ht]
    · have hk : kdf_empty_slot (t :: rest) = kdf_empty_slot rest + 1 := by
        simp [kdf_empty_slot, ht]
      rw [hk]
      have hpat : rootsPattern (t :: rest) = true :: rootsPattern rest := by
        simp [rootsPattern, ht]
      rw [hpat]
      refine ⟨?_, ?_⟩
      · rw [List.replicate_succ, List.cons_append, List.drop_succ_cons]
        congr 1
        exact ih.1
      · rw [List.drop_succ_cons]
        exact ih.2

/-- Iterated insertion of fresh nodes into an initially empty forest. -/
def kdf_insertN (f : Nat → KdNode) : Nat → KdForest
  | 0 => kdf_init
  | n + 1 => kdf_insert (kdf_insertN f n) (f n)

/-- One insert step of the binary counter: with no removals the forest's
occupancy pattern is the binary representation of the number of inserts. -/
theorem counter_step (kdf : KdForest) (n : Nat) (v : KdNode)
    (h1 : kdf.size = n) (h2 : kdf.size_est = n)
    (h3 : bitsVal (rootsPattern kdf.roots) = n)
    (h4 : kdf.roots = [] ∨ 2 ^ (kdf.roots.length - 1) ≤ n) :
    (kdf_insert kdf v).size = n + 1 ∧ (kdf_insert kdf v).size_est = n + 1 ∧
    bitsVal (rootsPattern (kdf_insert kdf v).roots) = n + 1 ∧
    ((kdf_insert kdf v).roots = [] ∨
      2 ^ ((kdf_insert kdf v).roots.length - 1) ≤ n + 1) := by
  have hnoforce : kdf.size_est + 1 < 2 * (kdf.size + 1) := by omega
  rw [kdf_insert_noforce kdf v hnoforce]
  set k := kdf_empty_slot kdf.roots with hkdef
  have hkle : k ≤ kdf.roots.length := kdf_empty_slot_le kdf.roots
  have hplen : (rootsPattern kdf.roots).length = kdf.roots.length := by
    simp [rootsPattern]
  -- the freshly built tree is non-NULL
  have htree : kd_build_tree (({ v with added := true } ::
      kdf_collect_nodes kdf k true).take (2 ^ k)) ≠ .leaf := by
    apply kd_build_tree_ne_leaf
    apply List.ne_nil_of_length_pos
    rw [List.length_take]
    have : (0 : Nat) < 2 ^ k := Nat.pos_pow_of_pos k (by norm_num)
    simp only [List.length_cons]
    omega
  have hpattern : rootsPattern ((List.replicate k KdTree.leaf ++
      [kd_build_tree (({ v with added := true } ::
        kdf_collect_nodes kdf k true).take (2 ^ k))]) ++
      kdf.roots.drop (k + 1)) =
      (List.replicate k false ++ [true]) ++ (rootsPattern kdf.roots).drop (k + 1) := by
    unfold rootsPattern
    rw [List.map_append, List.map_append, List.map_replicate, List.map_drop]
    congr 2
    simp [htree]
  obtain ⟨hdecomp, hdrop⟩ := kdf_empty_slot_pattern kdf.roots
  rw [← hkdef] at hdecomp hdrop
  refine ⟨?_, ?_, ?_, ?_⟩
  · show kdf.size + 1 = n + 1
    omega
  · show kdf.size_est + 1 = n + 1
    omega
  · show bitsVal (rootsPattern _) = n + 1
    rw [hpattern]
    rcases hdrop with hnil | hhead
    · -- every slot was occupied: k = roots_size, pattern was all ones
      have hk : k = kdf.roots.length := by
        have := List.drop_eq_nil_iff.mp hnil
        omega
      have hpat : rootsPattern kdf.roots = List.replicate k true := by
        rw [hdecomp, hnil, List.append_nil]
      have hval : n = 2 ^ k - 1 := by
        rw [← h3, hpat, bitsVal_replicate_true]
      have hdropnil : (rootsPattern kdf.roots).drop (k + 1) = [] := by
        apply List.drop_eq_nil_iff.mpr
        omega
      rw [hdropnil, List.append_nil, bitsVal_append, bitsVal_replicate_false]
      simp only [List.length_replicate, bitsVal]
      have h1k : (1 : Nat) ≤ 2 ^ k := Nat.one_le_two_pow
      simp only [if_pos]
      omega
    · -- slot k was NULL: pattern was k ones, then a zero
      rcases hq : (rootsPattern kdf.roots).drop k with _ | ⟨b, q⟩
      · rw [hq] at hhead; simp at hhead
      · rw [hq] at hhead
        have hb : b = false := by simpa using hhead
        subst hb
        have hdropq : (rootsPattern kdf.roots).drop (k + 1) = q := by
          have : (rootsPattern kdf.roots).drop (k + 1) =
              ((rootsPattern kdf.roots).drop k).drop 1 := by
            rw [List.drop_drop]
          rw [this, hq]
          rfl
        have hval : n = (2 ^ k - 1) + 2 ^ k * (2 * bitsVal q) := by
          rw [← h3]
          conv_lhs => rw [hdecomp, hq]
          rw [bitsVal_append, bitsVal_replicate_true]
          simp only [List.length_replicate, bitsVal, Bool.false_eq_true, if_false,
            Nat.zero_add]
        have hgoal : bitsVal ((List.replicate k false ++ [true]) ++ q) =
            2 ^ k + 2 * (2 ^ k * bitsVal q) := by
          rw [bitsVal_append (List.replicate k false ++ [true]) q,
            bitsVal_append (List.replicate k false) [true], bitsVal_replicate_false]
          simp only [List.length_append, List.length_replicate,
            List.length_singleton, bitsVal, if_pos, pow_succ]
          ring
        rw [hdropq, hgoal]
        have hv2 : 2 ^ k * (2 * bitsVal q) = 2 * (2 ^ k * bitsVal q) := by ring
        rw [hv2] at hval
        have h1k : (1 : Nat) ≤ 2 ^ k := Nat.one_le_two_pow
        omega
  · -- the top slot of the new forest is occupied
    right
    rcases hdrop with hnil | hhead
    · have hk : k = kdf.roots.length := by
        have := List.drop_eq_nil_iff.mp hnil
        omega
      have hdropnil : kdf.roots.drop (k + 1) = [] := by
        apply List.drop_eq_nil_iff.mpr
        omega
      rw [hdropnil, List.append_nil]
      simp only [List.length_append, List.length_replicate, List.length_singleton]
      have hpat : rootsPattern kdf.roots = List.replicate k true := by
        rw [hdecomp, hnil, List.append_nil]
      have hval : n = 2 ^ k - 1 := by
        rw [← h3, hpat, bitsVal_replicate_true]
      have : (1 : Nat) ≤ 2 ^ k := Nat.one_le_two_pow
      have : k + 1 - 1 = k := by omega
      rw [this]
      omega
    · -- k < roots_size: the length is unchanged
      have hklt : k < kdf.roots.length := by
        by_contra hcon
        have : (rootsPattern kdf.roots).drop k = [] := by
          apply List.drop_eq_nil_iff.mpr
          omega
        rw [this] at hhead
        simp at hhead
      have hlen : ((List.replicate k KdTree.leaf ++ [kd_build_tree
          (({ v with added := true } :: kdf_collect_nodes kdf k true).take (2 ^ k))]) ++
          kdf.roots.drop (k + 1)).length = kdf.roots.length := by
        simp only [List.length_append, List.length_replicate, List.length_singleton,
          List.length_drop]
        omega
      rw [hlen]
      rcases h4 with hnil2 | hle
      · rw [hnil2] at hklt; simp at hklt
      · omega

theorem kdf_insertN_inv (f : Nat → KdNode) : ∀ n : Nat,
    (kdf_insertN f n).size = n ∧ (kdf_insertN f n).size_est = n ∧
    bitsVal (rootsPattern (kdf_insertN f n).roots) = n ∧
    ((kdf_insertN f n).roots = [] ∨
      2 ^ ((kdf_insertN f n).roots.length - 1) ≤ n) := by
  intro n
  induction n with
  | zero => exact ⟨rfl, rfl, rfl, Or.inl rfl⟩
  | succ n ih =>
    obtain ⟨h1, h2, h3, h4⟩ := ih
    exact counter_step (kdf_insertN f n) n (f n) h1 h2 h3 h4

/-- After `2^m` insertions with no deletions the forest has exactly one
root, in slot `m`. -/
theorem kdf_insertN_two_pow_shape (f : Nat → KdNode) (m : Nat) :
    (kdf_insertN f (2 ^ m)).roots.length = m + 1 ∧
    (∀ i < m, (kdf_insertN f (2 ^ m)).roots.getD i .leaf = .leaf) ∧
    (kdf_insertN f (2 ^ m)).roots.getD m .leaf ≠ .leaf := by
  obtain ⟨-, -, h3, h4⟩ := kdf_insertN_inv f (2 ^ m)
  set roots := (kdf_insertN f (2 ^ m)).roots with hrootsdef
  have hplen : (rootsPattern roots).length = roots.length := by simp [rootsPattern]
  have hne : roots ≠ [] := by
    intro hcon
    rw [hcon] at h3
    have : (1 : Nat) ≤ 2 ^ m := Nat.one_le_two_pow
    simp [rootsPattern, bitsVal] at h3
    omega
  have hlenlb : 2 ^ (roots.length - 1) ≤ 2 ^ m := by
    rcases h4 with h | h
    · exact absurd h hne
    · exact h
  have hlenub : 2 ^ m < 2 ^ (rootsPattern roots).length := h3 ▸ bitsVal_lt _
  have hlen : roots.length = m + 1 := by
    have hlb : roots.length - 1 ≤ m :=
      (Nat.pow_le_pow_iff_right (by norm_num)).mp hlenlb
    have hub : m < roots.length := by
      rw [hplen] at hlenub
      exact (Nat.pow_lt_pow_iff_right (by norm_num)).mp hlenub
    omega
  have hshape := bitsVal_two_pow_shape (rootsPattern roots) m h3 (by omega)
  refine ⟨hlen, ?_, ?_⟩
  · intro i hi
    have hil : i < roots.length := by omega
    have hil2 : i < (rootsPattern roots).length := by
      simp only [rootsPattern, List.length_map]
      omega
    have hpi : (rootsPattern roots)[i] = false := by
      rw [List.getElem_of_eq hshape]
      rw [List.getElem_append_left (by simp; omega)]
      exact List.getElem_replicate _ _
    have : (!decide (roots[i] = KdTree.leaf)) = false := by
      rw [← hpi]
      simp [rootsPattern]
    rw [List.getD_eq_getElem _ _ hil]
    simpa using this
  · have hml : m < roots.length := by omega
    have hml2 : m < (rootsPattern roots).length := by
      simp only [rootsPattern, List.length_map]
      omega
    have hpm : (rootsPattern roots)[m] = true := by
      rw [List.getElem_of_eq hshape]
      rw [List.getElem_append_right (by simp)]
      simp
    have : (!decide (roots[m] = KdTree.leaf)) = true := by
      rw [← hpm]
      simp [rootsPattern]
    rw [List.getD_eq_getElem _ _ hml]
    simpa using this

/-- C2 (amended): when the compaction condition does not hold, inserting
`v` chooses the smallest slot `k` whose tree is empty, gathers *all*
stored points of `T_0..T_{k-1}` — live **and tombstoned** — together with
`v`, which is exactly `2^k` points when each occupied lower slot `i`
holds its full `2^i` nodes, builds one fresh tree in slot `k` from
exactly those points, leaves slots `0..k-1` empty and slots above `k`
unchanged; and after `2^m` insertions with no deletions the forest has
exactly one root, in slot `m`.  (The original claim said only the *live*
points are gathered; the code collects tombstones too — see the
counterexample.) -/
theorem c2_kdf_insert_rebuild (kdf : KdForest) (v : KdNode) (f : Nat → KdNode) (m : Nat)
    (hnoforce : kdf.size_est + 1 < 2 * (kdf.size + 1))
    (hfull : ∀ i < kdf_empty_slot kdf.roots,
      (kdf.roots.getD i .leaf).nodes.length = 2 ^ i)
    (hnd : ((({ v with added := true }) ::
        (kdf.roots.take (kdf_empty_slot kdf.roots)).flatMap KdTree.nodes).map
          KdNode.id).Nodup) :
    (({ v with added := true } ::
        (kdf.roots.take (kdf_empty_slot kdf.roots)).flatMap KdTree.nodes).length
      = 2 ^ kdf_empty_slot kdf.roots) ∧
    (∀ i < kdf_empty_slot kdf.roots,
      (kdf_insert kdf v).roots.getD i .leaf = .leaf) ∧
    ((kdf_insert kdf v).roots.getD (kdf_empty_slot kdf.roots) .leaf).nodes.Perm
      ({ v with added := true } ::
        (kdf.roots.take (kdf_empty_slot kdf.roots)).flatMap KdTree.nodes) ∧
    (kdf_insert kdf v).roots.drop (kdf_empty_slot kdf.roots + 1) =
      kdf.roots.drop (kdf_empty_slot kdf.roots + 1) ∧
    ((kdf_insertN f (2 ^ m)).roots.length = m + 1 ∧
      (∀ i < m, (kdf_insertN f (2 ^ m)).roots.getD i .leaf = .leaf) ∧
      (kdf_insertN f (2 ^ m)).roots.getD m .leaf ≠ .leaf) := by
  set k := kdf_empty_slot kdf.roots with hkdef
  have hkle : k ≤ kdf.roots.length := kdf_empty_slot_le kdf.roots
  have hcount : (({ v with added := true } ::
      (kdf.roots.take k).flatMap KdTree.nodes)).length = 2 ^ k := by
    simp only [List.length_cons]
    rw [lower_nodes_length kdf.roots k hkle hfull]
    have : (1 : Nat) ≤ 2 ^ k := Nat.one_le_two_pow
    omega
  rw [kdf_insert_noforce kdf v hnoforce]
  refine ⟨hcount, ?_, ?_, ?_, kdf_insertN_two_pow_shape f m⟩
  · intro i hi
    show ((List.replicate k KdTree.leaf ++ [_]) ++ kdf.roots.drop (k + 1)).getD i _ = _
    rw [List.getD_append _ _ _ _ (by simp; omega)]
    rw [List.getD_append _ _ _ _ (by simp; omega)]
    have hil : i < (List.replicate k KdTree.leaf).length := by simp; omega
    rw [List.getD_eq_getElem _ _ hil]
    exact List.getElem_replicate _ _
  · show ((List.replicate k KdTree.leaf ++ [_]) ++ kdf.roots.drop (k + 1)).getD k _
        |>.nodes.Perm _
    rw [List.getD_append _ _ _ _ (by simp)]
    rw [List.getD_append_right _ _ _ _ (by simp)]
    simp only [List.length_replicate, Nat.sub_self, List.getD_cons_zero]
    rw [kdf_collect_lower_all]
    have htake : ({ v with added := true } ::
        (kdf.roots.take k).flatMap KdTree.nodes).take (2 ^ k) =
        { v with added := true } :: (kdf.roots.take k).flatMap KdTree.nodes := by
      rw [← hcount, List.take_length]
    rw [htake]
    exact kd_build_tree_nodes_perm _ hnd
  · show ((List.replicate k KdTree.leaf ++ [_]) ++ kdf.roots.drop (k + 1)).drop (k + 1) = _
    have hlen : (List.replicate k KdTree.leaf ++
        [kd_build_tree (({ v with added := true } ::
          kdf_collect_nodes kdf k true).take (2 ^ k))]).length = k + 1 := by
      simp
    rw [← hlen, List.drop_left]

/-- Concrete witness for `c2_kdf_insert_rebuild`: a forest with one full
slot-0 tree; the insert goes to slot 1 and `2^1` sized sets `m = 1`. -/
theorem c2_witness :
    ((({ (⟨1, 1, 0, 0, 0, 0, false, false⟩ : KdNode) with added := true }) ::
        (([KdTree.node ⟨0, 0, 0, 0, 0, 0, true, false⟩ .leaf .leaf]).take
          (kdf_empty_slot [KdTree.node ⟨0, 0, 0, 0, 0, 0, true, false⟩ .leaf .leaf])).flatMap
          KdTree.nodes).length
      = 2 ^ kdf_empty_slot [KdTree.node ⟨0, 0, 0, 0, 0, 0, true, false⟩ .leaf .leaf]) ∧
    (∀ i < kdf_empty_slot [KdTree.node ⟨0, 0, 0, 0, 0, 0, true, false⟩ .leaf .leaf],
      (kdf_insert ⟨[KdTree.node ⟨0, 0, 0, 0, 0, 0, true, false⟩ .leaf .leaf], 1, 1⟩
        ⟨1, 1, 0, 0, 0, 0, false, false⟩).roots.getD i .leaf = .leaf) ∧
    ((kdf_insert ⟨[KdTree.node ⟨0, 0, 0, 0, 0, 0, true, false⟩ .leaf .leaf], 1, 1⟩
        ⟨1, 1, 0, 0, 0, 0, false, false⟩).roots.getD
          (kdf_empty_slot [KdTree.node ⟨0, 0, 0, 0, 0, 0, true, false⟩ .leaf .leaf])
          .leaf).nodes.Perm
      ({ (⟨1, 1, 0, 0, 0, 0, false, false⟩ : KdNode) with added := true } ::
        (([KdTree.node ⟨0, 0, 0, 0, 0, 0, true, false⟩ .leaf .leaf]).take
          (kdf_empty_slot [KdTree.node ⟨0, 0, 0, 0, 0, 0, true, false⟩ .leaf .leaf])).flatMap
          KdTree.nodes) ∧
    (kdf_insert ⟨[KdTree.node ⟨0, 0, 0, 0, 0, 0, true, false⟩ .leaf .leaf], 1, 1⟩
        ⟨1, 1, 0, 0, 0, 0, false, false⟩).roots.drop
          (kdf_empty_slot [KdTree.node ⟨0, 0, 0, 0, 0, 0, true, false⟩ .leaf .leaf] + 1) =
      ([KdTree.node ⟨0, 0, 0, 0, 0, 0, true, false⟩ .leaf .leaf]).drop
        (kdf_empty_slot [KdTree.node ⟨0, 0, 0, 0, 0, 0, true, false⟩ .leaf .leaf] + 1) ∧
    ((kdf_insertN (fun i => ⟨i, 0, 0, 0, 0, 0, false, false⟩) (2 ^ 1)).roots.length = 1 + 1 ∧
      (∀ i < 1, (kdf_insertN (fun i => ⟨i, 0, 0, 0, 0, 0, false, false⟩)
        (2 ^ 1)).roots.getD i .leaf = .leaf) ∧
      (kdf_insertN (fun i => ⟨i, 0, 0, 0, 0, 0, false, false⟩)
        (2 ^ 1)).roots.getD 1 .leaf ≠ .leaf) :=
  c2_kdf_insert_rebuild
    ⟨[KdTree.node ⟨0, 0, 0, 0, 0, 0, true, false⟩ .leaf .leaf], 1, 1⟩
    ⟨1, 1, 0, 0, 0, 0, false, false⟩
    (fun i => ⟨i, 0, 0, 0, 0, 0, false, false⟩) 1
    (by norm_num) (by decide) (by decide)

/-- Counterexample to C2 as stated: insert nodes 0,1,2 (slots: T_0 = {2},
T_1 = {0,1}), tombstone node 2, insert node 3.  No compaction triggers;
the chosen slot is k = 2 and the freshly built tree holds 4 = 2^2 nodes,
but only 3 of them are live — the tombstoned node 2 was gathered too, so
the tree is *not* built from the live points of the lower trees only. -/
theorem c2_counterexample :
    (((kdf_insert
        (kdf_remove
          (kdf_insert (kdf_insert (kdf_insert kdf_init
            ⟨0, 0, 0, 0, 0, 0, false, false⟩)
            ⟨1, 1, 0, 0, 0, 0, false, false⟩)
            ⟨2, 2, 0, 0, 0, 0, false, false⟩) 2)
        ⟨3, 3, 0, 0, 0, 0, false, false⟩).roots.getD 2 .leaf).nodes.length = 4) ∧
    (((kdf_insert
        (kdf_remove
          (kdf_insert (kdf_insert (kdf_insert kdf_init
            ⟨0, 0, 0, 0, 0, 0, false, false⟩)
            ⟨1, 1, 0, 0, 0, 0, false, false⟩)
            ⟨2, 2, 0, 0, 0, 0, false, false⟩) 2)
        ⟨3, 3, 0, 0, 0, 0, false, false⟩).roots.getD 2 .leaf).nodes.countP
          (fun n => !n.removed) = 3) := by
  decide

/-- Inner loop of one pass of `generate_bitmap` (main.c):
`for (j = stripe/2 - 1; j < N; j += stripe)`.  `fuel` bounds the
iteration count; `fuel = N` always suffices since `j` strictly
increases. -/
def passFrom (stripe N : Nat) : Nat → Nat → List Nat
  | 0, _ => []
  | fuel + 1, j => if j < N then j :: passFrom stripe N fuel (j + stripe) else []

/-- One pass with the C loop's starting index. -/
def pass (stripe N : Nat) : List Nat := passFrom stripe N N (stripe / 2 - 1)

/-- The pass scheduler of src/main.c: outer loop
`for (i = 1; i <= bit_depth + 1; ++i)` with `stripe = 1 << i`, over
`N = ncolors = 2^B` colors. -/
def schedule (B : Nat) : List Nat :=
  (List.range (B + 1)).flatMap (fun i0 => pass (2 ^ (i0 + 1)) (2 ^ B))

/-- The scheduler as the claim states it (and as the older main.c ran it):
outer loop `for i in 1..=B` only. -/
def scheduleClaim (B : Nat) : List Nat :=
  (List.range B).flatMap (fun i0 => pass (2 ^ (i0 + 1)) (2 ^ B))

theorem mem_passFrom_ge (stripe N : Nat) :
    ∀ (fuel j x : Nat), x ∈ passFrom stripe N fuel j → j ≤ x := by
  intro fuel
  induction fuel with
  | zero => intro j x h; simp [passFrom] at h
  | succ fuel ih =>
    intro j x h
    simp only [passFrom] at h
    by_cases hj : j < N
    · rw [if_pos hj] at h
      rcases List.mem_cons.mp h with h | h
      · omega
      · have := ih (j + stripe) x h
        omega
    · rw [if_neg hj] at h
      simp at h

theorem mem_passFrom (stripe N : Nat) (hs : 0 < stripe) :
    ∀ (fuel j x : Nat), N ≤ fuel + j →
      (x ∈ passFrom stripe N fuel j ↔ (j ≤ x ∧ x < N ∧ stripe ∣ (x - j))) := by
  intro fuel
  induction fuel with
  | zero =>
    intro j x hf
    simp only [passFrom, List.not_mem_nil, false_iff]
    intro ⟨h1, h2, _⟩
    omega
  | succ fuel ih =>
    intro j x hf
    simp only [passFrom]
    by_cases hj : j < N
    · rw [if_pos hj]
      rw [List.mem_cons, ih (j + stripe) x (by omega)]
      constructor
      · rintro (h | ⟨h1, h2, h3⟩)
        · subst h
          exact ⟨le_refl x, hj, by simp⟩
        · refine ⟨by omega, h2, ?_⟩
          have heq : x - j = (x - (j + stripe)) + stripe := by omega
          rw [heq]
          exact Nat.dvd_add h3 dvd_rfl
      · rintro ⟨h1, h2, h3⟩
        by_cases hx : x = j
        · exact Or.inl hx
        · right
          have hxj : 0 < x - j := by omega
          have hge : stripe ≤ x - j := Nat.le_of_dvd hxj h3
          refine ⟨by omega, h2, ?_⟩
          have heq : x - (j + stripe) = (x - j) - stripe := by omega
          rw [heq]
          exact (Nat.dvd_sub' h3 dvd_rfl)
    · rw [if_neg hj]
      simp only [List.not_mem_nil, false_iff]
      intro ⟨h1, h2, _⟩
      omega

theorem passFrom_pairwise (stripe N : Nat) (hs : 0 < stripe) :
    ∀ (fuel j : Nat), (passFrom stripe N fuel j).Pairwise (· < ·) := by
  intro fuel
  induction fuel with
  | zero => intro j; simp [passFrom]
  | succ fuel ih =>
    intro j
    simp only [passFrom]
    by_cases hj : j < N
    · rw [if_pos hj]
      refine List.Pairwise.cons ?_ (ih (j + stripe))
      intro x hx
      have := mem_passFrom_ge stripe N fuel (j + stripe) x hx
      omega
    · rw [if_neg hj]; exact List.Pairwise.nil

theorem pass_nodup (stripe N : Nat) (hs : 0 < stripe) : (pass stripe N).Nodup :=
  (passFrom_pairwise stripe N hs N (stripe / 2 - 1)).imp (fun h => Nat.ne_of_lt h)

theorem mem_pass (stripe N : Nat) (hs : 0 < stripe) (x : Nat) :
    x ∈ pass stripe N ↔
      (stripe / 2 - 1 ≤ x ∧ x < N ∧ stripe ∣ (x - (stripe / 2 - 1))) :=
  mem_passFrom stripe N hs N (stripe / 2 - 1) x (by omega)

/-- Uniqueness of the 2-adic exponent. -/
theorem two_pow_mul_odd_inj {a b m1 m2 : Nat} (h1 : Odd m1) (h2 : Odd m2)
    (heq : 2 ^ a * m1 = 2 ^ b * m2) : a = b := by
  by_contra hne
  rcases Nat.lt_or_ge a b with hab | hab
  · have hpow : (2 : Nat) ^ b = 2 ^ a * 2 ^ (b - a) := by
      rw [← pow_add]; congr 1; omega
    rw [hpow, mul_assoc] at heq
    have hpos : (0 : Nat) < 2 ^ a := Nat.pos_pow_of_pos a (by norm_num)
    have : m1 = 2 ^ (b - a) * m2 := Nat.eq_of_mul_eq_mul_left hpos heq
    obtain ⟨t, ht⟩ := h1
    have hba : 1 ≤ b - a := by omega
    have heven : 2 ∣ 2 ^ (b - a) * m2 := by
      apply Dvd.dvd.mul_right
      exact dvd_pow_self 2 (by omega)
    rw [← this] at heven
    omega
  · have hab2 : b < a := by omega
    have hpow : (2 : Nat) ^ a = 2 ^ b * 2 ^ (a - b) := by
      rw [← pow_add]; congr 1; omega
    rw [hpow, mul_assoc] at heq
    have hpos : (0 : Nat) < 2 ^ b := Nat.pos_pow_of_pos b (by norm_num)
    have : 2 ^ (a - b) * m1 = m2 := Nat.eq_of_mul_eq_mul_left hpos heq
    obtain ⟨t, ht⟩ := h2
    have heven : 2 ∣ 2 ^ (a - b) * m1 := by
      apply Dvd.dvd.mul_right
      exact dvd_pow_self 2 (by omega)
    rw [this] at heven
    omega

/-- Membership of `x` in the pass of stride `2^(e+1)` says the 2-adic
valuation of `x + 1` is exactly `e`. -/
theorem mem_pass_iff_valuation (B x : Nat) (e : Nat) (m : Nat) (hm : Odd m)
    (hx : x + 1 = 2 ^ e * m) (i0 : Nat) :
    x ∈ pass (2 ^ (i0 + 1)) (2 ^ B) ↔ (x < 2 ^ B ∧ i0 = e) := by
  have hstride : (0 : Nat) < 2 ^ (i0 + 1) := Nat.pos_pow_of_pos _ (by norm_num)
  have hhalf : 2 ^ (i0 + 1) / 2 - 1 = 2 ^ i0 - 1 := by
    rw [pow_succ, Nat.mul_div_cancel _ (by norm_num)]
  rw [mem_pass _ _ hstride, hhalf]
  have hp0 : (0 : Nat) < 2 ^ i0 := Nat.pos_pow_of_pos _ (by norm_num)
  have hpe : (0 : Nat) < 2 ^ e := Nat.pos_pow_of_pos _ (by norm_num)
  have hmpos : 0 < m := by
    rcases hm with ⟨t, ht⟩; omega
  constructor
  · rintro ⟨h1, h2, h3⟩
    refine ⟨h2, ?_⟩
    obtain ⟨c, hc⟩ := h3
    have hc2 : x - (2 ^ i0 - 1) = 2 * (2 ^ i0 * c) := by
      rw [hc, pow_succ]
      ring
    have hsum : x + 1 = 2 ^ i0 + 2 * (2 ^ i0 * c) := by omega
    have hx2 : x + 1 = 2 ^ i0 * (2 * c + 1) := by
      rw [hsum]
      ring
    exact two_pow_mul_odd_inj (⟨c, rfl⟩ : Odd (2 * c + 1)) hm (hx2 ▸ hx)
  · rintro ⟨h1, h2⟩
    subst h2
    obtain ⟨t, ht⟩ := hm
    have hxe : x + 1 = 2 ^ i0 * (2 * t + 1) := by rw [hx, ht]
    have hsplit : (2 : Nat) ^ i0 * (2 * t + 1) = 2 * (2 ^ i0 * t) + 2 ^ i0 := by
      ring
    have hge : 2 ^ i0 ≤ x + 1 := by omega
    refine ⟨by omega, h1, ?_⟩
    refine ⟨t, ?_⟩
    have hps : (2 : Nat) ^ (i0 + 1) * t = 2 * (2 ^ i0 * t) := by
      rw [pow_succ]
      ring
    omega

theorem count_indicator_sum (e : Nat) :
    ∀ L : List Nat, L.Nodup → e ∈ L →
      (L.map (fun i => if i = e then (1 : Nat) else 0)).sum = 1 := by
  intro L
  induction L with
  | nil => intro _ h; simp at h
  | cons a L ih =>
    intro hnd hm
    simp only [List.map_cons, List.sum_cons]
    by_cases hae : a = e
    · rw [if_pos hae]
      have hnotin : e ∉ L := by
        intro hcon
        exact (List.nodup_cons.mp hnd).1 (hae.symm ▸ hcon)
      have hzero : (L.map (fun i => if i = e then (1 : Nat) else 0)).sum = 0 := by
        rw [List.sum_eq_zero]
        intro y hy
        obtain ⟨i, hi, hiy⟩ := List.mem_map.mp hy
        have hine : i ≠ e := fun hcon => hnotin (hcon ▸ hi)
        rw [← hiy, if_neg hine]
      rw [hzero]
    · rw [if_neg hae]
      have hmL : e ∈ L := by
        rcases List.mem_cons.mp hm with h | h
        · exact absurd h.symm hae
        · exact h
      rw [ih (List.nodup_cons.mp hnd).2 hmL]

/-- C4 (amended): the pass scheduler of src/main.c — outer pass index
`i` ranging over `1..=B+1` with stride `2^i`, inner index starting at
`stride/2 - 1` and stepping by `stride` while `j < N = 2^B` — visits
every index of the color array `0..N-1` exactly once over all passes.
(The claim's loop bound `1..=B`, which is also what the older main.c
ran, misses index `N-1`; src/main.c runs the extra pass `i = B+1`.) -/
theorem c4_schedule_perm (B : Nat) : (schedule B).Perm (List.range (2 ^ B)) := by
  apply List.perm_iff_count.mpr
  intro x
  have hrange : List.count x (List.range (2 ^ B)) = if x < 2 ^ B then 1 else 0 := by
    by_cases h : x < 2 ^ B
    · rw [if_pos h]
      exact List.count_eq_one_of_mem (List.nodup_range _) (List.mem_range.mpr h)
    · rw [if_neg h]
      exact List.count_eq_zero_of_not_mem (fun hc => h (List.mem_range.mp hc))
  rw [hrange]
  unfold schedule
  rw [List.count_flatMap]
  by_cases hx : x < 2 ^ B
  · rw [if_pos hx]
    obtain ⟨e, m, hm, hxe⟩ := Nat.exists_eq_two_pow_mul_odd
      (n := x + 1) (by omega)
    have heB : e ≤ B := by
      have hge : 2 ^ e ≤ x + 1 := by
        rw [hxe]
        rcases hm with ⟨t, ht⟩
        have : 1 ≤ m := by omega
        calc 2 ^ e = 2 ^ e * 1 := by ring
          _ ≤ 2 ^ e * m := Nat.mul_le_mul_left _ this
      have hlt : 2 ^ e < 2 ^ (B + 1) := by
        have : x + 1 ≤ 2 ^ B := by omega
        have h2 : (2 : Nat) ^ B < 2 ^ (B + 1) := by
          rw [pow_succ]; have := Nat.pos_pow_of_pos B (show 0 < 2 by norm_num); omega
        omega
      have := (Nat.pow_lt_pow_iff_right (show 1 < 2 by norm_num)).mp hlt
      omega
    have hcount : ∀ i0 ∈ List.range (B + 1),
        ((fun i0 => List.count x (pass (2 ^ (i0 + 1)) (2 ^ B))) i0) =
          (fun i => if i = e then (1 : Nat) else 0) i0 := by
      intro i0 _
      simp only []
      by_cases hie : i0 = e
      · rw [if_pos hie]
        apply List.count_eq_one_of_mem
          (pass_nodup _ _ (Nat.pos_pow_of_pos _ (by norm_num)))
        rw [mem_pass_iff_valuation B x e m hm hxe i0]
        exact ⟨hx, hie⟩
      · rw [if_neg hie]
        apply List.count_eq_zero_of_not_mem
        rw [mem_pass_iff_valuation B x e m hm hxe i0]
        rintro ⟨-, h⟩
        exact hie h
    rw [List.map_congr_left (by
      intro i0 hi0
      exact hcount i0 hi0)]
    exact count_indicator_sum e (List.range (B + 1)) (List.nodup_range _)
      (List.mem_range.mpr (by omega))
  · rw [if_neg hx]
    rw [List.sum_eq_zero]
    intro y hy
    obtain ⟨i0, hi0, hiy⟩ := List.mem_map.mp hy
    rw [← hiy]
    simp only [Function.comp]
    apply List.count_eq_zero_of_not_mem
    rw [mem_pass _ _ (Nat.pos_pow_of_pos _ (by norm_num))]
    rintro ⟨-, h2, -⟩
    exact hx h2

/-- Counterexample to C4 as stated: with `B = 2` the `1..=B` schedule
visits only `[0, 2, 1]` and never index `3 = N - 1`, so it does not visit
every index exactly once; the src/main.c schedule (`1..=B+1`) does. -/
theorem c4_counterexample :
    3 < 2 ^ 2 ∧ (scheduleClaim 2).count 3 = 0 ∧ (schedule 2).count 3 = 1 := by
  decide

/-- Model of `color_unpack` (color.c): extract the 8-bit R, G, B channels. -/
def color_unpack (c : Nat) : Nat × Nat × Nat :=
  ((c >>> 16) &&& 0xFF, (c >>> 8) &&& 0xFF, c &&& 0xFF)

/-- Model of `color_comparator` (color.c): trig-free hue comparison.
C control flow: the first block returns early when the two colors lie in
different hue regions and otherwise falls through to the zero-numerator
special case or the cross-multiplication compare; `fallthrough` models
the code after the region block. -/
def color_comparator (a b : Nat) : Int :=
  let aRGB := color_unpack a
  let bRGB := color_unpack b
  let anum : Int := (aRGB.2.1 : Int) - (aRGB.2.2 : Int)
  let adenom : Int := 2 * (aRGB.1 : Int) - (aRGB.2.1 : Int) - (aRGB.2.2 : Int)
  let bnum : Int := (bRGB.2.1 : Int) - (bRGB.2.2 : Int)
  let bdenom : Int := 2 * (bRGB.1 : Int) - (bRGB.2.1 : Int) - (bRGB.2.2 : Int)
  let fallthrough : Int :=
    if anum = 0 ∨ bnum = 0 then
      (if adenom ≥ 0 then anum else -anum) - (if bdenom ≥ 0 then bnum else -bnum)
    else
      anum * bdenom - bnum * adenom
  if adenom ≥ 0 then
    if anum ≥ 0 then
      if bdenom < 0 ∨ bnum < 0 then -1 else fallthrough
    else
      if bdenom < 0 ∨ bnum ≥ 0 then 1 else fallthrough
  else
    if bdenom ≥ 0 then
      if bnum ≥ 0 then 1 else -1
    else fallthrough

/-- Right rotation of `x` by `b` bits out of `n` (hilbert.c `ror`). -/
def ror32 (x b n : Nat) : Nat :=
  ((x &&& ((1 <<< b) - 1)) <<< (n - b)) ||| (x >>> b)

/-- Left rotation (hilbert.c `rol`). -/
def rol32 (x b n : Nat) : Nat := ror32 x (n - b) n

/-- Binary reflected Gray code (hilbert.c `gray_code`). -/
def gray_code (i : Nat) : Nat := i ^^^ (i >>> 1)

/-- hilbert.c `entry_point`; `(i-1) & ~1U` clears the low bit (values are
3-bit here, and `0xFFFFFFFE` is `~1U`). -/
def entry_point (i : Nat) : Nat :=
  if i = 0 then 0 else gray_code ((i - 1) &&& 0xFFFFFFFE)

/-- hilbert.c `inter_direction`: count of trailing set bits (the loop is
fuel-bounded; 32 iterations suffice for `uint32_t`). -/
def trailing_ones : Nat → Nat → Nat
  | 0, _ => 0
  | fuel + 1, i => if i &&& 1 = 1 then trailing_ones fuel (i >>> 1) + 1 else 0

def inter_direction (i : Nat) : Nat := trailing_ones 32 i

/-- hilbert.c `intra_direction`. -/
def intra_direction (i : Nat) : Nat :=
  if i &&& 1 = 1 then inter_direction i
  else if i > 0 then inter_direction (i - 1)
  else 0

/-- hilbert.c `t_inverse`. -/
def t_inverse (dimensions e d a : Nat) : Nat :=
  rol32 a d dimensions ^^^ e

/-- One step (one `k`) of hilbert.c `gray_code_rank_inverse`; the state is
`(i, g, j)`. -/
def gcri_step (mu pi r : Nat) (st : Nat × Nat × Nat) (k : Nat) :
    Nat × Nat × Nat :=
  let i := st.1
  let g := st.2.1
  let j := st.2.2
  if mu &&& (1 <<< k) ≠ 0 then
    let i2 := i ||| (((r >>> j) &&& 1) <<< k)
    let g2 := g ||| ((i2 ^^^ (i2 >>> 1)) &&& (1 <<< k))
    (i2, g2, j - 1)
  else
    let g2 := g ||| (pi &&& (1 <<< k))
    let i2 := i ||| ((g2 ^^^ (i >>> 1)) &&& (1 <<< k))
    (i2, g2, j)

/-- hilbert.c `gray_code_rank_inverse` (result is `(*i, *g)`); the loop
runs `k` from `dimensions-1` down to `0`. -/
def gray_code_rank_inverse (dimensions mu pi r free_bits : Nat) : Nat × Nat :=
  let st := (List.range dimensions).reverse.foldl (gcri_step mu pi r)
    (0, 0, free_bits - 1)
  (st.1, st.2.1)

/-- hilbert.c `extract_mask` (result is `(*mu, *free_bits)`); the loop
runs `j` from `dimensions-1` down to `0`. -/
def extract_mask (dimensions : Nat) (extents : Nat → Nat) (i : Nat) :
    Nat × Nat :=
  (List.range dimensions).reverse.foldl
    (fun (st : Nat × Nat) j =>
      let mu := st.1 <<< 1
      if extents j > i then (mu ||| 1, st.2 + 1) else (mu, st.2))
    (0, 0)

/-- One level (one `i`) of hilbert.c `hilbert_point`; the state is
`(e, d, k, point)`.  The point-write loop `for (j = 0; j < 3; ++j)` is
hard-coded to 3 dimensions in the C source.  `~mu` is modelled within
`dimensions` bits (all quantities stay below `2^dimensions`). -/
def hilbert_step (dimensions : Nat) (extents : Nat → Nat)
    (total_extent index : Nat)
    (st : Nat × Nat × Nat × (Fin 3 → Nat)) (i : Nat) :
    Nat × Nat × Nat × (Fin 3 → Nat) :=
  let e := st.1
  let d := st.2.1
  let k := st.2.2.1
  let point := st.2.2.2
  let em := extract_mask dimensions extents i
  let mu := ror32 em.1 d dimensions
  let free_bits := em.2
  let pi := ror32 e d dimensions &&& (((1 <<< dimensions) - 1) ^^^ mu)
  let r := (index >>> (total_extent - k - free_bits)) &&& ((1 <<< free_bits) - 1)
  let k2 := k + free_bits
  let wl := gray_code_rank_inverse dimensions mu pi r free_bits
  let l := t_inverse dimensions e d wl.2
  let point2 := fun j : Fin 3 => point j ||| (((l >>> j.val) &&& 1) <<< i)
  let e2 := e ^^^ ror32 (entry_point wl.1) d dimensions
  let d2 := (d + intra_direction wl.1 + 1) % dimensions
  (e2, d2, k2, point2)

/-- Model of hilbert.c `hilbert_point` (`CompactHilbertIndexInverse`). -/
def hilbert_point (dimensions : Nat) (extents : Nat → Nat) (index : Nat) :
    Fin 3 → Nat :=
  let max_extent := (List.range dimensions).foldl
    (fun m j => max m (extents j)) 0
  let total_extent := (List.range dimensions).foldl
    (fun t j => t + extents j) 0
  ((List.range max_extent).reverse.foldl
    (hilbert_step dimensions extents total_extent index)
    (0, 1, 0, fun _ => 0)).2.2.2

/-- Generation modes (options.h as used by generate.c). -/
inductive Mode where
  | hueSort | random | morton | hilbert | sequential
deriving DecidableEq, Repr

/-- Per-channel bit allocation of generate.c:
`grb_bits[i] = (bit_depth + 2 - i)/3` for `i = 0 (G), 1 (R), 2 (B)`. -/
def grb_bits (B i : Nat) : Nat := (B + 2 - i) / 3

/-- The default (sequential) channel extraction of generate.c:
successive low bit fields of `i`, G first, then R, then B. -/
def seq_grb (B i : Nat) : Fin 3 → Nat
  | 0 => i &&& ((1 <<< grb_bits B 0) - 1)
  | 1 => (i >>> grb_bits B 0) &&& ((1 <<< grb_bits B 1) - 1)
  | 2 => ((i >>> grb_bits B 0) >>> grb_bits B 1) &&& ((1 <<< grb_bits B 2) - 1)

/-- The Morton channel extraction of generate.c: bit `j` of `i` goes to
bit `j/3` of channel `j%3`
(`grb[j%3] |= (i & (1 << j)) >> (j - j/3)`). -/
def morton_grb (B i : Nat) : Fin 3 → Nat :=
  (List.range B).foldl
    (fun grb j =>
      Function.update grb ⟨j % 3, Nat.mod_lt j (by norm_num)⟩
        (grb ⟨j % 3, Nat.mod_lt j (by norm_num)⟩ |||
          ((i &&& (1 <<< j)) >>> (j - j / 3))))
    (fun _ => 0)

/-- Channel padding of generate.c: shift each channel's value to the high
bits of its 8-bit field and pack `(R<<16)|(G<<8)|B`
(`grb[0] <<= 16-b0; grb[1] <<= 24-b1; grb[2] <<= 8-b2;
colors[i] = grb[1] | grb[0] | grb[2]`). -/
def pad_color (B : Nat) (grb : Fin 3 → Nat) : Nat :=
  (grb 1 <<< (24 - grb_bits B 1)) ||| (grb 0 <<< (16 - grb_bits B 0)) |||
    (grb 2 <<< (8 - grb_bits B 2))

/-- One swap of the Fisher-Yates shuffle in generate.c. -/
def fy_swap (l : List Nat) (i j : Nat) : List Nat :=
  (l.set i (l.getD j 0)).set j (l.getD i 0)

/-- The Fisher-Yates shuffle of generate.c
(`for (i = ncolors; i-- > 0;) { j = xrand(i + 1); swap }`).  `xrand` is
modelled from the spec's RNG contract as an arbitrary draw reduced into
`[0, i+1)` (util.h is not part of the sources). -/
def fisherYates (rand : Nat → Nat) (l : List Nat) : List Nat :=
  (List.range l.length).reverse.foldl
    (fun acc i => fy_swap acc i (rand i % (i + 1))) l

/-- Model of `generate_colors` (generate.c): enumerate `2^B` colors via
the mode's channel map, pad, then post-process (hue-sort via
`color_comparator`, or Fisher-Yates shuffle). -/
def generate_colors (B : Nat) (mode : Mode) (rand : Nat → Nat) : List Nat :=
  let base := (List.range (2 ^ B)).map (fun i =>
    let grb : Fin 3 → Nat :=
      match mode with
      | .morton => morton_grb B i
      | .hilbert => hilbert_point 3 (grb_bits B) i
      | _ => seq_grb B i
    pad_color B grb)
  match mode with
  | .hueSort => base.insertionSort (fun u v => color_comparator u v ≤ 0)
  | .random => fisherYates rand base
  | _ => base

/-- C5 (amended): for bit depth `B = 2` in SEQUENTIAL mode the color
source emits exactly the four colors
`[0x000000, 0x008000, 0x800000, 0x808000]` (in this order): the
per-channel bit counts are `bits[i] = (B + 2 - i) div 3`, i.e. one bit
for G, one bit for R and zero bits for B, and each channel value fills
its 8-bit field by left-shifting to the high bits, so the 1-bit channel
values are `0x00`/`0x80` — never `0xFF` — and blue is constantly zero. -/
theorem c5_generate_colors_b2_sequential (rand : Nat → Nat) :
    generate_colors 2 Mode.sequential rand =
      [0x000000, 0x008000, 0x800000, 0x808000] ∧
    grb_bits 2 0 = 1 ∧ grb_bits 2 1 = 1 ∧ grb_bits 2 2 = 0 := by
  refine ⟨?_, rfl, rfl, rfl⟩
  rfl

/-- Counterexample to C5 as stated: the claimed color set
`{0x000000, 0xFF0000, 0x00FF00, 0x0000FF}` is not what the code emits —
`0xFF0000` is never emitted for `B = 2` (1-bit channels shift to `0x80`,
not `0xFF`), while `0x008000` is. -/
theorem c5_counterexample :
    (0xFF0000 : Nat) ∉ generate_colors 2 Mode.sequential (fun _ => 0) ∧
    (0x008000 : Nat) ∈ generate_colors 2 Mode.sequential (fun _ => 0) := by
  decide

/-- `n = G - B` for a packed color. -/
def hueN (c : Nat) : Int :=
  ((color_unpack c).2.1 : Int) - ((color_unpack c).2.2 : Int)

/-- `d = 2R - G - B` for a packed color. -/
def hueD (c : Nat) : Int :=
  2 * ((color_unpack c).1 : Int) - ((color_unpack c).2.1 : Int) -
    ((color_unpack c).2.2 : Int)

/-- The comparator's decision as a function of the two `(n, d)` pairs. -/
def cmpZ (anum adenom bnum bdenom : Int) : Int :=
  let fallthrough : Int :=
    if anum = 0 ∨ bnum = 0 then
      (if adenom ≥ 0 then anum else -anum) - (if bdenom ≥ 0 then bnum else -bnum)
    else
      anum * bdenom - bnum * adenom
  if adenom ≥ 0 then
    if anum ≥ 0 then
      if bdenom < 0 ∨ bnum < 0 then -1 else fallthrough
    else
      if bdenom < 0 ∨ bnum ≥ 0 then 1 else fallthrough
  else
    if bdenom ≥ 0 then
      if bnum ≥ 0 then 1 else -1
    else fallthrough

theorem color_comparator_eq_cmpZ (a b : Nat) :
    color_comparator a b = cmpZ (hueN a) (hueD a) (hueN b) (hueD b) := rfl

/-- Hue region index, in increasing hue-angle order: `0` for angle `0`
(`d ≥ 0, n = 0`), `1` for `(0, π/2]` (`d ≥ 0, n > 0`), `2` for
`(π/2, 3π/2)` (`d < 0`), `3` for `(3π/2, 2π)` (`d ≥ 0, n < 0`). -/
def hueRegion (n d : Int) : Nat :=
  if d ≥ 0 then (if n = 0 then 0 else if n > 0 then 1 else 3) else 2

/-- Within-region key, strictly increasing in the hue angle: `-d/n` when
`d ≥ 0, n ≠ 0` (a monotone image of `atan(n/d)` on each region) and
`n/d` when `d < 0` (monotone image of `atan(n/d) + π`). -/
def hueKeyQ (n d : Int) : ℚ :=
  if d ≥ 0 then (if n = 0 then 0 else (-(d : ℚ)) / (n : ℚ))
  else (n : ℚ) / (d : ℚ)

theorem cross_iff_pos {an ad bn bd : Int} (han : 0 < an) (hbn : 0 < bn) :
    (an * bd - bn * ad < 0 ↔ (-(ad : ℚ)) / (an : ℚ) < (-(bd : ℚ)) / (bn : ℚ)) ∧
    (an * bd - bn * ad = 0 ↔ (-(ad : ℚ)) / (an : ℚ) = (-(bd : ℚ)) / (bn : ℚ)) := by
  have han' : (0 : ℚ) < (an : ℚ) := by exact_mod_cast han
  have hbn' : (0 : ℚ) < (bn : ℚ) := by exact_mod_cast hbn
  constructor
  · rw [div_lt_div_iff₀ han' hbn']
    have hcast : ((-(ad : ℚ)) * (bn : ℚ) < (-(bd : ℚ)) * (an : ℚ)) ↔
        ((-ad) * bn < (-bd) * an) := by
      norm_cast
    rw [hcast]
    constructor <;> intro h <;> nlinarith
  · rw [div_eq_div_iff han'.ne' hbn'.ne']
    have hcast : ((-(ad : ℚ)) * (bn : ℚ) = (-(bd : ℚ)) * (an : ℚ)) ↔
        ((-ad) * bn = (-bd) * an) := by
      norm_cast
    rw [hcast]
    constructor <;> intro h <;> nlinarith

theorem cross_iff_negnum {an ad bn bd : Int} (han : an < 0) (hbn : bn < 0) :
    (an * bd - bn * ad < 0 ↔ (-(ad : ℚ)) / (an : ℚ) < (-(bd : ℚ)) / (bn : ℚ)) ∧
    (an * bd - bn * ad = 0 ↔ (-(ad : ℚ)) / (an : ℚ) = (-(bd : ℚ)) / (bn : ℚ)) := by
  have e1 : (-(ad : ℚ)) / (an : ℚ) = (ad : ℚ) / (-(an : ℚ)) := by
    rw [neg_div, div_neg]
  have e2 : (-(bd : ℚ)) / (bn : ℚ) = (bd : ℚ) / (-(bn : ℚ)) := by
    rw [neg_div, div_neg]
  have han' : (0 : ℚ) < -(an : ℚ) := by
    have : (an : ℚ) < 0 := by exact_mod_cast han
    linarith
  have hbn' : (0 : ℚ) < -(bn : ℚ) := by
    have : (bn : ℚ) < 0 := by exact_mod_cast hbn
    linarith
  rw [e1, e2]
  constructor
  · rw [div_lt_div_iff₀ han' hbn']
    have hcast : ((ad : ℚ) * (-(bn : ℚ)) < (bd : ℚ) * (-(an : ℚ))) ↔
        (ad * (-bn) < bd * (-an)) := by
      norm_cast
    rw [hcast]
    constructor <;> intro h <;> nlinarith
  · rw [div_eq_div_iff han'.ne' hbn'.ne']
    have hcast : ((ad : ℚ) * (-(bn : ℚ)) = (bd : ℚ) * (-(an : ℚ))) ↔
        (ad * (-bn) = bd * (-an)) := by
      norm_cast
    rw [hcast]
    constructor <;> intro h <;> nlinarith

theorem cross_iff_negden {an ad bn bd : Int} (had : ad < 0) (hbd : bd < 0) :
    (an * bd - bn * ad < 0 ↔ (an : ℚ) / (ad : ℚ) < (bn : ℚ) / (bd : ℚ)) ∧
    (an * bd - bn * ad = 0 ↔ (an : ℚ) / (ad : ℚ) = (bn : ℚ) / (bd : ℚ)) := by
  have e1 : (an : ℚ) / (ad : ℚ) = (-(an : ℚ)) / (-(ad : ℚ)) := by
    rw [neg_div_neg_eq]
  have e2 : (bn : ℚ) / (bd : ℚ) = (-(bn : ℚ)) / (-(bd : ℚ)) := by
    rw [neg_div_neg_eq]
  have had' : (0 : ℚ) < -(ad : ℚ) := by
    have : (ad : ℚ) < 0 := by exact_mod_cast had
    linarith
  have hbd' : (0 : ℚ) < -(bd : ℚ) := by
    have : (bd : ℚ) < 0 := by exact_mod_cast hbd
    linarith
  rw [e1, e2]
  constructor
  · rw [div_lt_div_iff₀ had' hbd']
    have hcast : ((-(an : ℚ)) * (-(bd : ℚ)) < (-(bn : ℚ)) * (-(ad : ℚ))) ↔
        ((-an) * (-bd) < (-bn) * (-ad)) := by
      norm_cast
    rw [hcast]
    constructor <;> intro h <;> nlinarith
  · rw [div_eq_div_iff had'.ne' hbd'.ne']
    have hcast : ((-(an : ℚ)) * (-(bd : ℚ)) = (-(bn : ℚ)) * (-(ad : ℚ))) ↔
        ((-an) * (-bd) = (-bn) * (-ad)) := by
      norm_cast
    rw [hcast]
    constructor <;> intro h <;> nlinarith

theorem zero_negden {an ad bn bd : Int} (had : ad < 0) (hbd : bd < 0)
    (hz : an = 0 ∨ bn = 0) :
    (bn < an ↔ (an : ℚ) / (ad : ℚ) < (bn : ℚ) / (bd : ℚ)) ∧
    (an = bn ↔ (an : ℚ) / (ad : ℚ) = (bn : ℚ) / (bd : ℚ)) := by
  have had' : (ad : ℚ) < 0 := by exact_mod_cast had
  have hbd' : (bd : ℚ) < 0 := by exact_mod_cast hbd
  rcases hz with hz | hz
  · subst hz
    simp only [Int.cast_zero, zero_div]
    constructor
    · constructor
      · intro h
        exact div_pos_of_neg_of_neg (by exact_mod_cast h) hbd'
      · intro h
        by_contra hc
        push_neg at hc
        rcases lt_or_eq_of_le hc with h1 | h1
        · have : (bn : ℚ) / (bd : ℚ) < 0 :=
            div_neg_of_pos_of_neg (by exact_mod_cast h1) hbd'
          linarith
        · rw [← h1] at h
          norm_num at h
    · constructor
      · intro h
        rw [← h]
        norm_num
      · intro h
        rcases div_eq_zero_iff.mp h.symm with h1 | h1
        · exact_mod_cast h1.symm
        · exact absurd h1 (by linarith)
  · subst hz
    simp only [Int.cast_zero, zero_div]
    constructor
    · constructor
      · intro h
        exact div_neg_of_pos_of_neg (by exact_mod_cast h) had'
      · intro h
        by_contra hc
        push_neg at hc
        rcases lt_or_eq_of_le hc with h1 | h1
        · have : (0 : ℚ) < (an : ℚ) / (ad : ℚ) :=
            div_pos_of_neg_of_neg (by exact_mod_cast h1) had'
          linarith
        · rw [h1] at h
          norm_num at h
    · constructor
      · intro h
        rw [h]
        norm_num
      · intro h
        rcases div_eq_zero_iff.mp h with h1 | h1
        · exact_mod_cast h1
        · exact absurd h1 (by linarith)

set_option maxHeartbeats 2000000 in
theorem cmpZ_iff (an ad bn bd : Int) :
    (cmpZ an ad bn bd < 0 ↔
      (hueRegion an ad < hueRegion bn bd ∨
        (hueRegion an ad = hueRegion bn bd ∧ hueKeyQ an ad < hueKeyQ bn bd))) ∧
    (cmpZ an ad bn bd = 0 ↔
      (hueRegion an ad = hueRegion bn bd ∧ hueKeyQ an ad = hueKeyQ bn bd)) := by
  simp only [cmpZ, hueRegion, hueKeyQ]
  split_ifs <;> constructor
  all_goals try (constructor <;> intro h <;> norm_num)
  all_goals try norm_num
  all_goals try exact h.elim
  all_goals try exact h.1.elim
  all_goals try omega
  all_goals try (norm_num at h)
  all_goals try exact (cross_iff_pos (show (0 : Int) < an by omega) (show (0 : Int) < bn by omega)).1.mp (by linarith)
  all_goals try (have hres := (cross_iff_pos (show (0 : Int) < an by omega) (show (0 : Int) < bn by omega)).1.mpr h; linarith)
  all_goals try exact (cross_iff_pos (show (0 : Int) < an by omega) (show (0 : Int) < bn by omega)).2.mp (by linarith)
  all_goals try (have hres := (cross_iff_pos (show (0 : Int) < an by omega) (show (0 : Int) < bn by omega)).2.mpr h; linarith)
  all_goals try exact (cross_iff_negnum (show an < 0 by omega) (show bn < 0 by omega)).1.mp (by linarith)
  all_goals try (have hres := (cross_iff_negnum (show an < 0 by omega) (show bn < 0 by omega)).1.mpr h; linarith)
  all_goals try exact (cross_iff_negnum (show an < 0 by omega) (show bn < 0 by omega)).2.mp (by linarith)
  all_goals try (have hres := (cross_iff_negnum (show an < 0 by omega) (show bn < 0 by omega)).2.mpr h; linarith)
  all_goals try exact (zero_negden (show ad < 0 by omega) (show bd < 0 by omega) (by omega)).1.mp (by linarith)
  all_goals try (have hres := (zero_negden (show ad < 0 by omega) (show bd < 0 by omega) (by omega)).1.mpr h; linarith)
  all_goals try exact (zero_negden (show ad < 0 by omega) (show bd < 0 by omega) (by omega)).2.mp (by linarith)
  all_goals try (have hres := (zero_negden (show ad < 0 by omega) (show bd < 0 by omega) (by omega)).2.mpr h; linarith)
  all_goals try exact (cross_iff_negden (show ad < 0 by omega) (show bd < 0 by omega)).1.mp (by linarith)
  all_goals try (have hres := (cross_iff_negden (show ad < 0 by omega) (show bd < 0 by omega)).1.mpr h; linarith)
  all_goals try exact (cross_iff_negden (show ad < 0 by omega) (show bd < 0 by omega)).2.mp (by linarith)
  all_goals try (have hres := (cross_iff_negden (show ad < 0 by omega) (show bd < 0 by omega)).2.mpr h; linarith)


/-- Coarse region of the claim: `d >= 0 && n >= 0` before `d < 0` before
`d >= 0 && n < 0`. -/
def coarseRegion (n d : Int) : Nat :=
  if d ≥ 0 then (if n ≥ 0 then 0 else 2) else 1

/-- C8: the integer hue comparator behaves as a total preorder: it is total
(trichotomy), symmetric in ties, transitive on `<= 0`, strictly increasing
across the three claimed regions, and orders pure red before pure green
before pure blue. -/
theorem c8_color_comparator_total :
    (∀ a b : Nat, color_comparator a b < 0 ∨ color_comparator a b = 0 ∨
        color_comparator b a < 0) ∧
    (∀ a b : Nat, color_comparator a b = 0 → color_comparator b a = 0) ∧
    (∀ a b c : Nat, color_comparator a b ≤ 0 → color_comparator b c ≤ 0 →
        color_comparator a c ≤ 0) ∧
    (∀ a b : Nat,
        coarseRegion (hueN a) (hueD a) < coarseRegion (hueN b) (hueD b) →
        color_comparator a b < 0) ∧
    color_comparator 0xFF0000 0x00FF00 < 0 ∧
    color_comparator 0x00FF00 0x0000FF < 0 := by
  have hlt : ∀ a b : Nat, color_comparator a b < 0 ↔
      (hueRegion (hueN a) (hueD a) < hueRegion (hueN b) (hueD b) ∨
        (hueRegion (hueN a) (hueD a) = hueRegion (hueN b) (hueD b) ∧
          hueKeyQ (hueN a) (hueD a) < hueKeyQ (hueN b) (hueD b))) := by
    intro a b
    rw [color_comparator_eq_cmpZ]
    exact (cmpZ_iff _ _ _ _).1
  have heq : ∀ a b : Nat, color_comparator a b = 0 ↔
      (hueRegion (hueN a) (hueD a) = hueRegion (hueN b) (hueD b) ∧
        hueKeyQ (hueN a) (hueD a) = hueKeyQ (hueN b) (hueD b)) := by
    intro a b
    rw [color_comparator_eq_cmpZ]
    exact (cmpZ_iff _ _ _ _).2
  refine ⟨?_, ?_, ?_, ?_, by decide, by decide⟩
  · intro a b
    rcases lt_trichotomy (hueRegion (hueN a) (hueD a))
        (hueRegion (hueN b) (hueD b)) with h | h | h
    · exact Or.inl ((hlt a b).mpr (Or.inl h))
    · rcases lt_trichotomy (hueKeyQ (hueN a) (hueD a))
          (hueKeyQ (hueN b) (hueD b)) with hk | hk | hk
      · exact Or.inl ((hlt a b).mpr (Or.inr ⟨h, hk⟩))
      · exact Or.inr (Or.inl ((heq a b).mpr ⟨h, hk⟩))
      · exact Or.inr (Or.inr ((hlt b a).mpr (Or.inr ⟨h.symm, hk⟩)))
    · exact Or.inr (Or.inr ((hlt b a).mpr (Or.inl h)))
  · intro a b hab
    rcases (heq a b).mp hab with ⟨h1, h2⟩
    exact (heq b a).mpr ⟨h1.symm, h2.symm⟩
  · intro a b c hab hbc
    have h1 : color_comparator a b < 0 ∨ color_comparator a b = 0 := by omega
    have h2 : color_comparator b c < 0 ∨ color_comparator b c = 0 := by omega
    have g1 : hueRegion (hueN a) (hueD a) < hueRegion (hueN b) (hueD b) ∨
        (hueRegion (hueN a) (hueD a) = hueRegion (hueN b) (hueD b) ∧
          (hueKeyQ (hueN a) (hueD a) < hueKeyQ (hueN b) (hueD b) ∨
            hueKeyQ (hueN a) (hueD a) = hueKeyQ (hueN b) (hueD b))) := by
      rcases h1 with h | h
      · rcases (hlt a b).mp h with h' | ⟨h', hk⟩
        · exact Or.inl h'
        · exact Or.inr ⟨h', Or.inl hk⟩
      · rcases (heq a b).mp h with ⟨h', hk⟩
        exact Or.inr ⟨h', Or.inr hk⟩
    have g2 : hueRegion (hueN b) (hueD b) < hueRegion (hueN c) (hueD c) ∨
        (hueRegion (hueN b) (hueD b) = hueRegion (hueN c) (hueD c) ∧
          (hueKeyQ (hueN b) (hueD b) < hueKeyQ (hueN c) (hueD c) ∨
            hueKeyQ (hueN b) (hueD b) = hueKeyQ (hueN c) (hueD c))) := by
      rcases h2 with h | h
      · rcases (hlt b c).mp h with h' | ⟨h', hk⟩
        · exact Or.inl h'
        · exact Or.inr ⟨h', Or.inl hk⟩
      · rcases (heq b c).mp h with ⟨h', hk⟩
        exact Or.inr ⟨h', Or.inr hk⟩
    have hres : color_comparator a c < 0 ∨ color_comparator a c = 0 := by
      rcases g1 with hr1 | ⟨he1, hk1⟩ <;> rcases g2 with hr2 | ⟨he2, hk2⟩
      · exact Or.inl ((hlt a c).mpr (Or.inl (by omega)))
      · exact Or.inl ((hlt a c).mpr (Or.inl (by omega)))
      · exact Or.inl ((hlt a c).mpr (Or.inl (by omega)))
      · rcases hk1 with hk1 | hk1 <;> rcases hk2 with hk2 | hk2
        · exact Or.inl ((hlt a c).mpr (Or.inr ⟨by omega, lt_trans hk1 hk2⟩))
        · exact Or.inl ((hlt a c).mpr (Or.inr ⟨by omega, lt_of_lt_of_eq hk1 hk2⟩))
        · exact Or.inl ((hlt a c).mpr (Or.inr ⟨by omega, lt_of_eq_of_lt hk1 hk2⟩))
        · exact Or.inr ((heq a c).mpr ⟨by omega, hk1.trans hk2⟩)
    omega
  · intro a b h
    refine (hlt a b).mpr (Or.inl ?_)
    revert h
    unfold coarseRegion hueRegion
    split_ifs <;> omega

/-- Witness: transitivity applied at the three pure primaries. -/
theorem c8_witness : color_comparator 0xFF0000 0x0000FF ≤ 0 :=
  c8_color_comparator_total.2.2.1 0xFF0000 0x00FF00 0x0000FF
    (by decide) (by decide)


/-- Pixel-grid state for MIN selection mode: which pixels are filled and
which pixels currently have a node in the k-d forest. -/
structure PixState where
  filled : Nat × Nat → Bool
  inForest : Nat × Nat → Bool

/-- The (dx, dy) Moore-neighborhood offsets, in the C loop order
(`dy` outer from -1 to 1, `dx` inner, skipping (0,0)). -/
def mooreDeltas : List (Int × Int) :=
  [(-1, -1), (0, -1), (1, -1), (-1, 0), (1, 0), (-1, 1), (0, 1), (1, 1)]

/-- `try_neighbor`: returns the neighbor at offset (dx, dy) unless that
would step over the image border. -/
def try_neighbor (W H : Nat) (p : Nat × Nat) (dx dy : Int) :
    Option (Nat × Nat) :=
  if dx < 0 ∧ (p.1 : Int) < -dx then none
  else if 0 < dx ∧ (W : Int) ≤ (p.1 : Int) + dx then none
  else if dy < 0 ∧ (p.2 : Int) < -dy then none
  else if 0 < dy ∧ (H : Int) ≤ (p.2 : Int) + dy then none
  else some (((p.1 : Int) + dx).toNat, ((p.2 : Int) + dy).toNat)

/-- `get_all_neighbors`: all in-bounds Moore neighbors of `p`. -/
def get_all_neighbors (W H : Nat) (p : Nat × Nat) : List (Nat × Nat) :=
  mooreDeltas.filterMap (fun d => try_neighbor W H p d.1 d.2)

/-- `get_neighbors`: the in-bounds Moore neighbors whose fill state
equals `want`. -/
def get_neighbors (W H : Nat) (f : Nat × Nat → Bool) (p : Nat × Nat)
    (want : Bool) : List (Nat × Nat) :=
  mooreDeltas.filterMap (fun d =>
    match try_neighbor W H p d.1 d.2 with
    | some q => if f q = want then some q else none
    | none => none)

/-- `has_empty_neighbors`: does `p` have an unfilled in-bounds neighbor? -/
def has_empty_neighbors (W H : Nat) (f : Nat × Nat → Bool) (p : Nat × Nat) :
    Bool :=
  mooreDeltas.any (fun d =>
    match try_neighbor W H p d.1 d.2 with
    | some q => !f q
    | none => false)

/-- Modelled from the spec: `xrand(n)` (util.h, not present under src/)
returns a uniformly random integer in `[0, n)`; the random draw is made
explicit and reduced modulo `n`. -/
def xrand (draw n : Nat) : Nat := draw % n

/-- `select_empty_neighbor`: pick a random unfilled neighbor; the C code
indexes `neighbors[xrand(size)]` unconditionally, which we model with a
checked lookup returning `none` exactly when the index is out of bounds. -/
def select_empty_neighbor (W H : Nat) (f : Nat × Nat → Bool)
    (p : Nat × Nat) (draw : Nat) : Option (Nat × Nat) :=
  let neighbors := get_neighbors W H f p false
  neighbors[xrand draw neighbors.length]?

/-- `ensure_pixel_removed` acting on the forest-membership map. -/
def ensure_pixel_removed (inF : Nat × Nat → Bool) (q : Nat × Nat) :
    Nat × Nat → Bool :=
  fun r => if r = q then false else inF r

/-- `insert_new_pixel_min`: fill `p`; insert it into the forest iff it
still has an empty neighbor; then remove every neighbor that has lost its
last empty neighbor. -/
def insert_new_pixel_min (W H : Nat) (s : PixState) (p : Nat × Nat) :
    PixState :=
  let f' : Nat × Nat → Bool := fun q => if q = p then true else s.filled q
  let inF1 : Nat × Nat → Bool :=
    if has_empty_neighbors W H f' p then
      fun q => if q = p then true else s.inForest q
    else s.inForest
  let inF2 := (get_all_neighbors W H p).foldl
    (fun g q =>
      if has_empty_neighbors W H f' q then g else ensure_pixel_removed g q)
    inF1
  ⟨f', inF2⟩

/-- The MIN-mode frontier invariant: every forest member is an in-bounds,
filled pixel with at least one empty neighbor. -/
def PixInv (W H : Nat) (s : PixState) : Prop :=
  ∀ q, s.inForest q = true →
    q.1 < W ∧ q.2 < H ∧ s.filled q = true ∧
      has_empty_neighbors W H s.filled q = true

theorem get_neighbors_eq_filter (W H : Nat) (f : Nat × Nat → Bool)
    (p : Nat × Nat) (want : Bool) :
    get_neighbors W H f p want =
      (get_all_neighbors W H p).filter (fun r => f r == want) := by
  rw [get_neighbors, get_all_neighbors, List.filter_filterMap]
  apply List.filterMap_congr
  intro d _
  cases h : try_neighbor W H p d.1 d.2 with
  | none => rfl
  | some q =>
    by_cases hw : f q = want
    · simp [Option.filter, hw]
    · simp [Option.filter, hw]

theorem has_empty_eq_any (W H : Nat) (f : Nat × Nat → Bool)
    (p : Nat × Nat) :
    has_empty_neighbors W H f p =
      (get_all_neighbors W H p).any (fun r => !f r) := by
  rw [has_empty_neighbors, get_all_neighbors, List.any_filterMap]
  congr 1
  funext d
  cases h : try_neighbor W H p d.1 d.2 <;> simp [h]

theorem mem_get_all_neighbors (W H : Nat) (p q : Nat × Nat)
    (hx : p.1 < W) (hy : p.2 < H) :
    q ∈ get_all_neighbors W H p ↔
      (q.1 < W ∧ q.2 < H ∧ q ≠ p ∧
        (p.1 ≤ q.1 + 1 ∧ q.1 ≤ p.1 + 1) ∧
        (p.2 ≤ q.2 + 1 ∧ q.2 ≤ p.2 + 1)) := by
  constructor
  · intro h
    rw [get_all_neighbors, List.mem_filterMap] at h
    obtain ⟨d, hd, hsome⟩ := h
    simp only [mooreDeltas, List.mem_cons, List.not_mem_nil, or_false] at hd
    rcases hd with rfl | rfl | rfl | rfl | rfl | rfl | rfl | rfl <;>
      (try dsimp only at hsome
       rw [try_neighbor] at hsome
       split_ifs at hsome <;>
         first
           | exact Option.noConfusion hsome
           | (injection hsome with heq
              subst heq
              simp only [ne_eq, Prod.ext_iff, not_and]
              try dsimp only
              refine ⟨by omega, by omega, by omega, by omega, by omega⟩))
  · rintro ⟨hqx, hqy, hne, ⟨ha1, ha2⟩, ⟨hb1, hb2⟩⟩
    rw [get_all_neighbors, List.mem_filterMap]
    have hxc : q.1 + 1 = p.1 ∨ q.1 = p.1 ∨ q.1 = p.1 + 1 := by omega
    have hyc : q.2 + 1 = p.2 ∨ q.2 = p.2 ∨ q.2 = p.2 + 1 := by omega
    rcases hxc with hx0 | hx0 | hx0 <;> rcases hyc with hy0 | hy0 | hy0
    · refine ⟨(-1, -1), by decide, ?_⟩
      try dsimp only
      rw [try_neighbor]
      split_ifs with h1 h2 h3 h4
      · exact absurd h1 (by omega)
      · exact absurd h2 (by omega)
      · exact absurd h3 (by omega)
      · exact absurd h4 (by omega)
      · simp only [Option.some.injEq, Prod.ext_iff]
        try dsimp only
        exact ⟨by omega, by omega⟩
    · refine ⟨(-1, 0), by decide, ?_⟩
      try dsimp only
      rw [try_neighbor]
      split_ifs with h1 h2 h3 h4
      · exact absurd h1 (by omega)
      · exact absurd h2 (by omega)
      · exact absurd h3 (by omega)
      · exact absurd h4 (by omega)
      · simp only [Option.some.injEq, Prod.ext_iff]
        try dsimp only
        exact ⟨by omega, by omega⟩
    · refine ⟨(-1, 1), by decide, ?_⟩
      try dsimp only
      rw [try_neighbor]
      split_ifs with h1 h2 h3 h4
      · exact absurd h1 (by omega)
      · exact absurd h2 (by omega)
      · exact absurd h3 (by omega)
      · exact absurd h4 (by omega)
      · simp only [Option.some.injEq, Prod.ext_iff]
        try dsimp only
        exact ⟨by omega, by omega⟩
    · refine ⟨(0, -1), by decide, ?_⟩
      try dsimp only
      rw [try_neighbor]
      split_ifs with h1 h2 h3 h4
      · exact absurd h1 (by omega)
      · exact absurd h2 (by omega)
      · exact absurd h3 (by omega)
      · exact absurd h4 (by omega)
      · simp only [Option.some.injEq, Prod.ext_iff]
        try dsimp only
        exact ⟨by omega, by omega⟩
    · exact absurd (Prod.ext_iff.mpr ⟨hx0, hy0⟩) hne
    · refine ⟨(0, 1), by decide, ?_⟩
      try dsimp only
      rw [try_neighbor]
      split_ifs with h1 h2 h3 h4
      · exact absurd h1 (by omega)
      · exact absurd h2 (by omega)
      · exact absurd h3 (by omega)
      · exact absurd h4 (by omega)
      · simp only [Option.some.injEq, Prod.ext_iff]
        try dsimp only
        exact ⟨by omega, by omega⟩
    · refine ⟨(1, -1), by decide, ?_⟩
      try dsimp only
      rw [try_neighbor]
      split_ifs with h1 h2 h3 h4
      · exact absurd h1 (by omega)
      · exact absurd h2 (by omega)
      · exact absurd h3 (by omega)
      · exact absurd h4 (by omega)
      · simp only [Option.some.injEq, Prod.ext_iff]
        try dsimp only
        exact ⟨by omega, by omega⟩
    · refine ⟨(1, 0), by decide, ?_⟩
      try dsimp only
      rw [try_neighbor]
      split_ifs with h1 h2 h3 h4
      · exact absurd h1 (by omega)
      · exact absurd h2 (by omega)
      · exact absurd h3 (by omega)
      · exact absurd h4 (by omega)
      · simp only [Option.some.injEq, Prod.ext_iff]
        try dsimp only
        exact ⟨by omega, by omega⟩
    · refine ⟨(1, 1), by decide, ?_⟩
      try dsimp only
      rw [try_neighbor]
      split_ifs with h1 h2 h3 h4
      · exact absurd h1 (by omega)
      · exact absurd h2 (by omega)
      · exact absurd h3 (by omega)
      · exact absurd h4 (by omega)
      · simp only [Option.some.injEq, Prod.ext_iff]
        try dsimp only
        exact ⟨by omega, by omega⟩


theorem removeDead_spec (W H : Nat) (f' : Nat × Nat → Bool)
    (ns : List (Nat × Nat)) (g : Nat × Nat → Bool) (q : Nat × Nat) :
    (ns.foldl
        (fun g r =>
          if has_empty_neighbors W H f' r then g else ensure_pixel_removed g r)
        g) q = true ↔
      (g q = true ∧ (q ∈ ns → has_empty_neighbors W H f' q = true)) := by
  induction ns generalizing g with
  | nil => simp
  | cons a tl ih =>
    rw [List.foldl_cons, ih]
    by_cases ha : has_empty_neighbors W H f' a = true
    · by_cases hqa : q = a
      · subst hqa
        simp [ha]
      · simp only [ha, if_pos, List.mem_cons]
        constructor
        · rintro ⟨h1, h2⟩
          exact ⟨h1, fun hm => by
            rcases hm with hm | hm
            · exact absurd hm hqa
            · exact h2 hm⟩
        · rintro ⟨h1, h2⟩
          exact ⟨h1, fun hm => h2 (Or.inr hm)⟩
    · rw [if_neg ha]
      by_cases hqa : q = a
      · subst hqa
        simp only [ensure_pixel_removed, if_pos rfl, List.mem_cons]
        constructor
        · rintro ⟨h1, h2⟩
          exact absurd h1 (by simp)
        · rintro ⟨h1, h2⟩
          exact absurd (h2 (by simp)) ha
      · simp only [ensure_pixel_removed, if_neg hqa, List.mem_cons]
        constructor
        · rintro ⟨h1, h2⟩
          exact ⟨h1, fun hm => by
            rcases hm with hm | hm
            · exact absurd hm hqa
            · exact h2 hm⟩
        · rintro ⟨h1, h2⟩
          exact ⟨h1, fun hm => h2 (Or.inr hm)⟩

theorem has_empty_congr (W H : Nat) (f g : Nat × Nat → Bool)
    (q : Nat × Nat)
    (h : ∀ r ∈ get_all_neighbors W H q, f r = g r) :
    has_empty_neighbors W H f q = has_empty_neighbors W H g q := by
  rw [has_empty_eq_any, has_empty_eq_any]
  apply Bool.eq_iff_iff.mpr
  simp only [List.any_eq_true]
  constructor
  · rintro ⟨r, hr, hb⟩
    exact ⟨r, hr, by rw [← h r hr]; exact hb⟩
  · rintro ⟨r, hr, hb⟩
    exact ⟨r, hr, by rw [h r hr]; exact hb⟩


theorem select_empty_some (W H : Nat) (f : Nat × Nat → Bool)
    (q : Nat × Nat) (draw : Nat)
    (hne : has_empty_neighbors W H f q = true) :
    ∃ r, select_empty_neighbor W H f q draw = some r ∧ f r = false := by
  rw [has_empty_eq_any, List.any_eq_true] at hne
  obtain ⟨r0, hr0, hb0⟩ := hne
  have hmem : r0 ∈ get_neighbors W H f q false := by
    rw [get_neighbors_eq_filter]
    apply List.mem_filter.mpr
    refine ⟨hr0, ?_⟩
    simp only [Bool.not_eq_true'] at hb0
    simp [hb0]
  have hlen : 0 < (get_neighbors W H f q false).length :=
    List.length_pos.mpr (List.ne_nil_of_mem hmem)
  have hidx : xrand draw (get_neighbors W H f q false).length <
      (get_neighbors W H f q false).length := Nat.mod_lt _ hlen
  refine ⟨(get_neighbors W H f q false)[xrand draw
      (get_neighbors W H f q false).length], ?_, ?_⟩
  · show (get_neighbors W H f q false)[xrand draw
        (get_neighbors W H f q false).length]? = _
    exact List.getElem?_eq_getElem hidx
  · have hm2 : (get_neighbors W H f q false)[xrand draw
        (get_neighbors W H f q false).length] ∈
        get_neighbors W H f q false := List.getElem_mem hidx
    have hall : ∀ r ∈ get_neighbors W H f q false, f r = false := by
      intro r hrm
      rw [get_neighbors_eq_filter] at hrm
      have := (List.mem_filter.mp hrm).2
      simpa using this
    exact hall _ hm2

/-- C10: in MIN mode the frontier invariant - every forest member is an
in-bounds filled pixel with at least one empty Moore neighbor - is
preserved by insert_new_pixel_min (which inserts the newly filled pixel
only when it still has an empty neighbor and removes every neighbor that
has lost its last empty neighbor), and under the invariant
select_empty_neighbor applied to any forest pixel finds a nonempty
neighbor list, so its random index xrand(size) (xrand modelled from the
spec as a draw reduced mod size, since util.h is not under src/) is in
bounds and an unfilled neighbor is returned. -/
theorem c10_min_mode_safety (W H : Nat) (s : PixState) (p q : Nat × Nat)
    (draw : Nat) (hinv : PixInv W H s)
    (hpx : p.1 < W) (hpy : p.2 < H) (hnf : s.filled p = false) :
    PixInv W H (insert_new_pixel_min W H s p) ∧
    (s.inForest q = true →
      ∃ r, select_empty_neighbor W H s.filled q draw = some r ∧
        s.filled r = false) := by
  constructor
  · intro q' hq'
    simp only [insert_new_pixel_min] at hq'
    rw [removeDead_spec] at hq'
    obtain ⟨h1, h2⟩ := hq'
    have hmain : (q' = p ∧
        has_empty_neighbors W H
          (fun r => if r = p then true else s.filled r) p = true) ∨
        (q' ≠ p ∧ s.inForest q' = true) := by
      by_cases hins : has_empty_neighbors W H
          (fun r => if r = p then true else s.filled r) p = true
      · rw [if_pos hins] at h1
        by_cases hqp : q' = p
        · exact Or.inl ⟨hqp, hins⟩
        · rw [if_neg hqp] at h1
          exact Or.inr ⟨hqp, h1⟩
      · rw [if_neg hins] at h1
        have hqp : q' ≠ p := by
          intro hh
          have := (hinv q' h1).2.2.1
          rw [hh, hnf] at this
          exact Bool.noConfusion this
        exact Or.inr ⟨hqp, h1⟩
    simp only [insert_new_pixel_min]
    rcases hmain with ⟨rfl, hins⟩ | ⟨hqp, hold⟩
    · exact ⟨hpx, hpy, by simp, hins⟩
    · obtain ⟨hb1, hb2, hf, he⟩ := hinv q' hold
      refine ⟨hb1, hb2, by simp [hqp, hf], ?_⟩
      by_cases hmem : q' ∈ get_all_neighbors W H p
      · exact h2 hmem
      · have hcongr : has_empty_neighbors W H
            (fun r => if r = p then true else s.filled r) q' =
            has_empty_neighbors W H s.filled q' := by
          apply has_empty_congr
          intro r hr
          have hrp : r ≠ p := by
            intro hrp
            subst hrp
            rw [mem_get_all_neighbors W H q' r hb1 hb2] at hr
            obtain ⟨hw1, hw2, hne', ⟨hax1, hax2⟩, ⟨hay1, hay2⟩⟩ := hr
            apply hmem
            rw [mem_get_all_neighbors W H r q' hw1 hw2]
            exact ⟨hb1, hb2, hqp, ⟨by omega, by omega⟩,
              ⟨by omega, by omega⟩⟩
          simp [hrp]
        rw [hcongr]
        exact he
  · intro hq
    obtain ⟨_, _, _, he⟩ := hinv q hq
    exact select_empty_some W H s.filled q draw he

/-- Witness: the invariant hypotheses hold for the empty forest on a 1x1
image, and the theorem applies. -/
theorem c10_witness :
    PixInv 1 1
      (insert_new_pixel_min 1 1 ⟨fun _ => false, fun _ => false⟩ (0, 0)) :=
  (c10_min_mode_safety 1 1 ⟨fun _ => false, fun _ => false⟩ (0, 0) (0, 0) 0
    (fun _ h => Bool.noConfusion h) (by decide) (by decide) rfl).1


/-- The channel triple of a `Fin 3`-indexed channel map. -/
def tup (g : Fin 3 → Nat) : Nat × Nat × Nat := (g 0, g 1, g 2)

/-- The space of channel triples allowed by the per-channel bit counts. -/
def tripleSpace (B : Nat) : Finset (Nat × Nat × Nat) :=
  Finset.range (2 ^ grb_bits B 0) ×ˢ
    (Finset.range (2 ^ grb_bits B 1) ×ˢ Finset.range (2 ^ grb_bits B 2))

theorem mem_tripleSpace (B : Nat) (t : Nat × Nat × Nat) :
    t ∈ tripleSpace B ↔
      t.1 < 2 ^ grb_bits B 0 ∧ t.2.1 < 2 ^ grb_bits B 1 ∧
        t.2.2 < 2 ^ grb_bits B 2 := by
  rw [tripleSpace, Finset.mem_product, Finset.mem_product]
  simp [Finset.mem_range, and_assoc]

theorem grb_bits_sum (B : Nat) :
    grb_bits B 0 + grb_bits B 1 + grb_bits B 2 = B := by
  unfold grb_bits
  omega

theorem card_tripleSpace (B : Nat) : (tripleSpace B).card = 2 ^ B := by
  rw [tripleSpace, Finset.card_product, Finset.card_product,
    Finset.card_range, Finset.card_range, Finset.card_range,
    ← pow_add, ← pow_add]
  rw [show grb_bits B 0 + (grb_bits B 1 + grb_bits B 2) = B by
    have := grb_bits_sum B
    omega]

/-- Two injections of `range N` into a size-`N` finite set have permuted
image lists. -/
theorem range_map_perm_of_inj (f g : Nat → Nat × Nat × Nat) (N : Nat)
    (S : Finset (Nat × Nat × Nat))
    (hfi : ∀ m < N, ∀ n < N, f m = f n → m = n)
    (hgi : ∀ m < N, ∀ n < N, g m = g n → m = n)
    (hfS : ∀ n < N, f n ∈ S)
    (hgS : ∀ n < N, g n ∈ S)
    (hcard : S.card = N) :
    ((List.range N).map f).Perm ((List.range N).map g) := by
  have hnodup : ∀ h : Nat → Nat × Nat × Nat,
      (∀ m < N, ∀ n < N, h m = h n → m = n) →
      ((List.range N).map h).Nodup := by
    intro h hi
    refine List.Nodup.map_on ?_ (List.nodup_range N)
    intro m hm n hn heq
    exact hi m (List.mem_range.mp hm) n (List.mem_range.mp hn) heq
  have htofin : ∀ h : Nat → Nat × Nat × Nat,
      (∀ m < N, ∀ n < N, h m = h n → m = n) → (∀ n < N, h n ∈ S) →
      ((List.range N).map h).toFinset = S := by
    intro h hi hS
    apply Finset.eq_of_subset_of_card_le
    · intro t ht
      rw [List.mem_toFinset, List.mem_map] at ht
      obtain ⟨n, hn, rfl⟩ := ht
      exact hS n (List.mem_range.mp hn)
    · rw [hcard, List.toFinset_card_of_nodup (hnodup h hi),
        List.length_map, List.length_range]
  exact List.perm_of_nodup_nodup_toFinset_eq (hnodup f hfi) (hnodup g hgi)
    ((htofin f hfi hfS).trans (htofin g hgi hgS).symm)

theorem seq_grb_eval (B i : Nat) :
    seq_grb B i 0 = i % 2 ^ grb_bits B 0 ∧
    seq_grb B i 1 = (i / 2 ^ grb_bits B 0) % 2 ^ grb_bits B 1 ∧
    seq_grb B i 2 = (i / 2 ^ grb_bits B 0 / 2 ^ grb_bits B 1) %
      2 ^ grb_bits B 2 := by
  refine ⟨?_, ?_, ?_⟩ <;>
    simp [seq_grb, Nat.shiftLeft_eq, Nat.and_pow_two_sub_one_eq_mod,
      Nat.shiftRight_eq_div_pow]

theorem seq_tup_inj (B : Nat) :
    ∀ m < 2 ^ B, ∀ n < 2 ^ B, tup (seq_grb B m) = tup (seq_grb B n) →
      m = n := by
  intro m hm n hn heq
  have h2B : (2 : Nat) ^ B =
      2 ^ grb_bits B 0 * (2 ^ grb_bits B 1 * 2 ^ grb_bits B 2) := by
    rw [← pow_add, ← pow_add]
    rw [show grb_bits B 0 + (grb_bits B 1 + grb_bits B 2) = B by
      have := grb_bits_sum B
      omega]
  obtain ⟨e0m, e1m, e2m⟩ := seq_grb_eval B m
  obtain ⟨e0n, e1n, e2n⟩ := seq_grb_eval B n
  have h0 : m % 2 ^ grb_bits B 0 = n % 2 ^ grb_bits B 0 := by
    have := congrArg Prod.fst heq
    simpa [tup, e0m, e0n] using this
  have h1 : (m / 2 ^ grb_bits B 0) % 2 ^ grb_bits B 1 =
      (n / 2 ^ grb_bits B 0) % 2 ^ grb_bits B 1 := by
    have := congrArg (fun t => t.2.1) heq
    simpa [tup, e1m, e1n] using this
  have h2 : (m / 2 ^ grb_bits B 0 / 2 ^ grb_bits B 1) % 2 ^ grb_bits B 2 =
      (n / 2 ^ grb_bits B 0 / 2 ^ grb_bits B 1) % 2 ^ grb_bits B 2 := by
    have := congrArg (fun t => t.2.2) heq
    simpa [tup, e2m, e2n] using this
  have hq2m : m / 2 ^ grb_bits B 0 / 2 ^ grb_bits B 1 < 2 ^ grb_bits B 2 := by
    rw [h2B] at hm
    exact Nat.div_lt_of_lt_mul (Nat.div_lt_of_lt_mul hm)
  have hq2n : n / 2 ^ grb_bits B 0 / 2 ^ grb_bits B 1 < 2 ^ grb_bits B 2 := by
    rw [h2B] at hn
    exact Nat.div_lt_of_lt_mul (Nat.div_lt_of_lt_mul hn)
  have hq2 : m / 2 ^ grb_bits B 0 / 2 ^ grb_bits B 1 =
      n / 2 ^ grb_bits B 0 / 2 ^ grb_bits B 1 := by
    rw [Nat.mod_eq_of_lt hq2m, Nat.mod_eq_of_lt hq2n] at h2
    exact h2
  have hq1 : m / 2 ^ grb_bits B 0 = n / 2 ^ grb_bits B 0 := by
    have em := (Nat.div_add_mod (m / 2 ^ grb_bits B 0) (2 ^ grb_bits B 1)).symm
    have en := (Nat.div_add_mod (n / 2 ^ grb_bits B 0) (2 ^ grb_bits B 1)).symm
    rw [em, en, hq2, h1]
  have em := (Nat.div_add_mod m (2 ^ grb_bits B 0)).symm
  have en := (Nat.div_add_mod n (2 ^ grb_bits B 0)).symm
  rw [em, en, hq1, h0]

theorem seq_tup_mem (B : Nat) :
    ∀ n < 2 ^ B, tup (seq_grb B n) ∈ tripleSpace B := by
  intro n _
  obtain ⟨e0, e1, e2⟩ := seq_grb_eval B n
  rw [mem_tripleSpace]
  refine ⟨?_, ?_, ?_⟩ <;>
    simp [tup, e0, e1, e2, Nat.mod_lt, Nat.pos_pow_of_pos]


theorem morton_piece_testBit (i j t : Nat) :
    ((i &&& (1 <<< j)) >>> (j - j / 3)).testBit t =
      (decide (j / 3 = t) && i.testBit j) := by
  rw [Nat.testBit_shiftRight, Nat.testBit_and, Nat.one_shiftLeft,
    Nat.testBit_two_pow]
  by_cases ht : j / 3 = t
  · have hj : j - j / 3 + t = j := by omega
    rw [hj]
    simp [ht]
  · have hj : j ≠ j - j / 3 + t := by omega
    simp [hj, ht]

theorem morton_fold_testBit (i : Nat) (js : List Nat) (g : Fin 3 → Nat)
    (c : Fin 3) (t : Nat) :
    ((js.foldl
        (fun grb j =>
          Function.update grb ⟨j % 3, Nat.mod_lt j (by norm_num)⟩
            (grb ⟨j % 3, Nat.mod_lt j (by norm_num)⟩ |||
              ((i &&& (1 <<< j)) >>> (j - j / 3)))) g) c).testBit t =
      ((g c).testBit t ||
        js.any (fun j =>
          decide (j % 3 = c.val) && decide (j / 3 = t) && i.testBit j)) := by
  induction js generalizing g with
  | nil => simp
  | cons j tl ih =>
    rw [List.foldl_cons, ih, List.any_cons]
    by_cases hc : (⟨j % 3, Nat.mod_lt j (by norm_num)⟩ : Fin 3) = c
    · rw [Function.update_apply, if_pos hc.symm]
      have hcv : j % 3 = c.val := by
        rw [← hc]
      rw [hc, Nat.testBit_or, morton_piece_testBit]
      simp only [hcv, decide_eq_true_eq]
      rw [Bool.or_assoc]
      congr 1
      try simp [Bool.and_comm]
    · rw [Function.update_apply, if_neg (Ne.symm hc)]
      have hcv : ¬ j % 3 = c.val := by
        intro hh
        exact hc (Fin.ext hh)
      simp [hcv]

theorem morton_testBit (B i : Nat) (c : Fin 3) (t : Nat) :
    (morton_grb B i c).testBit t =
      (decide (3 * t + c.val < B) && i.testBit (3 * t + c.val)) := by
  rw [morton_grb, morton_fold_testBit]
  simp only [Nat.zero_testBit, Bool.false_or]
  apply Bool.eq_iff_iff.mpr
  simp only [List.any_eq_true, List.mem_range, Bool.and_eq_true,
    decide_eq_true_eq]
  constructor
  · rintro ⟨j, hjB, ⟨⟨hc, ht⟩, hbit⟩⟩
    have hj : j = 3 * t + c.val := by omega
    subst hj
    exact ⟨hjB, hbit⟩
  · rintro ⟨hlt, hbit⟩
    exact ⟨3 * t + c.val, hlt, ⟨⟨by omega, by omega⟩, hbit⟩⟩

theorem morton_bound (B i : Nat) (c : Fin 3) :
    morton_grb B i c < 2 ^ grb_bits B c.val := by
  apply Nat.lt_pow_two_of_testBit
  intro t ht
  rw [morton_testBit]
  have : ¬ 3 * t + c.val < B := by
    have hc3 : c.val < 3 := c.isLt
    unfold grb_bits at ht
    omega
  simp [this]

theorem morton_tup_inj (B : Nat) :
    ∀ m < 2 ^ B, ∀ n < 2 ^ B,
      tup (morton_grb B m) = tup (morton_grb B n) → m = n := by
  intro m hm n hn heq
  have hch : ∀ c : Fin 3, morton_grb B m c = morton_grb B n c := by
    intro c
    fin_cases c
    · exact congrArg Prod.fst heq
    · exact congrArg (fun x => x.2.1) heq
    · exact congrArg (fun x => x.2.2) heq
  apply Nat.eq_of_testBit_eq
  intro j
  by_cases hj : j < B
  · have hc : (⟨j % 3, by omega⟩ : Fin 3).val = j % 3 := rfl
    have := congrArg (fun x => x.testBit (j / 3))
      (hch ⟨j % 3, by omega⟩)
    simp only [morton_testBit, hc] at this
    have hj3 : 3 * (j / 3) + j % 3 = j := by omega
    rw [hj3] at this
    simpa [hj] using this
  · have h2 : (2 : Nat) ^ B ≤ 2 ^ j := Nat.pow_le_pow_right (by norm_num)
      (by omega)
    rw [Nat.testBit_lt_two_pow (lt_of_lt_of_le hm h2),
      Nat.testBit_lt_two_pow (lt_of_lt_of_le hn h2)]

theorem morton_tup_mem (B : Nat) :
    ∀ n < 2 ^ B, tup (morton_grb B n) ∈ tripleSpace B := by
  intro n _
  rw [mem_tripleSpace]
  exact ⟨morton_bound B n 0, morton_bound B n 1, morton_bound B n 2⟩


theorem fy_swap_perm (l : List Nat) (i j : Nat) (hi : i < l.length)
    (hj : j < l.length) : (fy_swap l i j).Perm l := by
  rw [List.perm_iff_count]
  intro x
  rw [fy_swap]
  have hj1 : j < (l.set i (l.getD j 0)).length := by simpa using hj
  rw [List.count_set _ _ _ _ hj1, List.count_set _ _ _ _ hi]
  have hgj : l.getD j 0 = l[j] := List.getD_eq_getElem l 0 hj
  have hgi : l.getD i 0 = l[i] := List.getD_eq_getElem l 0 hi
  have hset_j : (l.set i (l.getD j 0))[j] = l[j] := by
    by_cases hij : i = j
    · subst hij
      rw [List.getElem_set_self]
      exact hgj
    · rw [List.getElem_set_ne hij]
  rw [hset_j, hgi, hgj]
  have hpi : (l[i] == x) = true → 1 ≤ List.count x l := by
    intro h
    rw [beq_iff_eq] at h
    exact List.one_le_count_iff.mpr (h ▸ List.getElem_mem hi)
  rcases Bool.eq_false_or_eq_true (l[i] == x) with hbi | hbi <;>
    rcases Bool.eq_false_or_eq_true (l[j] == x) with hbj | hbj <;>
      rw [hbi, hbj] <;>
        simp only [Bool.false_eq_true, if_false, if_true] <;>
          first
            | omega
            | (have hcp := hpi hbi; omega)

theorem fisherYates_perm (rand : Nat → Nat) (l : List Nat) :
    (fisherYates rand l).Perm l := by
  rw [fisherYates]
  have aux : ∀ (is : List Nat) (acc : List Nat),
      (∀ i ∈ is, i < acc.length) →
      (is.foldl (fun a i => fy_swap a i (rand i % (i + 1))) acc).Perm acc := by
    intro is
    induction is with
    | nil => intro acc _; exact List.Perm.refl _
    | cons i tl ih =>
      intro acc hbound
      rw [List.foldl_cons]
      have hi : i < acc.length := hbound i (List.mem_cons_self i tl)
      have hjlt : rand i % (i + 1) < acc.length :=
        lt_of_le_of_lt (Nat.le_of_lt_succ (Nat.mod_lt _ (Nat.succ_pos i))) hi
      have hlen : (fy_swap acc i (rand i % (i + 1))).length = acc.length := by
        rw [fy_swap, List.length_set, List.length_set]
      have htl : ∀ i' ∈ tl, i' < (fy_swap acc i (rand i % (i + 1))).length := by
        intro i' hi'
        rw [hlen]
        exact hbound i' (List.mem_cons_of_mem i hi')
      exact (ih _ htl).trans (fy_swap_perm acc i _ hi hjlt)
  apply aux
  intro i hi
  rw [List.mem_reverse, List.mem_range] at hi
  exact hi


/-- 3-bit population count (proof-side abbreviation). -/
def popc3 (em : Nat) : Nat := (em &&& 1) + ((em >>> 1) &&& 1) + ((em >>> 2) &&& 1)

/-- The `(w, g)` pair computed by one `hilbert_step` level, as a function
of the unrotated mask `em`, entry point `e`, direction `d` and consumed
index chunk `r`. -/
def levelWL (em e d r f : Nat) : Nat × Nat :=
  gray_code_rank_inverse 3 (ror32 em d 3)
    (ror32 e d 3 &&& (((1 <<< 3) - 1) ^^^ ror32 em d 3)) r f

/-- The bit pattern `l` written into the point at one level. -/
def levelL (em e d r f : Nat) : Nat := t_inverse 3 e d (levelWL em e d r f).2

/-- The next entry point. -/
def levelE2 (em e d r f : Nat) : Nat :=
  e ^^^ ror32 (entry_point (levelWL em e d r f).1) d 3

theorem hilbert_level_l_lt : ∀ em < 8, ∀ e < 8, ∀ d < 3,
    ∀ r < 2 ^ popc3 em, levelL em e d r (popc3 em) < 8 := by decide


theorem hilbert_level_inj_b :
    ((List.range 8).all fun em => (List.range 8).all fun e =>
      (List.range 3).all fun d =>
        (List.range (2 ^ popc3 em)).all fun r1 =>
          (List.range (2 ^ popc3 em)).all fun r2 =>
            (levelL em e d r1 (popc3 em) != levelL em e d r2 (popc3 em)) ||
              ((r1 == r2) &&
                ((levelWL em e d r1 (popc3 em)).1 ==
                  (levelWL em e d r2 (popc3 em)).1))) = true := by
  decide

theorem hilbert_level_inj : ∀ em < 8, ∀ e < 8, ∀ d < 3,
    ∀ r1 < 2 ^ popc3 em, ∀ r2 < 2 ^ popc3 em,
    levelL em e d r1 (popc3 em) = levelL em e d r2 (popc3 em) →
      r1 = r2 ∧
        (levelWL em e d r1 (popc3 em)).1 = (levelWL em e d r2 (popc3 em)).1 := by
  have hb := hilbert_level_inj_b
  simp only [List.all_eq_true, List.mem_range] at hb
  intro em hem e he d hd r1 hr1 r2 hr2 heq
  have h := hb em hem e he d hd r1 hr1 r2 hr2
  rw [Bool.or_eq_true, Bool.and_eq_true, bne_iff_ne, beq_iff_eq,
    beq_iff_eq] at h
  rcases h with h | h
  · exact absurd heq h
  · exact h

theorem hilbert_level_compact_b :
    ((List.range 8).all fun em => (List.range 8).all fun e =>
      (List.range 3).all fun d =>
        (List.range (2 ^ popc3 em)).all fun r =>
          (List.range 3).all fun c =>
            em.testBit c || !(levelL em e d r (popc3 em)).testBit c) = true := by
  decide

theorem hilbert_level_compact : ∀ em < 8, ∀ e < 8, ∀ d < 3,
    ∀ r < 2 ^ popc3 em, ∀ c < 3, em.testBit c = false →
      (levelL em e d r (popc3 em)).testBit c = false := by
  have hb := hilbert_level_compact_b
  simp only [List.all_eq_true, List.mem_range] at hb
  intro em hem e he d hd r hr c hc hbit
  have h := hb em hem e he d hd r hr c hc
  rw [Bool.or_eq_true, Bool.not_eq_true'] at h
  rcases h with h | h
  · rw [hbit] at h
    exact absurd h (by simp)
  · exact h

theorem hilbert_level_e2_lt : ∀ em < 8, ∀ e < 8, ∀ d < 3,
    ∀ r < 2 ^ popc3 em, levelE2 em e d r (popc3 em) < 8 := by
  decide


theorem extract_mask_eval (ext : Nat → Nat) (i : Nat) :
    extract_mask 3 ext i =
      ((if ext 0 > i then 1 else 0) + 2 * (if ext 1 > i then 1 else 0) +
        4 * (if ext 2 > i then 1 else 0),
       (if ext 0 > i then 1 else 0) + (if ext 1 > i then 1 else 0) +
        (if ext 2 > i then 1 else 0)) := by
  have h3 : (List.range 3).reverse = [2, 1, 0] := rfl
  rw [extract_mask, h3]
  simp only [List.foldl_cons, List.foldl_nil]
  split_ifs <;> rfl

theorem extract_mask_snd_eq_popc3 (ext : Nat → Nat) (i : Nat) :
    (extract_mask 3 ext i).2 = popc3 (extract_mask 3 ext i).1 := by
  rw [extract_mask_eval]
  split_ifs <;> rfl

theorem extract_mask_fst_lt (ext : Nat → Nat) (i : Nat) :
    (extract_mask 3 ext i).1 < 8 := by
  rw [extract_mask_eval]
  split_ifs <;> norm_num

theorem extract_mask_testBit0 (ext : Nat → Nat) (i : Nat) :
    (extract_mask 3 ext i).1.testBit 0 = decide (ext 0 > i) := by
  rw [extract_mask_eval]
  split_ifs <;>
    first
      | (rw [decide_eq_true (by assumption)]; decide)
      | (rw [decide_eq_false (by assumption)]; decide)

theorem extract_mask_testBit1 (ext : Nat → Nat) (i : Nat) :
    (extract_mask 3 ext i).1.testBit 1 = decide (ext 1 > i) := by
  rw [extract_mask_eval]
  split_ifs <;>
    first
      | (rw [decide_eq_true (by assumption)]; decide)
      | (rw [decide_eq_false (by assumption)]; decide)

theorem extract_mask_testBit2 (ext : Nat → Nat) (i : Nat) :
    (extract_mask 3 ext i).1.testBit 2 = decide (ext 2 > i) := by
  rw [extract_mask_eval]
  split_ifs <;>
    first
      | (rw [decide_eq_true (by assumption)]; decide)
      | (rw [decide_eq_false (by assumption)]; decide)

theorem extract_mask_testBit (ext : Nat → Nat) (i c : Nat) (hc : c < 3) :
    (extract_mask 3 ext i).1.testBit c = decide (ext c > i) := by
  interval_cases c
  · exact extract_mask_testBit0 ext i
  · exact extract_mask_testBit1 ext i
  · exact extract_mask_testBit2 ext i

/-- Number of index bits consumed by levels `i` and above. -/
def hilbS (B i : Nat) : Nat :=
  (grb_bits B 0 - i) + (grb_bits B 1 - i) + (grb_bits B 2 - i)

theorem hilbS_zero (B : Nat) : hilbS B 0 = B := by
  unfold hilbS grb_bits
  omega

theorem hilbS_top (B : Nat) : hilbS B (grb_bits B 0) = 0 := by
  unfold hilbS grb_bits
  omega

theorem hilbS_le (B i : Nat) : hilbS B i ≤ B := by
  unfold hilbS grb_bits
  omega

theorem hilbS_succ_eq (B i : Nat) :
    hilbS B i = hilbS B (i + 1) + (extract_mask 3 (grb_bits B) i).2 := by
  rw [extract_mask_eval]
  unfold hilbS grb_bits
  split_ifs <;> omega

/-- The fold state after processing levels `grb_bits B 0 - 1` down to `i`. -/
def hilbAfter (B n i : Nat) : Nat × Nat × Nat × (Fin 3 → Nat) :=
  (List.range' i (grb_bits B 0 - i)).reverse.foldl
    (hilbert_step 3 (grb_bits B) B n) (0, 1, 0, fun _ => 0)

theorem hilbAfter_top (B n : Nat) :
    hilbAfter B n (grb_bits B 0) = (0, 1, 0, fun _ => 0) := by
  rw [hilbAfter, Nat.sub_self]
  rfl

theorem hilbAfter_succ (B n i : Nat) (hi : i < grb_bits B 0) :
    hilbAfter B n i =
      hilbert_step 3 (grb_bits B) B n (hilbAfter B n (i + 1)) i := by
  rw [hilbAfter, hilbAfter]
  rw [show grb_bits B 0 - i = (grb_bits B 0 - (i + 1)) + 1 from by omega]
  rw [List.range'_succ, List.reverse_cons, List.foldl_append]
  rfl

theorem hilbert_point_eq_after (B n : Nat) :
    hilbert_point 3 (grb_bits B) n = (hilbAfter B n 0).2.2.2 := by
  have hmax : (List.range 3).foldl (fun m j => max m (grb_bits B j)) 0 =
      grb_bits B 0 := by
    rw [show List.range 3 = [0, 1, 2] from rfl]
    simp only [List.foldl_cons, List.foldl_nil]
    unfold grb_bits
    omega
  have htot : (List.range 3).foldl (fun t j => t + grb_bits B j) 0 = B := by
    rw [show List.range 3 = [0, 1, 2] from rfl]
    simp only [List.foldl_cons, List.foldl_nil]
    unfold grb_bits
    omega
  rw [hilbert_point, hilbAfter]
  simp only [hmax, htot, Nat.sub_zero, ← List.range_eq_range']


theorem hilbert_step_eval (B n i : Nat)
    (st : Nat × Nat × Nat × (Fin 3 → Nat)) :
    hilbert_step 3 (grb_bits B) B n st i =
      (levelE2 (extract_mask 3 (grb_bits B) i).1 st.1 st.2.1
        ((n >>> (B - st.2.2.1 - (extract_mask 3 (grb_bits B) i).2)) &&&
          ((1 <<< (extract_mask 3 (grb_bits B) i).2) - 1))
        (extract_mask 3 (grb_bits B) i).2,
       (st.2.1 +
          intra_direction
            (levelWL (extract_mask 3 (grb_bits B) i).1 st.1 st.2.1
              ((n >>> (B - st.2.2.1 - (extract_mask 3 (grb_bits B) i).2)) &&&
                ((1 <<< (extract_mask 3 (grb_bits B) i).2) - 1))
              (extract_mask 3 (grb_bits B) i).2).1 + 1) % 3,
       st.2.2.1 + (extract_mask 3 (grb_bits B) i).2,
       fun j : Fin 3 => st.2.2.2 j |||
         (((levelL (extract_mask 3 (grb_bits B) i).1 st.1 st.2.1
              ((n >>> (B - st.2.2.1 - (extract_mask 3 (grb_bits B) i).2)) &&&
                ((1 <<< (extract_mask 3 (grb_bits B) i).2) - 1))
              (extract_mask 3 (grb_bits B) i).2 >>> j.val) &&& 1) <<< i)) :=
  rfl

theorem point_write_testBit (l c i t : Nat) :
    ((((l >>> c) &&& 1) <<< i).testBit t) =
      (l.testBit c && decide (t = i)) := by
  rw [Nat.testBit_shiftLeft, Nat.testBit_and, Nat.testBit_shiftRight]
  by_cases ht : t = i
  · subst ht
    simp only [ge_iff_le, le_refl, decide_eq_true_eq, Nat.sub_self,
      decide_True, Bool.and_true]
    rw [show (1 : Nat) = 2 ^ 0 from rfl, Nat.testBit_two_pow]
    simp
  · by_cases hge : i ≤ t
    · have hne : t - i ≠ 0 := by omega
      rw [show (1 : Nat) = 2 ^ 0 from rfl, Nat.testBit_two_pow]
      simp [ht, Ne.symm hne]
    · simp [ht, hge]

theorem mask_and_lt (x f : Nat) : x &&& ((1 <<< f) - 1) < 2 ^ f := by
  rw [Nat.one_shiftLeft, Nat.and_pow_two_sub_one_eq_mod]
  exact Nat.mod_lt _ (Nat.pos_pow_of_pos f (by norm_num))


theorem hilbAfter_wf (B n : Nat) : ∀ g, g ≤ grb_bits B 0 →
    (hilbAfter B n (grb_bits B 0 - g)).1 < 8 ∧
    (hilbAfter B n (grb_bits B 0 - g)).2.1 < 3 ∧
    (hilbAfter B n (grb_bits B 0 - g)).2.2.1 = hilbS B (grb_bits B 0 - g) ∧
    (∀ c : Fin 3, ∀ t,
      ((hilbAfter B n (grb_bits B 0 - g)).2.2.2 c).testBit t = true →
        grb_bits B 0 - g ≤ t ∧ t < grb_bits B c.val) := by
  intro g
  induction g with
  | zero =>
    intro _
    rw [Nat.sub_zero, hilbAfter_top]
    refine ⟨by norm_num, by norm_num, (hilbS_top B).symm, ?_⟩
    intro c t hbit
    exact absurd hbit (by simp)
  | succ g ih =>
    intro hg
    obtain ⟨ihe, ihd, ihk, ihp⟩ := ih (by omega)
    have hi1 : (grb_bits B 0 - (g + 1)) + 1 = grb_bits B 0 - g := by omega
    have hilt : grb_bits B 0 - (g + 1) < grb_bits B 0 := by omega
    rw [← hi1] at ihe ihd ihk ihp
    rw [hilbAfter_succ B n _ hilt, hilbert_step_eval]
    have hem := extract_mask_fst_lt (grb_bits B) (grb_bits B 0 - (g + 1))
    have hf := extract_mask_snd_eq_popc3 (grb_bits B) (grb_bits B 0 - (g + 1))
    refine ⟨?_, ?_, ?_, ?_⟩
    · show levelE2 _ _ _ _ _ < 8
      rw [hf]
      exact hilbert_level_e2_lt _ hem _ ihe _ ihd _ (mask_and_lt _ _)
    · show _ % 3 < 3
      exact Nat.mod_lt _ (by norm_num)
    · show (hilbAfter B n ((grb_bits B 0 - (g + 1)) + 1)).2.2.1 +
        (extract_mask 3 (grb_bits B) (grb_bits B 0 - (g + 1))).2 =
        hilbS B (grb_bits B 0 - (g + 1))
      rw [ihk]
      exact (hilbS_succ_eq B _).symm
    · intro c t hbit
      have hbit2 := hbit
      rw [Nat.testBit_or, Bool.or_eq_true] at hbit2
      rcases hbit2 with hold | hwrite
      · have := ihp c t hold
        constructor
        · omega
        · exact this.2
      · rw [point_write_testBit, Bool.and_eq_true, decide_eq_true_eq]
          at hwrite
        obtain ⟨hl, rfl⟩ := hwrite
        refine ⟨le_refl _, ?_⟩
        by_contra hbc
        push_neg at hbc
        have hmask : (extract_mask 3 (grb_bits B)
            (grb_bits B 0 - (g + 1))).1.testBit c.val = false := by
          rw [extract_mask_testBit _ _ _ c.isLt]
          exact decide_eq_false (by omega)
        rw [hf] at hl
        have hcomp := hilbert_level_compact _ hem _ ihe _ ihd _
          (mask_and_lt (n >>>
            (B - (hilbAfter B n ((grb_bits B 0 - (g + 1)) + 1)).2.2.1 -
              popc3 (extract_mask 3 (grb_bits B)
                (grb_bits B 0 - (g + 1))).1)) _)
          c.val c.isLt hmask
        rw [hcomp] at hl
        exact Bool.noConfusion hl

theorem hilbAfter_wf_i (B n i : Nat) (hi : i ≤ grb_bits B 0) :
    (hilbAfter B n i).1 < 8 ∧
    (hilbAfter B n i).2.1 < 3 ∧
    (hilbAfter B n i).2.2.1 = hilbS B i ∧
    (∀ c : Fin 3, ∀ t,
      ((hilbAfter B n i).2.2.2 c).testBit t = true →
        i ≤ t ∧ t < grb_bits B c.val) := by
  have h := hilbAfter_wf B n (grb_bits B 0 - i) (by omega)
  rw [show grb_bits B 0 - (grb_bits B 0 - i) = i from by omega] at h
  exact h


theorem shift_mask_decomp (x f : Nat) :
    x = 2 ^ f * (x >>> f) + (x &&& ((1 <<< f) - 1)) := by
  rw [Nat.shiftRight_eq_div_pow, Nat.one_shiftLeft,
    Nat.and_pow_two_sub_one_eq_mod]
  exact (Nat.div_add_mod x (2 ^ f)).symm

theorem hilbert_step_inj (B n1 n2 i : Nat)
    (σ : Nat × Nat × Nat × (Fin 3 → Nat))
    (he : σ.1 < 8) (hd : σ.2.1 < 3)
    (hhigh : ∀ c : Fin 3, ∀ t, (σ.2.2.2 c).testBit t = true → i + 1 ≤ t)
    (hpt : (hilbert_step 3 (grb_bits B) B n1 σ i).2.2.2 =
        (hilbert_step 3 (grb_bits B) B n2 σ i).2.2.2) :
    hilbert_step 3 (grb_bits B) B n1 σ i =
        hilbert_step 3 (grb_bits B) B n2 σ i ∧
      (n1 >>> (B - σ.2.2.1 - (extract_mask 3 (grb_bits B) i).2)) &&&
          ((1 <<< (extract_mask 3 (grb_bits B) i).2) - 1) =
        (n2 >>> (B - σ.2.2.1 - (extract_mask 3 (grb_bits B) i).2)) &&&
          ((1 <<< (extract_mask 3 (grb_bits B) i).2) - 1) := by
  have hem := extract_mask_fst_lt (grb_bits B) i
  have hf := extract_mask_snd_eq_popc3 (grb_bits B) i
  rw [hilbert_step_eval, hilbert_step_eval] at hpt
  rw [hf] at hpt ⊢
  have hlbit : ∀ c : Fin 3,
      (levelL (extract_mask 3 (grb_bits B) i).1 σ.1 σ.2.1
        ((n1 >>> (B - σ.2.2.1 -
            popc3 (extract_mask 3 (grb_bits B) i).1)) &&&
          ((1 <<< popc3 (extract_mask 3 (grb_bits B) i).1) - 1))
        (popc3 (extract_mask 3 (grb_bits B) i).1)).testBit c.val =
      (levelL (extract_mask 3 (grb_bits B) i).1 σ.1 σ.2.1
        ((n2 >>> (B - σ.2.2.1 -
            popc3 (extract_mask 3 (grb_bits B) i).1)) &&&
          ((1 <<< popc3 (extract_mask 3 (grb_bits B) i).1) - 1))
        (popc3 (extract_mask 3 (grb_bits B) i).1)).testBit c.val := by
    intro c
    have h := congrFun hpt c
    have h2 := congrArg (fun x => Nat.testBit x i) h
    simp only at h2
    rw [Nat.testBit_or, Nat.testBit_or, point_write_testBit,
      point_write_testBit] at h2
    have hp : (σ.2.2.2 c).testBit i = false := by
      cases hpc : (σ.2.2.2 c).testBit i
      · rfl
      · exact absurd (hhigh c i hpc) (by omega)
    rw [hp] at h2
    simpa using h2
  have hl : levelL (extract_mask 3 (grb_bits B) i).1 σ.1 σ.2.1
      ((n1 >>> (B - σ.2.2.1 - popc3 (extract_mask 3 (grb_bits B) i).1)) &&&
        ((1 <<< popc3 (extract_mask 3 (grb_bits B) i).1) - 1))
      (popc3 (extract_mask 3 (grb_bits B) i).1) =
      levelL (extract_mask 3 (grb_bits B) i).1 σ.1 σ.2.1
      ((n2 >>> (B - σ.2.2.1 - popc3 (extract_mask 3 (grb_bits B) i).1)) &&&
        ((1 <<< popc3 (extract_mask 3 (grb_bits B) i).1) - 1))
      (popc3 (extract_mask 3 (grb_bits B) i).1) := by
    apply Nat.eq_of_testBit_eq
    intro t
    by_cases ht : t < 3
    · exact hlbit ⟨t, ht⟩
    · have hb1 := hilbert_level_l_lt _ hem _ he _ hd _ (mask_and_lt
        (n1 >>> (B - σ.2.2.1 - popc3 (extract_mask 3 (grb_bits B) i).1)) _)
      have hb2 := hilbert_level_l_lt _ hem _ he _ hd _ (mask_and_lt
        (n2 >>> (B - σ.2.2.1 - popc3 (extract_mask 3 (grb_bits B) i).1)) _)
      have h8 : (8 : Nat) ≤ 2 ^ t := by
        calc (8 : Nat) = 2 ^ 3 := by norm_num
        _ ≤ 2 ^ t := Nat.pow_le_pow_right (by norm_num) (by omega)
      rw [Nat.testBit_lt_two_pow (lt_of_lt_of_le hb1 h8),
        Nat.testBit_lt_two_pow (lt_of_lt_of_le hb2 h8)]
  have hinj := hilbert_level_inj _ hem _ he _ hd _ (mask_and_lt
      (n1 >>> (B - σ.2.2.1 - popc3 (extract_mask 3 (grb_bits B) i).1)) _) _
    (mask_and_lt
      (n2 >>> (B - σ.2.2.1 - popc3 (extract_mask 3 (grb_bits B) i).1)) _) hl
  obtain ⟨hr, hw⟩ := hinj
  refine ⟨?_, hr⟩
  rw [hilbert_step_eval, hilbert_step_eval, hf, hr]


theorem hilbAfter_inj (B n1 n2 : Nat) (h1 : n1 < 2 ^ B) (h2 : n2 < 2 ^ B) :
    ∀ g, g ≤ grb_bits B 0 →
      (hilbAfter B n1 (grb_bits B 0 - g)).2.2.2 =
        (hilbAfter B n2 (grb_bits B 0 - g)).2.2.2 →
      hilbAfter B n1 (grb_bits B 0 - g) =
          hilbAfter B n2 (grb_bits B 0 - g) ∧
        n1 >>> (B - hilbS B (grb_bits B 0 - g)) =
          n2 >>> (B - hilbS B (grb_bits B 0 - g)) := by
  intro g
  induction g with
  | zero =>
    intro _ _
    rw [Nat.sub_zero, hilbAfter_top, hilbAfter_top, hilbS_top, Nat.sub_zero]
    refine ⟨rfl, ?_⟩
    rw [Nat.shiftRight_eq_div_pow, Nat.shiftRight_eq_div_pow,
      Nat.div_eq_of_lt h1, Nat.div_eq_of_lt h2]
  | succ g ih =>
    intro hg hpt
    have hi1 : (grb_bits B 0 - (g + 1)) + 1 = grb_bits B 0 - g := by omega
    have hilt : grb_bits B 0 - (g + 1) < grb_bits B 0 := by omega
    have ihg := ih (by omega)
    rw [← hi1] at ihg
    obtain ⟨ihe1, ihd1, ihk1, ihp1⟩ :=
      hilbAfter_wf_i B n1 ((grb_bits B 0 - (g + 1)) + 1) (by omega)
    obtain ⟨ihe2, ihd2, ihk2, ihp2⟩ :=
      hilbAfter_wf_i B n2 ((grb_bits B 0 - (g + 1)) + 1) (by omega)
    rw [hilbAfter_succ B n1 _ hilt, hilbAfter_succ B n2 _ hilt,
      hilbert_step_eval, hilbert_step_eval] at hpt
    have holdpt : (hilbAfter B n1 ((grb_bits B 0 - (g + 1)) + 1)).2.2.2 =
        (hilbAfter B n2 ((grb_bits B 0 - (g + 1)) + 1)).2.2.2 := by
      funext c
      apply Nat.eq_of_testBit_eq
      intro t
      by_cases ht : (grb_bits B 0 - (g + 1)) + 1 ≤ t
      · have h := congrFun hpt c
        have hb := congrArg (fun x => Nat.testBit x t) h
        simp only at hb
        rw [Nat.testBit_or, Nat.testBit_or, point_write_testBit,
          point_write_testBit] at hb
        have hti : decide (t = grb_bits B 0 - (g + 1)) = false :=
          decide_eq_false (by omega)
        rw [hti] at hb
        simp only [Bool.and_false, Bool.or_false] at hb
        exact hb
      · have f1 : ((hilbAfter B n1
            ((grb_bits B 0 - (g + 1)) + 1)).2.2.2 c).testBit t = false := by
          cases hx : ((hilbAfter B n1
              ((grb_bits B 0 - (g + 1)) + 1)).2.2.2 c).testBit t
          · rfl
          · exact absurd (ihp1 c t hx).1 (by omega)
        have f2 : ((hilbAfter B n2
            ((grb_bits B 0 - (g + 1)) + 1)).2.2.2 c).testBit t = false := by
          cases hx : ((hilbAfter B n2
              ((grb_bits B 0 - (g + 1)) + 1)).2.2.2 c).testBit t
          · rfl
          · exact absurd (ihp2 c t hx).1 (by omega)
        rw [f1, f2]
    obtain ⟨hσeq, hsh⟩ := ihg holdpt
    rw [← hσeq] at hpt
    have hstep := hilbert_step_inj B n1 n2 (grb_bits B 0 - (g + 1))
      (hilbAfter B n1 ((grb_bits B 0 - (g + 1)) + 1)) ihe1 ihd1
      (fun c t hbit => (ihp1 c t hbit).1)
      (by rw [hilbert_step_eval, hilbert_step_eval]; exact hpt)
    obtain ⟨hτeq, hreq⟩ := hstep
    constructor
    · rw [hilbAfter_succ B n1 _ hilt, hilbAfter_succ B n2 _ hilt, ← hσeq]
      exact hτeq
    · rw [ihk1] at hreq
      have hSs := hilbS_succ_eq B (grb_bits B 0 - (g + 1))
      have hSle := hilbS_le B (grb_bits B 0 - (g + 1))
      have hshift_eq : B - hilbS B ((grb_bits B 0 - (g + 1)) + 1) -
          (extract_mask 3 (grb_bits B) (grb_bits B 0 - (g + 1))).2 =
          B - hilbS B (grb_bits B 0 - (g + 1)) := by omega
      rw [hshift_eq] at hreq
      have hhi : n1 >>> (B - hilbS B (grb_bits B 0 - (g + 1))) >>>
          (extract_mask 3 (grb_bits B) (grb_bits B 0 - (g + 1))).2 =
          n2 >>> (B - hilbS B (grb_bits B 0 - (g + 1))) >>>
          (extract_mask 3 (grb_bits B) (grb_bits B 0 - (g + 1))).2 := by
        rw [← Nat.shiftRight_add, ← Nat.shiftRight_add]
        rw [show B - hilbS B (grb_bits B 0 - (g + 1)) +
            (extract_mask 3 (grb_bits B) (grb_bits B 0 - (g + 1))).2 =
            B - hilbS B ((grb_bits B 0 - (g + 1)) + 1) from by omega]
        exact hsh
      rw [shift_mask_decomp (n1 >>> (B - hilbS B (grb_bits B 0 - (g + 1))))
          (extract_mask 3 (grb_bits B) (grb_bits B 0 - (g + 1))).2,
        shift_mask_decomp (n2 >>> (B - hilbS B (grb_bits B 0 - (g + 1))))
          (extract_mask 3 (grb_bits B) (grb_bits B 0 - (g + 1))).2,
        hhi, hreq]


theorem hilbert_tup_inj (B : Nat) : ∀ m < 2 ^ B, ∀ n < 2 ^ B,
    tup (hilbert_point 3 (grb_bits B) m) =
      tup (hilbert_point 3 (grb_bits B) n) → m = n := by
  intro m hm n hn heq
  have hfun : hilbert_point 3 (grb_bits B) m =
      hilbert_point 3 (grb_bits B) n := by
    funext c
    fin_cases c
    · exact congrArg Prod.fst heq
    · exact congrArg (fun x => x.2.1) heq
    · exact congrArg (fun x => x.2.2) heq
  rw [hilbert_point_eq_after, hilbert_point_eq_after] at hfun
  have h := hilbAfter_inj B m n hm hn (grb_bits B 0) (le_refl _)
    (by rw [Nat.sub_self]; exact hfun)
  obtain ⟨-, hsh⟩ := h
  rw [Nat.sub_self, hilbS_zero, Nat.sub_self, Nat.shiftRight_zero,
    Nat.shiftRight_zero] at hsh
  exact hsh

theorem hilbert_tup_mem (B : Nat) : ∀ n < 2 ^ B,
    tup (hilbert_point 3 (grb_bits B) n) ∈ tripleSpace B := by
  intro n hn
  rw [mem_tripleSpace]
  obtain ⟨-, -, -, hp⟩ := hilbAfter_wf_i B n 0 (Nat.zero_le _)
  rw [hilbert_point_eq_after]
  have hbound : ∀ c : Fin 3,
      (hilbAfter B n 0).2.2.2 c < 2 ^ grb_bits B c.val := by
    intro c
    apply Nat.lt_pow_two_of_testBit
    intro t htc
    cases hx : ((hilbAfter B n 0).2.2.2 c).testBit t
    · rfl
    · exact absurd (hp c t hx).2 (by omega)
  exact ⟨hbound 0, hbound 1, hbound 2⟩

/-- Packing a channel triple (generate.c padding), as a function of the
triple alone. -/
def pad_tup (B : Nat) (t : Nat × Nat × Nat) : Nat :=
  (t.2.1 <<< (24 - grb_bits B 1)) ||| (t.1 <<< (16 - grb_bits B 0)) |||
    (t.2.2 <<< (8 - grb_bits B 2))

theorem pad_color_eq (B : Nat) (g : Fin 3 → Nat) :
    pad_color B g = pad_tup B (tup g) := rfl

theorem base_map_split (B : Nat) (chan : Nat → Fin 3 → Nat) :
    (List.range (2 ^ B)).map (fun i => pad_color B (chan i)) =
      ((List.range (2 ^ B)).map (fun i => tup (chan i))).map (pad_tup B) := by
  rw [List.map_map]
  rfl

theorem morton_base_perm (B : Nat) :
    ((List.range (2 ^ B)).map (fun i => pad_color B (morton_grb B i))).Perm
      ((List.range (2 ^ B)).map (fun i => pad_color B (seq_grb B i))) := by
  rw [base_map_split, base_map_split]
  apply List.Perm.map
  exact range_map_perm_of_inj _ _ (2 ^ B) (tripleSpace B)
    (morton_tup_inj B) (seq_tup_inj B) (morton_tup_mem B) (seq_tup_mem B)
    (card_tripleSpace B)

theorem hilbert_base_perm (B : Nat) :
    ((List.range (2 ^ B)).map
        (fun i => pad_color B (hilbert_point 3 (grb_bits B) i))).Perm
      ((List.range (2 ^ B)).map (fun i => pad_color B (seq_grb B i))) := by
  rw [base_map_split, base_map_split]
  apply List.Perm.map
  exact range_map_perm_of_inj _ _ (2 ^ B) (tripleSpace B)
    (hilbert_tup_inj B) (seq_tup_inj B) (hilbert_tup_mem B) (seq_tup_mem B)
    (card_tripleSpace B)

theorem generate_colors_perm (B : Nat) (mode : Mode) (rand : Nat → Nat) :
    (generate_colors B mode rand).Perm
      (generate_colors B Mode.sequential rand) := by
  cases mode with
  | sequential => exact List.Perm.refl _
  | hueSort =>
    show (List.insertionSort _ _).Perm _
    exact List.perm_insertionSort _ _
  | random =>
    show (fisherYates rand _).Perm _
    exact fisherYates_perm _ _
  | morton =>
    show (List.map _ _).Perm (List.map _ _)
    exact morton_base_perm B
  | hilbert =>
    show (List.map _ _).Perm (List.map _ _)
    exact hilbert_base_perm B


/-- C7: for every bit depth `B` and every order mode (sequential, Morton,
Hilbert, hue-sort, random - each with any RNG draws), the multiset of
`2^B` emitted colors is the same; in particular the Morton and Hilbert
orderings are permutations of the sequential enumeration.  Proof: each
mode's channel map is an injection of `range (2^B)` into the triple space
with per-channel bit counts `(B+2-c)/3` (cardinality exactly `2^B`), so
the channel-triple lists are permutations of each other; hue-sort is an
insertion sort and the Fisher-Yates shuffle is a composition of
in-bounds swaps, both of which permute the base list. -/
theorem c7_color_multiset_mode_independent (B : Nat) (m1 m2 : Mode)
    (r1 r2 : Nat → Nat) :
    (generate_colors B m1 r1).Perm (generate_colors B m2 r2) := by
  have h1 := generate_colors_perm B m1 r1
  have h2 := generate_colors_perm B m2 r2
  have hseq : generate_colors B Mode.sequential r1 =
      generate_colors B Mode.sequential r2 := rfl
  exact h1.trans (hseq ▸ h2.symm)


end KDF
